import Mathlib

/-!
mdl2mdl: the MDL builder, its compatibility checker and the import block.

A shallow embedding of `apps/mdl2mdl/MDLBuilder.{h,cpp}` and of the parts of
`apps/mdl2mdl/mdl2mdl.cpp` that write the output file.

Conventions of the embedding

* `std::string` is a list of characters (`Str`); `size_t` is a natural number,
  and every `size_t` subtraction or addition that can wrap is reduced modulo `2^64`
  (`sizeT`); `std::string::npos` is `2^64 - 1`.
* `std::map` / `std::set` are association lists / lists kept in key order, so that
  iteration visits the entries in the order the C++ containers do.
* `std::unique_ptr<T>` that may be empty is `Option T`; pointers and iterators into the
  builder's own containers (`m_currentMaterial`, `m_currentParameter`, `m_currentEnum`,
  `m_currentField`, `m_currentStructure`) are the index or key of the element they refer to
  (for a parameter or a field: the index of its material and its own index or key); the
  value `none` is the null pointer or the iterator `end()`, and a pointer whose target was
  destroyed refers to nothing: an event that dereferences it fails.
* The class hierarchies below `ValueData` and `ExpressionData` are inductive types, one
  constructor per derived class; a `dynamic_cast` chain is a `match`.
* The embedding is of the configuration in which `NDEBUG` is not defined: the members
  `m_currentVectorSize`, `m_fileName` and the function `isCompatibleType` only exist there.
  An event is a function into `Option`: `none` means that the event does not return
  normally (a failed `DP_ASSERT`, or a fault such as the dereference of a null pointer).
-/

namespace MDL

/-! ## Strings and `size_t` -/

abbrev Str := List Char

/-- The value of `std::string::npos`, the largest `size_t`. -/
def npos : Nat := 2 ^ 64 - 1

/-- Reduction of an integer to `size_t` (unsigned, 64 bit, wrapping). -/
def sizeT (z : Int) : Nat := (z % 2 ^ 64).toNat

/-- The function `std::string::find(char c, size_t pos)`: the first index `≥ pos` holding `c`. -/
def find (s : Str) (c : Char) (pos : Nat) : Nat :=
  if c ∈ s.drop pos then pos + (s.drop pos).indexOf c else npos

/-- The function `std::string::find_first_of(char c)`, searching from the start. -/
def find_first_of (s : Str) (c : Char) : Nat := find s c 0

/-- The function `std::string::find_last_of(char c, size_t pos)`: the last index `≤ pos`
holding `c`; `pos = npos` searches the whole string. -/
def find_last_of (s : Str) (c : Char) (pos : Nat) : Nat :=
  let t := s.take (pos + 1)
  if c ∈ t then t.length - 1 - t.reverse.indexOf c else npos

/-- The function `std::string::substr(pos, count)`. The C++ function throws when
`pos > size()`; at every call site of the embedded code `pos ≤ size()` holds. -/
def substr (s : Str) (pos count : Nat) : Str := (s.drop pos).take count

/-- The comparison `std::string::operator<`: lexicographic on the characters. -/
def strLt : Str → Str → Bool
  | [], [] => false
  | [], _ :: _ => true
  | _ :: _, [] => false
  | a :: as, b :: bs => if a < b then true else if b < a then false else strLt as bs

/-- The character `s[i]` (`'\0'` at `i = size()`, as for a `const std::string`). -/
def charAt (s : Str) (i : Nat) : Char := s.getD i (Char.ofNat 0)

/-- The value `c - '0'` converted to `size_t`. -/
def digitValue (c : Char) : Nat := sizeT ((c.toNat : Int) - 48)

/-! ## Ordered containers -/

/-- Lookup `std::map::find`, `none` for `end()`. -/
def mapFind {κ β : Type} [DecidableEq κ] (m : List (κ × β)) (k : κ) : Option β :=
  match m with
  | [] => none
  | (k', v) :: rest => if k = k' then some v else mapFind rest k

/-- Insertion `std::map::insert`: an existing entry for the key is kept unchanged. -/
def mapInsert {κ β : Type} [DecidableEq κ] (lt : κ → κ → Bool) (k : κ) (v : β) :
    List (κ × β) → List (κ × β)
  | [] => [(k, v)]
  | (k', v') :: rest =>
    if k = k' then (k', v') :: rest
    else if lt k k' then (k, v) :: (k', v') :: rest
    else (k', v') :: mapInsert lt k v rest

/-- Assignment `m[k] = v` on a `std::map`: inserts, or overwrites an existing entry. -/
def mapSet {κ β : Type} [DecidableEq κ] (lt : κ → κ → Bool) (k : κ) (v : β) :
    List (κ × β) → List (κ × β)
  | [] => [(k, v)]
  | (k', v') :: rest =>
    if k = k' then (k, v) :: rest
    else if lt k k' then (k, v) :: (k', v') :: rest
    else (k', v') :: mapSet lt k v rest

/-- Insertion `std::set<std::string>::insert`. -/
def setInsert (x : Str) : List Str → List Str
  | [] => [x]
  | y :: rest =>
    if x = y then y :: rest
    else if strLt x y then x :: y :: rest
    else y :: setInsert x rest

/-- The keys of a map, in iteration order. -/
def mapKeys {κ β : Type} (m : List (κ × β)) : List κ := m.map Prod.fst

/-! ## Data model (`MDLBuilder.h`) -/

/-- A `float`, kept as its 32 bit pattern; the builder only stores and moves floats. -/
structure FloatBits where
  bits : Nat
deriving DecidableEq, Repr

inductive GammaMode where
  | DEFAULT
  | LINEAR
  | SRGB
deriving DecidableEq, Repr

inductive ValueData where
  | ValueDataBool (value : Bool)
  | ValueDataColor (r g b : FloatBits)
  | ValueDataEnum (typeSpace type value : Str)
  | ValueDataFloat (value : FloatBits)
  | ValueDataInt (value : Int)
  | ValueDataString (value : Str)
  | ValueDataTexture (name : Str) (gamma : GammaMode)
  | ValueDataVector (values : List FloatBits)
  | ValueDataMatrix (values : List (List FloatBits))
deriving DecidableEq, Repr

structure ArgumentData where
  typeSpace : Str
  type : Str
  name : Str
deriving DecidableEq, Repr

inductive ExpressionData where
  | ExpressionDataArray (typeSpace type : Str) (values : List ExpressionData)
  | ExpressionDataCall (typeNameSpace type callNameSpace call : Str)
      (argumentData : List ArgumentData) (arguments : List (Nat × ExpressionData))
  | ExpressionDataConstant (value : ValueData)
  | ExpressionDataParameter (index : Nat)
  | ExpressionDataTemporary (index : Nat)
deriving Repr

open ValueData ExpressionData

structure EnumData where
  name : Str
  elements : List (Nat × Str)
deriving DecidableEq, Repr

structure ParameterData where
  modifier : Str
  type : Str
  name : Str
  value : Option ExpressionData
  annotations : List ExpressionData
deriving Repr

structure MaterialData where
  hash : Nat × Nat × Nat × Nat
  name : Str
  parameters : List ParameterData
  annotations : List ExpressionData
  temporaries : List ExpressionData
  fields : List (Str × Option ExpressionData)
deriving Repr

structure StructureData where
  nameSpace : Str
  name : Str
  elements : List ArgumentData
deriving DecidableEq, Repr

/-- The private state of an `MDLBuilder`. -/
structure MDLBuilder where
  m_currentEnum : Option Str
  m_currentExpression : List ExpressionData
  m_currentField : Option (Nat × Str)
  m_currentIndex : List Nat
  m_currentMaterial : Option Nat
  m_currentParameter : Option (Nat × Nat)
  m_currentStructure : List Str
  m_enums : List (Str × EnumData)
  m_imports : List (Str × List Str)
  m_materials : List MaterialData
  m_structures : List (Str × StructureData)
  m_currentVectorSize : List Nat
  m_fileName : Str
deriving Repr

/-- Modelled from the spec: the macro `DP_ASSERT` is declared outside the given sources.
A contract violation is an unrecoverable failure that ends the processing of the file,
so an assertion whose condition is false makes the event fail. -/
def DP_ASSERT (cond : Bool) : Option Unit := if cond then some () else none

/-- The constructor `MDLBuilder::MDLBuilder()`. -/
def MDLBuilder.new : MDLBuilder :=
  { m_currentEnum := none, m_currentExpression := [], m_currentField := none,
    m_currentIndex := [], m_currentMaterial := none, m_currentParameter := none,
    m_currentStructure := [], m_enums := [], m_imports := [], m_materials := [],
    m_structures := [], m_currentVectorSize := [], m_fileName := [] }

/-! ## Name and type resolution (static functions of `MDLBuilder.cpp`) -/

def extractFunctionName (call : Str) : Str :=
  let bracePos := find_first_of call '('
  let startPos := find_last_of call ':' bracePos
  substr call (sizeT (startPos + 1)) (sizeT ((bracePos : Int) - startPos - 1))

def extractNameSpace (name : Str) : Option Str :=
  if substr name 0 2 = "::".toList ∨ substr name 0 5 = "mdl::".toList then do
    let bracePos := find_first_of name '('
    let startPos := find_first_of name ':'
    let endPos := find_last_of name ':' bracePos
    DP_ASSERT (startPos != npos && endPos != npos && decide (startPos < endPos))
    let count := sizeT ((endPos : Int) - startPos - 3)
    let count := if endPos < count then 0 else count
    pure (substr name (sizeT (startPos + 2)) count)
  else do
    DP_ASSERT (find_first_of name ':' == npos)
    pure []

def extractTypeName (type : Str) : Str :=
  let typeName := type.map Char.toLower
  let pos := find_last_of typeName ':' npos
  let typeName := if pos ≠ npos then substr typeName (pos + 1) npos else typeName
  let pos := find typeName '<' 0
  if pos ≠ npos then
    let commaPos := find typeName ',' pos
    if commaPos ≠ npos then
      substr typeName 0 pos ++ substr typeName (pos + 1) (sizeT ((commaPos : Int) - pos - 1))
        ++ "x".toList
        ++ substr typeName (commaPos + 1) (sizeT ((typeName.length : Int) - commaPos - 2))
    else
      substr typeName 0 pos ++ substr typeName (pos + 1) (sizeT ((typeName.length : Int) - pos - 2))
  else typeName

/-- The function `tokenizeType`, returning the pair `(nameSpace, name)`. -/
def tokenizeType (type : Str) : Option (Str × Str) := do
  let nameSpace ← extractNameSpace type
  pure (nameSpace, extractTypeName type)


/-! ## Import table and type registration -/

/-- The statement `m_imports[nameSpace].insert(name)`. -/
def importsInsert (imports : List (Str × List Str)) (nameSpace name : Str) :
    List (Str × List Str) :=
  mapSet strLt nameSpace (setInsert name ((mapFind imports nameSpace).getD [])) imports

def registerImport (s : MDLBuilder) (nameSpace name : Str) : MDLBuilder :=
  if nameSpace ≠ [] ∧ substr name 0 8 ≠ "operator".toList then
    { s with m_imports := importsInsert s.m_imports nameSpace name }
  else s

/-- The table `standardTypes` of `registerType`. -/
def standardTypes : List Str :=
  ["bool".toList, "color".toList, "float".toList, "float2".toList, "float3".toList,
   "int".toList, "string".toList, "texture_2d".toList]

/-- The function `MDLBuilder::registerType`, returning the type name and the new state. -/
def registerType (s : MDLBuilder) (name : Str) : Option (Str × MDLBuilder) :=
  let endPos := find_first_of name '['
  let typeName := if endPos ≠ npos then substr name 0 endPos else name
  if typeName ∈ standardTypes then some (typeName, s)
  else do
    let nameSpace ← extractNameSpace typeName
    let startPos := find_last_of typeName ':' npos
    DP_ASSERT (startPos != npos)
    let typeName := substr typeName (sizeT (startPos + 1)) npos
    if nameSpace ≠ [] then
      pure (typeName, { s with m_imports := importsInsert s.m_imports nameSpace typeName })
    else pure (typeName, s)

/-! ## The compatibility checker -/

/-- The material `*m_currentMaterial`, `none` when the pointer is null or dangling. -/
def MDLBuilder.currentMaterial (s : MDLBuilder) : Option MaterialData :=
  s.m_currentMaterial.bind fun i => s.m_materials[i]?

/-- The loop over the columns of a matrix in `isCompatibleType`: it runs while `ret` holds
and overwrites `ret` with the size test of the column. -/
def matrixColumnsLoop (type : Str) : List (List FloatBits) → Bool → Bool
  | [], ret => ret
  | column :: rest, ret =>
    if ret then matrixColumnsLoop type rest (digitValue (charAt type 7) == column.length)
    else ret

/-- The branch of `isCompatibleType` for an `ExpressionDataConstant`. -/
def isCompatibleConstant (type : Str) : ValueData → Bool
  | ValueDataBool _ => type == "bool".toList
  | ValueDataColor _ _ _ => type == "color".toList
  | ValueDataEnum _ t _ => type == t
  | ValueDataFloat _ => type == "float".toList
  | ValueDataInt _ => type == "int".toList
  | ValueDataMatrix values =>
    matrixColumnsLoop type values
      (type.length == 8 && substr type 0 5 == "float".toList && (charAt type 5).isDigit
        && digitValue (charAt type 5) == values.length && charAt type 6 == 'x'
        && (charAt type 7).isDigit)
  | ValueDataString _ => type == "string".toList
  | ValueDataTexture _ _ => type == "texture_2d".toList
  | ValueDataVector values =>
    type.length == 6 && substr type 0 5 == "float".toList && (charAt type 5).isDigit
      && digitValue (charAt type 5) == values.length

/-- The function `MDLBuilder::isCompatibleType`, for the current material `material`.
The recursion of the C++ function (through a temporary) is not structural; it is bounded
here by `fuel`, one unit per temporary followed. The result `none` stands for a failed
assertion, an index outside `parameters` / `temporaries`, a null `m_currentMaterial`,
or exhausted fuel. -/
def isCompatibleTypeFuel (material : Option MaterialData) (type : Str) :
    Nat → ExpressionData → Option Bool
  | _, ExpressionDataArray _ t _ => do
    let bracePos := find type '[' 0
    DP_ASSERT (bracePos == npos || type.getLast? == some ']')
    pure (substr type 0 bracePos == t)
  | _, ExpressionDataCall _ t _ _ _ _ => some (t == type)
  | _, ExpressionDataConstant value => some (isCompatibleConstant type value)
  | _, ExpressionDataParameter index => do
    let m ← material
    let p ← m.parameters[index]?
    pure (type == p.type)
  | 0, ExpressionDataTemporary _ => none
  | fuel + 1, ExpressionDataTemporary index => do
    let m ← material
    let t ← m.temporaries[index]?
    isCompatibleTypeFuel material type fuel t

/-- The function `MDLBuilder::isCompatibleType` in builder state `s`. A chain of temporaries
longer than the number of temporaries of the material revisits a temporary and never ends,
so that number (plus one for the first step) is fuel enough. -/
def isCompatibleType (s : MDLBuilder) (type : Str) (data : ExpressionData) : Option Bool :=
  isCompatibleTypeFuel s.currentMaterial type
    ((s.currentMaterial.map fun m => m.temporaries.length).getD 0 + 1) data


/-! ## Access to the objects the builder's pointers refer to -/

/-- Write `m` back to `*m_currentMaterial`. -/
def MDLBuilder.setCurrentMaterial (s : MDLBuilder) (m : MaterialData) : MDLBuilder :=
  match s.m_currentMaterial with
  | some i => { s with m_materials := s.m_materials.set i m }
  | none => s

/-- The loop of `annotationBegin` and `callBegin` over the declared arguments: every
argument type is split into name space and type name and registered as an import. -/
def registerArguments (s : MDLBuilder) :
    List (Str × Str) → Option (List ArgumentData × MDLBuilder)
  | [] => some ([], s)
  | arg :: rest => do
    let argSpace ← extractNameSpace arg.1
    let argName := extractTypeName arg.1
    let (callArguments, s') ← registerArguments (registerImport s argSpace argName) rest
    pure (ArgumentData.mk argSpace argName arg.2 :: callArguments, s')

/-- The test `dynamic_cast<ExpressionDataCall*>(data) != nullptr`. -/
def isCall : ExpressionData → Bool
  | ExpressionDataCall _ _ _ _ _ _ => true
  | _ => false

/-! ## The events (`MDLBuilder.cpp`), in the order of the source file -/

def annotationBegin (s : MDLBuilder) (name : Str) (arguments : List (Str × Str)) :
    Option (Bool × MDLBuilder) := do
  let callSpace ← extractNameSpace name
  let callName := extractFunctionName name
  let s := registerImport s callSpace callName
  let (callArguments, s) ← registerArguments s arguments
  let call := ExpressionDataCall [] "void".toList callSpace callName callArguments []
  pure (true, { s with m_currentExpression := call :: s.m_currentExpression })

def annotationEnd (s : MDLBuilder) : Option MDLBuilder :=
  match s.m_currentExpression with
  | [] => none
  | top :: rest => do
    DP_ASSERT (isCall top)
    match s.m_currentParameter with
    | some (mi, i) => do
      let m ← s.m_materials[mi]?
      let p ← m.parameters[i]?
      let p' := { p with annotations := p.annotations ++ [top] }
      let m' := { m with parameters := m.parameters.set i p' }
      pure { s with m_materials := s.m_materials.set mi m', m_currentExpression := rest }
    | none => do
      let m ← s.currentMaterial
      let s := s.setCurrentMaterial { m with annotations := m.annotations ++ [top] }
      pure { s with m_currentExpression := rest }

def argumentBegin (s : MDLBuilder) (idx : Nat) : Option (Bool × MDLBuilder) :=
  match s.m_currentExpression with
  | ExpressionDataCall _ _ _ _ argumentData arguments :: _ => do
    DP_ASSERT (decide (idx < argumentData.length) && (mapFind arguments idx).isNone)
    pure (true, { s with m_currentIndex := idx :: s.m_currentIndex })
  | _ => none

def argumentEnd (s : MDLBuilder) : Option MDLBuilder :=
  match s.m_currentExpression, s.m_currentIndex with
  | argument :: ExpressionDataCall ts t cs c argumentData arguments :: rest, idx :: indices => do
    DP_ASSERT (mapFind arguments idx).isNone
    let slot ← argumentData[idx]?
    let ok ← isCompatibleType s slot.type argument
    DP_ASSERT ok
    let call := ExpressionDataCall ts t cs c argumentData (mapSet (· < ·) idx argument arguments)
    pure { s with m_currentExpression := call :: rest, m_currentIndex := indices }
  | _, _ => none

def arrayBegin (s : MDLBuilder) (type : Str) (size : Nat) : Option (Bool × MDLBuilder) := do
  let (typeSpace, typeName) ← tokenizeType type
  let (_, s) ← registerType s type
  let array := ExpressionDataArray typeSpace typeName []
  pure (true, { s with m_currentExpression := array :: s.m_currentExpression,
                       m_currentVectorSize := size :: s.m_currentVectorSize })

def arrayEnd (s : MDLBuilder) : Option MDLBuilder :=
  match s.m_currentExpression, s.m_currentVectorSize with
  | ExpressionDataArray _ _ values :: _, size :: sizes => do
    DP_ASSERT (values.length == size)
    pure { s with m_currentVectorSize := sizes }
  | _, _ => none

def arrayElementBegin (s : MDLBuilder) (idx : Nat) : Option (Bool × MDLBuilder) :=
  match s.m_currentExpression with
  | ExpressionDataArray _ _ values :: _ => do
    DP_ASSERT (idx == values.length)
    pure (true, { s with m_currentIndex := idx :: s.m_currentIndex })
  | _ => none

def arrayElementEnd (s : MDLBuilder) : Option MDLBuilder :=
  match s.m_currentExpression, s.m_currentIndex with
  | argument :: ExpressionDataArray ts t values :: rest, idx :: indices => do
    DP_ASSERT (values.length == idx)
    let ok ← isCompatibleType s t argument
    DP_ASSERT ok
    let array := ExpressionDataArray ts t (values ++ [argument])
    pure { s with m_currentExpression := array :: rest, m_currentIndex := indices }
  | _, _ => none

def callBegin (s : MDLBuilder) (type name : Str) (arguments : List (Str × Str)) :
    Option (Bool × MDLBuilder) := do
  let typeSpace ← extractNameSpace type
  let typeName := extractTypeName type
  let s := registerImport s typeSpace typeName
  let callSpace ← extractNameSpace name
  let callName := extractFunctionName name
  let s := registerImport s callSpace callName
  let (callArguments, s) ← registerArguments s arguments
  let call := ExpressionDataCall typeSpace typeName callSpace callName callArguments []
  pure (true, { s with m_currentExpression := call :: s.m_currentExpression })

def callEnd (s : MDLBuilder) : Option MDLBuilder :=
  match s.m_currentExpression with
  | [] => none
  | top :: _ => do
    DP_ASSERT (isCall top)
    pure s

def defaultRef (s : MDLBuilder) (type : Str) : Option MDLBuilder := do
  DP_ASSERT (type == "texture_2d".toList)
  let texture := ExpressionDataConstant (ValueDataTexture [] GammaMode.DEFAULT)
  pure { s with m_currentExpression := texture :: s.m_currentExpression }

def enumTypeBegin (s : MDLBuilder) (name : Str) (_size : Nat) : Option (Bool × MDLBuilder) := do
  DP_ASSERT s.m_currentEnum.isNone
  let (enumName, s) ← registerType s name
  let s := if (mapFind s.m_enums enumName).isNone then
      { s with m_enums := mapInsert strLt enumName (EnumData.mk enumName []) s.m_enums,
               m_currentEnum := some enumName }
    else s
  pure (s.m_currentEnum.isSome, s)

def enumTypeEnd (s : MDLBuilder) : Option MDLBuilder := do
  DP_ASSERT s.m_currentEnum.isSome
  pure { s with m_currentEnum := none }

def enumTypeValue (s : MDLBuilder) (name : Str) (value : Int) : Option MDLBuilder := do
  let key ← s.m_currentEnum
  let e ← mapFind s.m_enums key
  DP_ASSERT (mapFind e.elements (sizeT value)).isNone
  let e' := { e with elements := mapSet (· < ·) (sizeT value) name e.elements }
  pure { s with m_enums := mapSet strLt key e' s.m_enums }

def fieldBegin (s : MDLBuilder) (name : Str) : Option (Bool × MDLBuilder) := do
  let mi ← s.m_currentMaterial
  let m ← s.m_materials[mi]?
  DP_ASSERT (mapFind m.fields name).isNone
  let m' := { m with fields := mapInsert strLt name none m.fields }
  pure (true, { s with m_materials := s.m_materials.set mi m', m_currentField := some (mi, name) })

def fieldEnd (s : MDLBuilder) : Option MDLBuilder :=
  match s.m_currentExpression with
  | [top] => do
    let _ ← s.currentMaterial
    let (mi, name) ← s.m_currentField
    let m ← s.m_materials[mi]?
    let _ ← mapFind m.fields name
    let m' := { m with fields := mapSet strLt name (some top) m.fields }
    pure { s with m_materials := s.m_materials.set mi m', m_currentExpression := [],
                  m_currentField := none }
  | _ => none


/-- The body of `fileBegin` and of `clear`: the four tables are emptied. -/
def MDLBuilder.clearTables (s : MDLBuilder) : MDLBuilder :=
  { s with m_enums := [], m_imports := [], m_materials := [], m_structures := [] }

def fileBegin (s : MDLBuilder) (name : Str) : Option (Bool × MDLBuilder) := do
  let s := s.clearTables
  let dotPos := find_last_of name '.' npos
  DP_ASSERT (dotPos != npos)
  DP_ASSERT (substr name dotPos 4 == ".mdl".toList)
  let startPos := find_last_of name '\\' npos
  DP_ASSERT (startPos != npos && decide (startPos < dotPos))
  let fileName := substr name (sizeT (startPos + 1)) (sizeT ((dotPos : Int) - startPos - 1))
  pure (true, { s with m_fileName := fileName })

def fileEnd (s : MDLBuilder) : Option MDLBuilder := some s

def clear (s : MDLBuilder) : Option MDLBuilder := do
  DP_ASSERT (s.m_currentEnum.isNone && s.m_currentExpression.isEmpty
    && s.m_currentMaterial.isNone && s.m_currentParameter.isNone
    && s.m_currentStructure.isEmpty)
  pure s.clearTables

def materialBegin (s : MDLBuilder) (name : Str) (hash : Nat × Nat × Nat × Nat) :
    Option (Bool × MDLBuilder) := do
  DP_ASSERT s.m_currentMaterial.isNone
  DP_ASSERT (substr name 0 5 == "mdl::".toList)
  let endPos := find_last_of name ':' npos
  DP_ASSERT (endPos != npos)
  let startPos := find_last_of name ':' (sizeT ((endPos : Int) - 2))
  DP_ASSERT (startPos != npos)
  DP_ASSERT (substr name (sizeT (startPos + 1)) (sizeT ((endPos : Int) - startPos - 2))
    == s.m_fileName)
  let materialName := substr name (sizeT (endPos + 1)) npos
  DP_ASSERT (s.m_materials.all fun md => md.name != materialName)
  let md : MaterialData :=
    { hash := hash, name := materialName, parameters := [], annotations := [],
      temporaries := [], fields := [] }
  pure (true, { s with m_materials := s.m_materials ++ [md],
                       m_currentMaterial := some s.m_materials.length })

def materialEnd (s : MDLBuilder) : Option MDLBuilder := do
  DP_ASSERT s.m_currentMaterial.isSome
  pure { s with m_currentMaterial := none }

def matrixBegin (s : MDLBuilder) (type : Str) : Option (Bool × MDLBuilder) := do
  DP_ASSERT (type.length == 8 && substr type 0 5 == "float".toList && (charAt type 5).isDigit
    && charAt type 6 == 'x' && (charAt type 7).isDigit)
  let matrix := ExpressionDataConstant (ValueDataMatrix [])
  pure (true, { s with m_currentExpression := matrix :: s.m_currentExpression,
                       m_currentVectorSize := digitValue (charAt type 5) :: s.m_currentVectorSize })

def matrixElementBegin (s : MDLBuilder) (idx : Nat) : Option (Bool × MDLBuilder) :=
  match s.m_currentExpression with
  | ExpressionDataConstant (ValueDataMatrix values) :: _ => do
    DP_ASSERT (idx == values.length)
    pure (true, { s with m_currentIndex := idx :: s.m_currentIndex })
  | _ => none

def matrixElementEnd (s : MDLBuilder) : Option MDLBuilder :=
  match s.m_currentExpression, s.m_currentIndex with
  | ExpressionDataConstant (ValueDataVector column)
      :: ExpressionDataConstant (ValueDataMatrix values) :: rest, idx :: indices => do
    DP_ASSERT (values.length == idx)
    let matrix := ExpressionDataConstant (ValueDataMatrix (values ++ [column]))
    pure { s with m_currentExpression := matrix :: rest, m_currentIndex := indices }
  | _, _ => none

def matrixEnd (s : MDLBuilder) : Option MDLBuilder :=
  match s.m_currentExpression, s.m_currentVectorSize with
  | ExpressionDataConstant (ValueDataMatrix values) :: _, size :: sizes => do
    DP_ASSERT (values.length == size)
    pure { s with m_currentVectorSize := sizes }
  | _, _ => none

def parameterBegin (s : MDLBuilder) (index : Nat) (modifier type name : Str) :
    Option (Bool × MDLBuilder) := do
  DP_ASSERT s.m_currentParameter.isNone
  let mi ← s.m_currentMaterial
  let m ← s.m_materials[mi]?
  DP_ASSERT (m.parameters.length == index)
  DP_ASSERT (m.parameters.all fun pd => pd.name != name)
  let (typeName, s) ← registerType s type
  let pd : ParameterData :=
    { modifier := modifier, type := typeName, name := name, value := none, annotations := [] }
  let m' := { m with parameters := m.parameters ++ [pd] }
  pure (true, { s with m_materials := s.m_materials.set mi m',
                       m_currentParameter := some (mi, m.parameters.length) })

def parameterEnd (s : MDLBuilder) : Option MDLBuilder :=
  match s.m_currentParameter, s.m_currentExpression with
  | some (mi, i), [top] => do
    let m ← s.m_materials[mi]?
    let p ← m.parameters[i]?
    let ok ← isCompatibleType s p.type top
    DP_ASSERT ok
    let m' := { m with parameters := m.parameters.set i { p with value := some top } }
    pure { s with m_materials := s.m_materials.set mi m', m_currentExpression := [],
                  m_currentParameter := none }
  | _, _ => none

def referenceParameter (s : MDLBuilder) (idx : Nat) : Option MDLBuilder :=
  some { s with m_currentExpression := ExpressionDataParameter idx :: s.m_currentExpression }

def referenceTemporary (s : MDLBuilder) (idx : Nat) : Option MDLBuilder :=
  some { s with m_currentExpression := ExpressionDataTemporary idx :: s.m_currentExpression }

def structureBegin (s : MDLBuilder) (name : Str) : Option (Bool × MDLBuilder) := do
  let sd ← mapFind s.m_structures name
  let call := ExpressionDataCall sd.nameSpace sd.name sd.nameSpace sd.name sd.elements []
  pure (true, { s with m_currentExpression := call :: s.m_currentExpression })

def structureEnd (s : MDLBuilder) : Option MDLBuilder :=
  match s.m_currentExpression with
  | [] => none
  | top :: _ => do
    DP_ASSERT (isCall top)
    pure s

def structureMemberBegin (s : MDLBuilder) (idx : Nat) : Option (Bool × MDLBuilder) :=
  match s.m_currentExpression with
  | ExpressionDataCall _ _ _ _ argumentData _ :: _ => do
    DP_ASSERT (decide (idx < argumentData.length))
    pure (true, { s with m_currentIndex := idx :: s.m_currentIndex })
  | _ => none

def structureMemberEnd (s : MDLBuilder) : Option MDLBuilder :=
  match s.m_currentExpression, s.m_currentIndex with
  | argument :: ExpressionDataCall ts t cs c argumentData arguments :: rest, idx :: indices => do
    DP_ASSERT (mapFind arguments idx).isNone
    let slot ← argumentData[idx]?
    let ok ← isCompatibleType s slot.type argument
    DP_ASSERT ok
    let call := ExpressionDataCall ts t cs c argumentData (mapSet (· < ·) idx argument arguments)
    pure { s with m_currentExpression := call :: rest, m_currentIndex := indices }
  | _, _ => none

def structureTypeBegin (s : MDLBuilder) (name : Str) : Option (Bool × MDLBuilder) := do
  let (nameSpace, typeName) ← tokenizeType name
  let s := registerImport s nameSpace typeName
  let structureUnknown := (mapFind s.m_structures name).isNone
  let s := if structureUnknown then
      { s with m_structures := mapInsert strLt name (StructureData.mk nameSpace typeName [])
                                 s.m_structures,
               m_currentStructure := name :: s.m_currentStructure }
    else s
  pure (structureUnknown, s)

def structureTypeElement (s : MDLBuilder) (type name : Str) : Option MDLBuilder :=
  match s.m_currentStructure with
  | [] => none
  | key :: _ => do
    let typeSpace ← extractNameSpace type
    let typeName := extractTypeName type
    let s := registerImport s typeSpace typeName
    let sd ← mapFind s.m_structures key
    let sd' := { sd with elements := sd.elements ++ [ArgumentData.mk typeSpace typeName name] }
    pure { s with m_structures := mapSet strLt key sd' s.m_structures }

def structureTypeEnd (s : MDLBuilder) : Option MDLBuilder :=
  match s.m_currentStructure with
  | [] => none
  | _ :: rest => some { s with m_currentStructure := rest }

def temporaryBegin (s : MDLBuilder) (idx : Nat) : Option (Bool × MDLBuilder) := do
  let m ← s.currentMaterial
  DP_ASSERT (m.temporaries.length == idx && s.m_currentExpression.isEmpty)
  pure (true, s)

def temporaryEnd (s : MDLBuilder) : Option MDLBuilder :=
  match s.m_currentExpression with
  | [top] => do
    let m ← s.currentMaterial
    let s := s.setCurrentMaterial { m with temporaries := m.temporaries ++ [top] }
    pure { s with m_currentExpression := [] }
  | _ => none

/-- The push of a constant, shared by the `value*` events. -/
def MDLBuilder.pushConstant (s : MDLBuilder) (value : ValueData) : MDLBuilder :=
  { s with m_currentExpression := ExpressionDataConstant value :: s.m_currentExpression }

def valueBool (s : MDLBuilder) (value : Bool) : Option MDLBuilder :=
  some (s.pushConstant (ValueDataBool value))

def valueBsdfMeasurement (_s : MDLBuilder) (_value : Str) : Option MDLBuilder := do
  DP_ASSERT false
  none

def valueColor (s : MDLBuilder) (r g b : FloatBits) : Option MDLBuilder :=
  some (s.pushConstant (ValueDataColor r g b))

def valueEnum (s : MDLBuilder) (type : Str) (_value : Int) (name : Str) : Option MDLBuilder := do
  let (typeSpace, typeName) ← tokenizeType type
  let (_, s) ← registerType s type
  pure (s.pushConstant (ValueDataEnum typeSpace typeName name))

def valueFloat (s : MDLBuilder) (value : FloatBits) : Option MDLBuilder :=
  some (s.pushConstant (ValueDataFloat value))

def valueInt (s : MDLBuilder) (value : Int) : Option MDLBuilder :=
  some (s.pushConstant (ValueDataInt value))

def valueLightProfile (_s : MDLBuilder) (_value : Str) : Option MDLBuilder := do
  DP_ASSERT false
  none

def valueString (s : MDLBuilder) (value : Str) : Option MDLBuilder :=
  some (s.pushConstant (ValueDataString value))

def valueTexture (s : MDLBuilder) (name : Str) (gamma : GammaMode) : Option MDLBuilder :=
  some ((registerImport s "tex".toList "gamma_mode".toList).pushConstant
    (ValueDataTexture name gamma))

def vectorBegin (s : MDLBuilder) (type : Str) : Option (Bool × MDLBuilder) := do
  DP_ASSERT (type.length == 6 && substr type 0 5 == "float".toList && (charAt type 5).isDigit)
  let vector := ExpressionDataConstant (ValueDataVector [])
  pure (true, { s with m_currentExpression := vector :: s.m_currentExpression,
                       m_currentVectorSize := digitValue (charAt type 5) :: s.m_currentVectorSize })

def vectorElementBegin (s : MDLBuilder) (idx : Nat) : Option (Bool × MDLBuilder) :=
  match s.m_currentExpression with
  | ExpressionDataConstant (ValueDataVector values) :: _ => do
    DP_ASSERT (idx == values.length)
    pure (true, { s with m_currentIndex := idx :: s.m_currentIndex })
  | _ => none

def vectorElementEnd (s : MDLBuilder) : Option MDLBuilder :=
  match s.m_currentExpression, s.m_currentIndex with
  | ExpressionDataConstant (ValueDataFloat value)
      :: ExpressionDataConstant (ValueDataVector values) :: rest, idx :: indices => do
    DP_ASSERT (values.length == idx)
    let vector := ExpressionDataConstant (ValueDataVector (values ++ [value]))
    pure { s with m_currentExpression := vector :: rest, m_currentIndex := indices }
  | _, _ => none

def vectorEnd (s : MDLBuilder) : Option MDLBuilder :=
  match s.m_currentExpression, s.m_currentVectorSize with
  | ExpressionDataConstant (ValueDataVector values) :: _, size :: sizes => do
    DP_ASSERT (values.length == size)
    pure { s with m_currentVectorSize := sizes }
  | _, _ => none


/-! ## Event sequences -/

/-- The events of the tokenizer interface, one constructor per virtual function, and the
public method `clear`. -/
inductive Event where
  | annotationBegin (name : Str) (arguments : List (Str × Str))
  | annotationEnd
  | argumentBegin (idx : Nat)
  | argumentEnd
  | arrayBegin (type : Str) (size : Nat)
  | arrayEnd
  | arrayElementBegin (idx : Nat)
  | arrayElementEnd
  | callBegin (type name : Str) (arguments : List (Str × Str))
  | callEnd
  | defaultRef (type : Str)
  | enumTypeBegin (name : Str) (size : Nat)
  | enumTypeEnd
  | enumTypeValue (name : Str) (value : Int)
  | fieldBegin (name : Str)
  | fieldEnd
  | fileBegin (name : Str)
  | fileEnd
  | materialBegin (name : Str) (hash : Nat × Nat × Nat × Nat)
  | materialEnd
  | matrixBegin (type : Str)
  | matrixElementBegin (idx : Nat)
  | matrixElementEnd
  | matrixEnd
  | parameterBegin (index : Nat) (modifier type name : Str)
  | parameterEnd
  | referenceParameter (idx : Nat)
  | referenceTemporary (idx : Nat)
  | structureBegin (name : Str)
  | structureEnd
  | structureMemberBegin (idx : Nat)
  | structureMemberEnd
  | structureTypeBegin (name : Str)
  | structureTypeElement (type name : Str)
  | structureTypeEnd
  | temporaryBegin (idx : Nat)
  | temporaryEnd
  | valueBool (value : Bool)
  | valueBsdfMeasurement (value : Str)
  | valueColor (r g b : FloatBits)
  | valueEnum (type : Str) (value : Int) (name : Str)
  | valueFloat (value : FloatBits)
  | valueInt (value : Int)
  | valueLightProfile (value : Str)
  | valueString (value : Str)
  | valueTexture (name : Str) (gamma : GammaMode)
  | vectorBegin (type : Str)
  | vectorElementBegin (idx : Nat)
  | vectorElementEnd
  | vectorEnd
  | clear

/-- One event applied to a builder; the flag returned by a begin event is dropped. -/
def step (s : MDLBuilder) : Event → Option MDLBuilder
  | .annotationBegin name arguments => (annotationBegin s name arguments).map Prod.snd
  | .annotationEnd => annotationEnd s
  | .argumentBegin idx => (argumentBegin s idx).map Prod.snd
  | .argumentEnd => argumentEnd s
  | .arrayBegin type size => (arrayBegin s type size).map Prod.snd
  | .arrayEnd => arrayEnd s
  | .arrayElementBegin idx => (arrayElementBegin s idx).map Prod.snd
  | .arrayElementEnd => arrayElementEnd s
  | .callBegin type name arguments => (callBegin s type name arguments).map Prod.snd
  | .callEnd => callEnd s
  | .defaultRef type => defaultRef s type
  | .enumTypeBegin name size => (enumTypeBegin s name size).map Prod.snd
  | .enumTypeEnd => enumTypeEnd s
  | .enumTypeValue name value => enumTypeValue s name value
  | .fieldBegin name => (fieldBegin s name).map Prod.snd
  | .fieldEnd => fieldEnd s
  | .fileBegin name => (fileBegin s name).map Prod.snd
  | .fileEnd => fileEnd s
  | .materialBegin name hash => (materialBegin s name hash).map Prod.snd
  | .materialEnd => materialEnd s
  | .matrixBegin type => (matrixBegin s type).map Prod.snd
  | .matrixElementBegin idx => (matrixElementBegin s idx).map Prod.snd
  | .matrixElementEnd => matrixElementEnd s
  | .matrixEnd => matrixEnd s
  | .parameterBegin index modifier type name =>
    (parameterBegin s index modifier type name).map Prod.snd
  | .parameterEnd => parameterEnd s
  | .referenceParameter idx => referenceParameter s idx
  | .referenceTemporary idx => referenceTemporary s idx
  | .structureBegin name => (structureBegin s name).map Prod.snd
  | .structureEnd => structureEnd s
  | .structureMemberBegin idx => (structureMemberBegin s idx).map Prod.snd
  | .structureMemberEnd => structureMemberEnd s
  | .structureTypeBegin name => (structureTypeBegin s name).map Prod.snd
  | .structureTypeElement type name => structureTypeElement s type name
  | .structureTypeEnd => structureTypeEnd s
  | .temporaryBegin idx => (temporaryBegin s idx).map Prod.snd
  | .temporaryEnd => temporaryEnd s
  | .valueBool value => valueBool s value
  | .valueBsdfMeasurement value => valueBsdfMeasurement s value
  | .valueColor r g b => valueColor s r g b
  | .valueEnum type value name => valueEnum s type value name
  | .valueFloat value => valueFloat s value
  | .valueInt value => valueInt s value
  | .valueLightProfile value => valueLightProfile s value
  | .valueString value => valueString s value
  | .valueTexture name gamma => valueTexture s name gamma
  | .vectorBegin type => (vectorBegin s type).map Prod.snd
  | .vectorElementBegin idx => (vectorElementBegin s idx).map Prod.snd
  | .vectorElementEnd => vectorElementEnd s
  | .vectorEnd => vectorEnd s
  | .clear => clear s

/-- A sequence of events applied in order; `none` as soon as one event fails. -/
def run (s : MDLBuilder) : List Event → Option MDLBuilder
  | [] => some s
  | e :: rest => (step s e).bind fun s' => run s' rest

/-- The states the builder can be in: those an accepted sequence of events leads to from a
freshly constructed builder. -/
def Reachable (s : MDLBuilder) : Prop := ∃ events, run MDLBuilder.new events = some s

/-! ## The import block of the output file (`mdl2mdl.cpp`, `main`) -/

/-- The line `import <nameSpace>::<name>;`. -/
def importLine (nameSpace name : Str) : Str :=
  "import ".toList ++ nameSpace ++ "::".toList ++ name ++ ";".toList

/-- The line `import <nameSpace>::*;`. -/
def wildcardLine (nameSpace : Str) : Str :=
  "import ".toList ++ nameSpace ++ "::*;".toList

/-- The lines written for one entry of the import table (the body of the outer loop). -/
def importEntryLines (entry : Str × List Str) : Option (List Str) := do
  DP_ASSERT (!entry.1.isEmpty)
  if entry.2.length < 4 then pure (entry.2.map fun i => importLine entry.1 i)
  else pure [wildcardLine entry.1]

/-- The loop over the import table. -/
def importLoop : List (Str × List Str) → Option (List Str)
  | [] => some []
  | entry :: rest => do
    let lines ← importEntryLines entry
    let more ← importLoop rest
    pure (lines ++ more)

/-- The import block, as the list of the lines written to the file (each one ended by
`std::endl`); a non-empty table is followed by one empty line. -/
def importBlock (imports : List (Str × List Str)) : Option (List Str) :=
  if imports.isEmpty then some []
  else do
    let lines ← importLoop imports
    pure (lines ++ [[]])

/-! ## Notions used in the statements -/

/-- The number of lines of `lines` that are equal to `x`. -/
def occurrences (x : Str) (lines : List Str) : Nat :=
  (lines.filter fun l => decide (l = x)).length

/-- The lines the loop writes for an entry with a non-empty name space. -/
def entryLines (entry : Str × List Str) : List Str :=
  if entry.2.length < 4 then entry.2.map fun i => importLine entry.1 i
  else [wildcardLine entry.1]

/-- A line written for the name space `ns`: its wildcard line or the line of a name
without `:`. -/
def LineOf (ns x : Str) : Prop := ∃ n, ':' ∉ n ∧ x = importLine ns n

mutual
/-- Every Call node in the expression has all keys of its filled-slot map below the number
of its declared slots. -/
def slotsInRange : ExpressionData → Bool
  | ExpressionDataArray _ _ values => slotsInRangeList values
  | ExpressionDataCall _ _ _ _ argumentData arguments =>
    slotsInRangeArguments argumentData.length arguments
  | ExpressionDataConstant _ => true
  | ExpressionDataParameter _ => true
  | ExpressionDataTemporary _ => true
/-- The test `slotsInRange` on every element of an array. -/
def slotsInRangeList : List ExpressionData → Bool
  | [] => true
  | e :: rest => slotsInRange e && slotsInRangeList rest
/-- The test on a filled-slot map of a call with `n` declared slots: every key is below `n`
and every stored expression passes `slotsInRange`. -/
def slotsInRangeArguments (n : Nat) : List (Nat × ExpressionData) → Bool
  | [] => true
  | (k, e) :: rest => decide (k < n) && slotsInRange e && slotsInRangeArguments n rest
end

/-- The expressions attached to a parameter: its default and its annotations. -/
def ParameterData.expressions (p : ParameterData) : List ExpressionData :=
  p.value.toList ++ p.annotations

/-- The expressions attached to a material. -/
def MaterialData.expressions (m : MaterialData) : List ExpressionData :=
  (m.parameters.map ParameterData.expressions).flatten ++ m.annotations ++ m.temporaries
    ++ (m.fields.map fun f => f.2.toList).flatten

/-- The expressions a builder holds: the construction stack and what is attached to the
materials. -/
def MDLBuilder.expressions (s : MDLBuilder) : List ExpressionData :=
  s.m_currentExpression ++ (s.m_materials.map MaterialData.expressions).flatten

/-- A builder in which a call with one declared slot was begun and no slot was filled. -/
def unfilledCallState : MDLBuilder :=
  (run MDLBuilder.new
    [Event.callBegin "float".toList "::df::f".toList [("float".toList, "x".toList)]]).getD
    MDLBuilder.new

/-- A builder in which the enum `::a::E` was registered and closed. -/
def closedEnumState : MDLBuilder :=
  (run MDLBuilder.new [Event.enumTypeBegin "::a::E".toList 2, Event.enumTypeEnd]).getD
    MDLBuilder.new

/-- An import table with a name space of four names and one of a single name. -/
def exampleImports : List (Str × List Str) :=
  [("df".toList, ["a".toList, "b".toList, "c".toList, "d".toList]),
   ("tex".toList, ["gamma_mode".toList])]

/-- The events that open the file `pkg.mdl` and its material `mat`. -/
def openMaterialEvents : List Event :=
  [Event.fileBegin "C:\\mdl\\pkg.mdl".toList,
   Event.materialBegin "mdl::pkg::mat".toList (0, 0, 0, 0)]

/-- A builder before the `parameterEnd` of the parameter `float roughness = 0.5`. -/
def parameterEndState : MDLBuilder :=
  (run MDLBuilder.new (openMaterialEvents ++
    [Event.parameterBegin 0 [] "float".toList "roughness".toList,
     Event.valueFloat (FloatBits.mk 0x3f000000)])).getD MDLBuilder.new

/-- A builder before the `argumentEnd` of slot 0 of the call `df::f(float x)`. -/
def argumentEndState : MDLBuilder :=
  (run MDLBuilder.new
    [Event.callBegin "float".toList "::df::f".toList [("float".toList, "x".toList)],
     Event.argumentBegin 0,
     Event.valueFloat (FloatBits.mk 0x3f000000)]).getD MDLBuilder.new

/-- A builder before the `structureMemberEnd` of member 0 of a structure `::pkg::S`. -/
def memberEndState : MDLBuilder :=
  (run MDLBuilder.new
    [Event.structureTypeBegin "::pkg::S".toList,
     Event.structureTypeElement "float".toList "x".toList,
     Event.structureTypeEnd,
     Event.structureBegin "::pkg::S".toList,
     Event.structureMemberBegin 0,
     Event.valueFloat (FloatBits.mk 0x3f000000)]).getD MDLBuilder.new

/-- A builder before the `arrayElementEnd` of element 0 of a float array. -/
def elementEndState : MDLBuilder :=
  (run MDLBuilder.new
    [Event.arrayBegin "float".toList 1,
     Event.arrayElementBegin 0,
     Event.valueFloat (FloatBits.mk 0x3f000000)]).getD MDLBuilder.new

/-- A builder before the `argumentEnd` of a `float` slot for which an int was pushed. -/
def mismatchedArgumentState : MDLBuilder :=
  (run MDLBuilder.new
    [Event.callBegin "float".toList "::df::f".toList [("float".toList, "x".toList)],
     Event.argumentBegin 0,
     Event.valueInt 1]).getD MDLBuilder.new

/-- A builder before the `arrayElementEnd` of a float array for which an int was pushed. -/
def mismatchedElementState : MDLBuilder :=
  (run MDLBuilder.new
    [Event.arrayBegin "float".toList 1,
     Event.arrayElementBegin 0,
     Event.valueInt 1]).getD MDLBuilder.new

/-- A builder before the `parameterEnd` of a `float` parameter for which an int was pushed. -/
def mismatchedParameterState : MDLBuilder :=
  (run MDLBuilder.new (openMaterialEvents ++
    [Event.parameterBegin 0 [] "float".toList "roughness".toList,
     Event.valueInt 1])).getD MDLBuilder.new

/-- A builder in which the structure type `::pkg::S` is registered. -/
def registeredStructureState : MDLBuilder :=
  (run MDLBuilder.new
    [Event.structureTypeBegin "::pkg::S".toList,
     Event.structureTypeElement "float".toList "x".toList,
     Event.structureTypeEnd]).getD MDLBuilder.new


/-- A builder that holds a material, a structure type, an enum type and imports, with no
definition left open. -/
def usedBuilderState : MDLBuilder :=
  (run MDLBuilder.new (openMaterialEvents ++
    [Event.materialEnd,
     Event.structureTypeBegin "::pkg::S".toList,
     Event.structureTypeEnd,
     Event.enumTypeBegin "::a::E".toList 2,
     Event.enumTypeEnd])).getD MDLBuilder.new

/-- The events that leave a call, an argument value and a slot index on the stacks of the
open material `mat`. -/
def danglingArgumentEvents : List Event :=
  openMaterialEvents ++
    [Event.callBegin "float".toList "::df::f".toList [("float".toList, "x".toList)],
     Event.argumentBegin 0,
     Event.valueFloat (FloatBits.mk 0x3f000000)]

/-- A builder with an open material whose stacks hold a call, an argument value and a slot
index. -/
def danglingArgumentState : MDLBuilder :=
  (run MDLBuilder.new danglingArgumentEvents).getD MDLBuilder.new

/-- A builder with an open material that holds the parameter `float roughness = 0.5` and,
as temporary 0, a reference to that parameter. -/
def referenceState : MDLBuilder :=
  (run MDLBuilder.new (openMaterialEvents ++
    [Event.parameterBegin 0 [] "float".toList "roughness".toList,
     Event.valueFloat (FloatBits.mk 0x3f000000),
     Event.parameterEnd,
     Event.temporaryBegin 0,
     Event.referenceParameter 0,
     Event.temporaryEnd])).getD MDLBuilder.new

/-- The check of `data` needs exactly `k` units of fuel: it returns with `k` and with no
smaller amount. -/
def ExactFuel (material : Option MaterialData) (type : Str) (data : ExpressionData)
    (k : Nat) : Prop :=
  isCompatibleTypeFuel material type k data ≠ none
    ∧ ∀ k', k' < k → isCompatibleTypeFuel material type k' data = none

/-- The first two steps of `extractTypeName`: the lower-case copy of the type, cut after its
last `:`. -/
def lowerLastSegment (type : Str) : Str :=
  let typeName := type.map Char.toLower
  let pos := find_last_of typeName ':' npos
  if pos ≠ npos then substr typeName (pos + 1) npos else typeName

/-- The last step of `extractTypeName`: the sizes `<N>` and `<N,M>` are rewritten to `N`
and `NxM`. -/
def flattenSizes (typeName : Str) : Str :=
  let pos := find typeName '<' 0
  if pos ≠ npos then
    let commaPos := find typeName ',' pos
    if commaPos ≠ npos then
      substr typeName 0 pos ++ substr typeName (pos + 1) (sizeT ((commaPos : Int) - pos - 1))
        ++ "x".toList
        ++ substr typeName (commaPos + 1) (sizeT ((typeName.length : Int) - commaPos - 2))
    else
      substr typeName 0 pos ++ substr typeName (pos + 1) (sizeT ((typeName.length : Int) - pos - 2))
  else typeName


/-- The names held by the material list: the name of every material with the names of its
parameters, in the order of the list. -/
def MDLBuilder.outline (s : MDLBuilder) : List (Str × List Str) :=
  s.m_materials.map fun m => (m.name, m.parameters.map fun p => p.name)

/-- What an accepted event `e` leading from `s` to `s1` does to the outline: `materialBegin`
appends a material with a fresh name and no parameter, `parameterBegin` appends a fresh
parameter name to the current material at the position `index`, a file boundary empties the
list, and every other event keeps the outline. -/
def OutlineStep (s : MDLBuilder) (e : Event) (s1 : MDLBuilder) : Prop :=
  match e with
  | .materialBegin _ _ =>
    ∃ materialName, (∀ o ∈ s.outline, o.1 ≠ materialName)
      ∧ s1.outline = s.outline ++ [(materialName, [])]
  | .parameterBegin index _ _ name =>
    ∃ mi materialName names, s.m_currentMaterial = some mi
      ∧ s.outline[mi]? = some (materialName, names)
      ∧ index = names.length ∧ name ∉ names
      ∧ s1.outline = s.outline.set mi (materialName, names ++ [name])
  | .fileBegin _ => s1.outline = []
  | .clear => s1.outline = []
  | _ => s1.outline = s.outline

/-- The index a `parameterBegin` event announces. -/
def parameterIndex : Event → Option Nat
  | .parameterBegin index _ _ _ => some index
  | _ => none

/-- The index a `temporaryBegin` event announces. -/
def temporaryIndex : Event → Option Nat
  | .temporaryBegin idx => some idx
  | _ => none

/-- The record of the announced indices, one list per material built since the last file
boundary, after the event `e` was accepted in state `s`: `materialBegin` opens an empty list,
a file boundary drops all lists, and an event that announces an index (as `pick` tells) adds
it to the list of the current material. -/
def announce (pick : Event → Option Nat) (s : MDLBuilder) (e : Event)
    (log : List (List Nat)) : List (List Nat) :=
  match e with
  | .materialBegin _ _ => log ++ [[]]
  | .fileBegin _ => []
  | .clear => []
  | _ =>
    match pick e, s.m_currentMaterial with
    | some index, some mi => log.set mi (log.getD mi [] ++ [index])
    | _, _ => log

/-- A sequence of events applied in order as `run` does, together with the record of the
announced indices. -/
def runAnnounced (pick : Event → Option Nat) (s : MDLBuilder) (log : List (List Nat)) :
    List Event → Option (MDLBuilder × List (List Nat))
  | [] => some (s, log)
  | e :: rest => (step s e).bind fun s1 => runAnnounced pick s1 (announce pick s e log) rest

/-- The events of a material with the parameters `float a = 0.5` and `float b = 0.5`. -/
def twoParameterEvents : List Event :=
  openMaterialEvents ++
    [Event.parameterBegin 0 [] "float".toList "a".toList,
     Event.valueFloat (FloatBits.mk 0x3f000000),
     Event.parameterEnd,
     Event.parameterBegin 1 [] "float".toList "b".toList,
     Event.valueFloat (FloatBits.mk 0x3f000000),
     Event.parameterEnd,
     Event.materialEnd]

/-- The builder after the material with two parameters is completed. -/
def twoParameterState : MDLBuilder := (run MDLBuilder.new twoParameterEvents).getD MDLBuilder.new

/-- The events of a material that stores a temporary without a `temporaryBegin`. -/
def unannouncedTemporaryEvents : List Event :=
  openMaterialEvents ++
    [Event.valueFloat (FloatBits.mk 0x3f000000),
     Event.temporaryEnd,
     Event.materialEnd]

/-- The events of a material whose one temporary is announced twice with index 0. -/
def repeatedTemporaryEvents : List Event :=
  openMaterialEvents ++
    [Event.temporaryBegin 0,
     Event.temporaryBegin 0,
     Event.valueFloat (FloatBits.mk 0x3f000000),
     Event.temporaryEnd,
     Event.materialEnd]

/-! ## The material block of the output file (`mdl2mdl.cpp`, `main`)

The text written for one material. The two functions `format` and `type` of `mdl2mdl.cpp`,
which turn an expression into text, are taken as parameters here: `format material data
level` with `data` a pointer that may be null, and `type material data`; `none` is a failed
assertion inside them. -/

/-- The text written by `std::endl`. -/
def endl : Str := "\n".toList

/-- The function `indent`: two blanks per level. -/
def indent (level : Nat) : Str := (List.replicate level "  ".toList).flatten

/-- The loop over a list of annotations: every annotation is written at `level`, and every
one but the first follows a comma and a line end. -/
def emitAnnotationLoop (format : MaterialData → Option ExpressionData → Nat → Option Str)
    (material : MaterialData) (level : Nat) : List ExpressionData → Bool → Option Str
  | [], _ => some []
  | a :: rest, first => do
    let text ← format material (some a) level
    let more ← emitAnnotationLoop format material level rest false
    pure ((if first then [] else ",".toList ++ endl) ++ indent level ++ text ++ more)

/-- The body of the loop over the parameters, after the separator. -/
def emitParameter (format : MaterialData → Option ExpressionData → Nat → Option Str)
    (material : MaterialData) (parameter : ParameterData) : Option Str := do
  let modifier := if parameter.modifier.isEmpty then [] else parameter.modifier ++ " ".toList
  let value ← match parameter.value with
    | some v => (format material (some v) 1).map fun text => " = ".toList ++ text
    | none => some []
  let annotations ← if parameter.annotations.isEmpty then some [] else
    (emitAnnotationLoop format material 2 parameter.annotations true).map fun text =>
      indent 1 ++ "[[".toList ++ endl ++ text ++ endl ++ indent 1 ++ "]]".toList
  pure (indent 1 ++ modifier ++ parameter.type ++ " ".toList ++ parameter.name ++ value
    ++ endl ++ annotations)

/-- The loop over the parameters: every one but the first follows a comma and a line end. -/
def emitParameterLoop (format : MaterialData → Option ExpressionData → Nat → Option Str)
    (material : MaterialData) : List ParameterData → Bool → Option Str
  | [], _ => some []
  | parameter :: rest, first => do
    let text ← emitParameter format material parameter
    let more ← emitParameterLoop format material rest false
    pure ((if first then [] else ",".toList ++ endl) ++ text ++ more)

/-- The loop over the temporaries, `t` counting them. -/
def emitTemporaryLoop (format : MaterialData → Option ExpressionData → Nat → Option Str)
    (type : MaterialData → ExpressionData → Option Str)
    (material : MaterialData) : List ExpressionData → Nat → Option Str
  | [], _ => some []
  | temporary :: rest, t => do
    let typeText ← type material temporary
    let text ← format material (some temporary) 1
    let more ← emitTemporaryLoop format type material rest (t + 1)
    pure (indent 1 ++ typeText ++ " temporary".toList ++ (Nat.repr t).toList ++ " = ".toList
      ++ text ++ ";".toList ++ endl ++ more)

/-- The loop over the field map, in the order of its keys: a pair `name : expression` per
field, every one but the first after a comma and a line end. -/
def emitFieldLoop (format : MaterialData → Option ExpressionData → Nat → Option Str)
    (material : MaterialData) : List (Str × Option ExpressionData) → Bool → Option Str
  | [], _ => some []
  | field :: rest, first => do
    let text ← format material field.2 1
    let more ← emitFieldLoop format material rest false
    pure ((if first then [] else ",".toList ++ endl) ++ indent 1 ++ field.1 ++ " : ".toList
      ++ text ++ more)

/-- The body of the loop over the materials in `main`: the text written for one material. -/
def emitMaterial (format : MaterialData → Option ExpressionData → Nat → Option Str)
    (type : MaterialData → ExpressionData → Option Str)
    (material : MaterialData) : Option Str := do
  let rest ←
    if material.parameters.isEmpty then some ("()".toList ++ endl)
    else do
      let parameters ← emitParameterLoop format material material.parameters true
      let annotations ← if material.annotations.isEmpty then some [] else
        (emitAnnotationLoop format material 1 material.annotations true).map fun text =>
          "[[".toList ++ endl ++ text ++ endl ++ "]]".toList ++ endl
      let temporaries ← if material.temporaries.isEmpty then some [] else
        (emitTemporaryLoop format type material material.temporaries 0).map fun text =>
          "let".toList ++ endl ++ "\x7b".toList ++ endl ++ text ++ "\x7d in ".toList
      let fields ← emitFieldLoop format material material.fields true
      pure (endl ++ "(".toList ++ endl ++ parameters ++ endl ++ ")".toList ++ endl
        ++ annotations ++ "= ".toList ++ temporaries
        ++ "material".toList ++ endl ++ "(".toList ++ endl ++ fields ++ endl
        ++ ");".toList ++ endl)
  pure ("export material ".toList ++ material.name ++ rest ++ endl)

/-- The events of a material without parameters whose field `surface` holds a call. -/
def fieldOnlyEvents : List Event :=
  openMaterialEvents ++
    [Event.fieldBegin "surface".toList,
     Event.callBegin "bsdf".toList "::df::diffuse_reflection_bsdf".toList [],
     Event.callEnd,
     Event.fieldEnd,
     Event.materialEnd]

/-- The builder after the material without parameters is completed. -/
def fieldOnlyState : MDLBuilder := (run MDLBuilder.new fieldOnlyEvents).getD MDLBuilder.new

/-- The events of a material with the parameter `float a = 0.5` whose field `surface` holds
a call. -/
def parameterFieldEvents : List Event :=
  openMaterialEvents ++
    [Event.parameterBegin 0 [] "float".toList "a".toList,
     Event.valueFloat (FloatBits.mk 0x3f000000),
     Event.parameterEnd,
     Event.fieldBegin "surface".toList,
     Event.callBegin "bsdf".toList "::df::diffuse_reflection_bsdf".toList [],
     Event.callEnd,
     Event.fieldEnd,
     Event.materialEnd]

/-- The builder after the material with one parameter is completed. -/
def parameterFieldState : MDLBuilder :=
  (run MDLBuilder.new parameterFieldEvents).getD MDLBuilder.new

/-! ## Formatting of values and expressions (`mdl2mdl.cpp`, `format`)

Two things the serializer uses are declared outside the given sources and are taken as
parameters, bundled in `Host`: the text `operator<<` writes for a `float` on a stream with
`std::showpoint` set (every stream of `format` has it set), and the path `dp::home()`. -/

/-- The parameters of the serializer. -/
structure Host where
  /-- The text written by `oss << value` for a `float`, `std::showpoint` being set. -/
  printFloat : FloatBits → Str
  /-- The value of `dp::home()`. -/
  home : Str

/-- The text written by `operator<<` for a `size_t` or an `unsigned int`: decimal digits. -/
def decimal (n : Nat) : Str := Nat.toDigits 10 n

/-- The text written by `operator<<` for an `int`: a minus sign for a negative value, then
the decimal digits. -/
def decimalInt (z : Int) : Str :=
  if z < 0 then '-' :: decimal z.natAbs else decimal z.natAbs

/-- The search of `std::string::find(std::string const& str, size_t pos)` in the part of the
string that starts at index `i`. -/
def findStrFrom (str : Str) : Str → Nat → Nat
  | [], i => if str = [] then i else npos
  | c :: rest, i => if str.isPrefixOf (c :: rest) then i else findStrFrom str rest (i + 1)

/-- The function `std::string::find(std::string const& str, size_t pos)`. -/
def findStr (s str : Str) (pos : Nat) : Nat :=
  if s.length < pos then npos else findStrFrom str (s.drop pos) pos

/-- The function `std::string::find_first_not_of(char const* chars)`. -/
def find_first_not_of (s chars : Str) : Nat :=
  match s.findIdx? (fun c => !chars.contains c) with
  | some i => i
  | none => npos

/-- The loop of `replaceAll` on its variables `out` and `pos`; the first argument bounds the
number of rounds, `none` is a loop that does not end within the bound. -/
def replaceAllLoop (src dst : Str) : Nat → Str → Nat → Option Str
  | 0, _, _ => none
  | fuel + 1, out, pos =>
    if pos ≠ npos then
      let out := out.take pos ++ dst ++ out.drop (pos + src.length)
      replaceAllLoop src dst fuel out (findStr out src (pos + dst.length))
    else some out

/-- The function `replaceAll(src, dst, in)`. With `src` not empty every round moves the
search position past one more character of `in`, so that `in.length() + 1` rounds are
enough; with `src` empty the loop of the source does not end, and the value is `none`. -/
def replaceAll (src dst input : Str) : Option Str :=
  replaceAllLoop src dst (input.length + 1) input (findStr input src 0)

/-- The function `stripLeft(strip, from)`. -/
def stripLeft (strip source : Str) : Str :=
  if findStr source strip 0 == 0 then substr source strip.length npos else source

/-- The loop over the components of a vector: every component with the suffix `f`, and every
one but the first after a comma and a blank. -/
def formatComponents (host : Host) : List FloatBits → Bool → Str
  | [], _ => []
  | v :: rest, first =>
    (if first then [] else ", ".toList) ++ host.printFloat v ++ "f".toList
      ++ formatComponents host rest false

/-- The branch of `format(ValueData const*)` for a vector. -/
def formatVector (host : Host) (values : List FloatBits) : Str :=
  "float".toList ++ decimal values.length ++ "(".toList ++ formatComponents host values true
    ++ ")".toList

/-- The loop over the columns of a matrix. -/
def formatColumns (host : Host) : List (List FloatBits) → Bool → Str
  | [], _ => []
  | column :: rest, first =>
    (if first then [] else ", ".toList) ++ formatVector host column
      ++ formatColumns host rest false

/-- The text written by the `switch` over the gamma mode of a texture. -/
def gammaText : GammaMode → Str
  | GammaMode.DEFAULT => "default".toList
  | GammaMode.LINEAR => "linear".toList
  | GammaMode.SRGB => "srgb".toList

/-- A `float` that is neither an infinity nor a NaN: the eight exponent bits of its pattern
are not all set. -/
def FloatBits.isFinite (x : FloatBits) : Bool := (x.bits / 2 ^ 23) % 256 != 255

/-- The function `format(ValueData const*)`. -/
def formatValue (host : Host) : ValueData → Option Str
  | ValueDataBool value => some (if value then "true".toList else "false".toList)
  | ValueDataColor r g b =>
    some ("color(".toList ++ host.printFloat r ++ "f, ".toList ++ host.printFloat g
      ++ "f, ".toList ++ host.printFloat b ++ "f)".toList)
  | ValueDataEnum typeSpace _ value =>
    some ((if typeSpace != "::".toList then typeSpace ++ "::".toList else []) ++ value)
  | ValueDataFloat value => some (host.printFloat value ++ "f".toList)
  | ValueDataInt value => some (decimalInt value)
  | ValueDataMatrix values => do
    let first ← values[0]?
    pure ("float".toList ++ decimal values.length ++ "x".toList ++ decimal first.length
      ++ "(".toList ++ formatColumns host values true ++ ")".toList)
  | ValueDataString value => do
    let escaped ← replaceAll "\"".toList "\\\"".toList value
    pure ("\"".toList ++ escaped ++ "\"".toList)
  | ValueDataTexture name gamma => do
    let home ← replaceAll "\\".toList "/".toList host.home
    let mediaPath := home ++ "/media/effects/mdl/".toList
    let path ← replaceAll "\\".toList "/".toList name
    pure ("texture_2d(\"".toList ++ stripLeft mediaPath path ++ "\", tex::gamma_".toList
      ++ gammaText gamma ++ ")".toList)
  | ValueDataVector values => some (formatVector host values)

/-- The function `needsBraces`. -/
def needsBraces : ExpressionData → Bool
  | ExpressionDataCall _ _ _ call _ _ => substr call 0 8 == "operator".toList
  | _ => false

/-- An operand of the index and operator forms: the text of `format`, in parentheses when
`needsBraces` holds for the operand. -/
def braced (operand : Bool × Str) : Str :=
  (if operand.1 then "(".toList else []) ++ operand.2 ++ (if operand.1 then ")".toList else [])

/-- The index form of `format` for a call: `size` is `arguments.size()`, and `slot idx` is
`(needsBraces e, format e)` for the expression `e` that `arguments.find(idx)` refers to,
`none` when there is no such entry or its formatting fails. The second operand is written
without parentheses. -/
def formatIndexForm (size : Nat) (slot : Nat → Option (Bool × Str)) : Option Str := do
  DP_ASSERT (size == 2)
  let firstArg ← slot 0
  let secondArg ← slot 1
  pure (braced firstArg ++ "[".toList ++ secondArg.2 ++ "]".toList)

/-- The operator form of `format` for a call named `call` whose last character is `back`. -/
def formatOperatorForm (call : Str) (back : Char) (size : Nat)
    (slot : Nat → Option (Bool × Str)) : Option Str := do
  DP_ASSERT (size != 0)
  let firstArg ← slot 0
  match size with
  | 1 => do
    DP_ASSERT (back == '-' || back == '!')
    pure (back :: braced firstArg)
  | 2 => do
    let secondArg ← slot 1
    pure (braced firstArg ++ " ".toList ++ substr call 8 npos ++ " ".toList ++ braced secondArg)
  | 3 => do
    DP_ASSERT (back == '?')
    let secondArg ← slot 1
    let thirdArg ← slot 2
    pure (braced firstArg ++ " ? ".toList ++ braced secondArg ++ " : ".toList
      ++ braced thirdArg)
  | _ => do
    DP_ASSERT false
    none

/-- The member-access form of `format` for a call whose name holds its first `.` at
`dotPos`. -/
def formatMemberForm (call : Str) (dotPos : Nat) (size : Nat)
    (slot : Nat → Option (Bool × Str)) : Option Str := do
  DP_ASSERT (size == 1)
  let firstArg ← slot 0
  pure (firstArg.2 ++ substr call dotPos npos)

/-- The general form of `format` for a call: `size` is `arguments.size()` and `listed` the
text of the loop over the filled slots. -/
def formatGeneralForm (callNameSpace call : Str) (size : Nat) (listed : Option Str)
    (level : Nat) : Option Str := do
  let head := (if callNameSpace.isEmpty then [] else callNameSpace ++ "::".toList) ++ call
  if size == 0 then pure (head ++ "()".toList)
  else do
    let text ← listed
    pure (head ++ endl ++ indent level ++ "(".toList ++ endl ++ text ++ endl ++ indent level
      ++ ")".toList)

/-- The function `format(MaterialData const&, ExpressionDataCall const*, size_t)`, on the
members `callNameSpace` and `call` of the call, the size of its map `arguments`, the lookup
`slot` in that map and the text `listed` of the loop over it (used by the general form).
`call.back()` of an empty name is a fault. -/
def formatCall (callNameSpace call : Str) (size : Nat) (slot : Nat → Option (Bool × Str))
    (listed : Option Str) (level : Nat) : Option Str :=
  match call.getLast? with
  | none => none
  | some back =>
    if back == '@' then formatIndexForm size slot
    else if substr call 0 8 == "operator".toList then formatOperatorForm call back size slot
    else
      let dotPos := find call '.' 0
      if dotPos ≠ npos then formatMemberForm call dotPos size slot
      else formatGeneralForm callNameSpace call size listed level

mutual
/-- The function `format(MaterialData const&, ExpressionData const*, size_t)` on a pointer
that is not null. An index outside `material.parameters` is a fault. -/
def format (host : Host) (material : MaterialData) : ExpressionData → Nat → Option Str
  | ExpressionDataArray typeSpace type values, level => do
    let texts ← formatList host material values level true
    pure ((if typeSpace.isEmpty then [] else typeSpace ++ "::".toList) ++ type
      ++ "[](".toList ++ texts ++ ")".toList)
  | ExpressionDataCall _ _ callNameSpace call argumentData arguments, level =>
    formatCall callNameSpace call arguments.length
      (fun idx => formatSlot host material idx arguments level)
      (formatArguments host material call argumentData arguments level true) level
  | ExpressionDataConstant value, _ => formatValue host value
  | ExpressionDataParameter index, _ => (material.parameters[index]?).map fun p => p.name
  | ExpressionDataTemporary index, _ => some ("temporary".toList ++ decimal index)
/-- The loop of `format` over the elements of an array: every element but the first follows
a comma and a blank. -/
def formatList (host : Host) (material : MaterialData) :
    List ExpressionData → Nat → Bool → Option Str
  | [], _, _ => some []
  | e :: rest, level, first => do
    let text ← format host material e level
    let more ← formatList host material rest level false
    pure ((if first then [] else ", ".toList) ++ text ++ more)
/-- The lookup `arguments.find(idx)` followed by `needsBraces` and `format` on the expression
found; `none` when the map has no entry `idx` (the iterator `end()` is dereferenced). -/
def formatSlot (host : Host) (material : MaterialData) (idx : Nat) :
    List (Nat × ExpressionData) → Nat → Option (Bool × Str)
  | [], _ => none
  | (k, e) :: rest, level =>
    if idx = k then (format host material e level).map fun text => (needsBraces e, text)
    else formatSlot host material idx rest level
/-- The loop of the general form over the filled slots of a call, in the order of the map:
every entry but the first follows a comma, a blank and a line end; the declared name of the
slot is written unless the name of the call holds `[`, in which case that declared name has
to consist of digits. -/
def formatArguments (host : Host) (material : MaterialData) (call : Str)
    (argumentData : List ArgumentData) :
    List (Nat × ExpressionData) → Nat → Bool → Option Str
  | [], _, _ => some []
  | (k, e) :: rest, level, first => do
    let includeArgumentNames := find call '[' 0 == npos
    let declared ← argumentData[k]?
    DP_ASSERT (includeArgumentNames
      || find_first_not_of declared.name "0123456789".toList == npos)
    let text ← format host material e (level + 1)
    let more ← formatArguments host material call argumentData rest level false
    pure ((if first then [] else ", ".toList ++ endl) ++ indent (level + 1)
      ++ (if includeArgumentNames then declared.name ++ " : ".toList else []) ++ text ++ more)
end

/-- The function `format(MaterialData const&, ExpressionData const*, size_t)` on a pointer
that may be null: for the null pointer every `dynamic_cast` fails and the assertion of the
last branch is reached. -/
def formatPointer (host : Host) (material : MaterialData) :
    Option ExpressionData → Nat → Option Str
  | none, _ => none
  | some data, level => format host material data level

/-- The function `type(MaterialData const&, ExpressionData const*)`. -/
def type (material : MaterialData) : ExpressionData → Option Str
  | ExpressionDataCall typeNameSpace type _ _ _ _ =>
    some ((if typeNameSpace.isEmpty then [] else typeNameSpace ++ "::".toList) ++ type)
  | ExpressionDataParameter index => (material.parameters[index]?).map fun p => p.type
  | _ => none

/-- The text `main` writes for one material of the builder. -/
def writeMaterial (host : Host) (material : MaterialData) : Option Str :=
  emitMaterial (formatPointer host) type material

/-- A host for the examples: `operator<<` writes the float 2.0 as `2.00000` and every other
float as `0.500000`, and `dp::home()` is `C:\dp`. -/
def exampleHost : Host :=
  { printFloat := fun x => if x.bits = 0x40000000 then "2.00000".toList else "0.500000".toList,
    home := "C:\\dp".toList }

/-- The four surface forms of a call. -/
inductive SurfaceForm where
  | index
  | operator
  | member
  | general
deriving DecidableEq, Repr

/-- The surface form of a call as the specification words the choice, from the stored name
alone: a name that ends with `@` takes the index form; otherwise a name that begins with
`operator` takes the operator form; otherwise a name that holds a `.` takes the member-access
form; every other name takes the general form. -/
def surfaceForm (name : Str) : SurfaceForm :=
  if name.getLast? = some '@' then SurfaceForm.index
  else if "operator".toList <+: name then SurfaceForm.operator
  else if '.' ∈ name then SurfaceForm.member
  else SurfaceForm.general

/-- A material for the examples, with the parameters `float a` and `float b`. -/
def exampleMaterial : MaterialData :=
  { hash := (0, 0, 0, 0), name := "mat".toList,
    parameters := [⟨[], "float".toList, "a".toList, none, []⟩,
                   ⟨[], "float".toList, "b".toList, none, []⟩],
    annotations := [], temporaries := [], fields := [] }

/-- The line the general form writes for the filled slot `p` of a call named `call` at
`level`, `text` being the text of the expression in the slot: the declared name of the slot
and ` : ` come first unless the name of the call holds `[`. -/
def argumentLine (call : Str) (argumentData : List ArgumentData) (level : Nat)
    (p : Nat × ExpressionData) (text : Str) : Str :=
  indent (level + 1)
    ++ (if '[' ∈ call then []
        else ((argumentData[p.1]?).map fun d => d.name).getD [] ++ " : ".toList)
    ++ text

/-- The event sequence of the end-to-end example as the specification gives it. -/
def exampleEventsAsGiven : List Event :=
  [Event.materialBegin "pkg::mat".toList (0, 0, 0, 0),
   Event.parameterBegin 0 [] "float".toList "roughness".toList,
   Event.valueFloat (FloatBits.mk 0x3f000000),
   Event.parameterEnd,
   Event.fieldBegin "surface".toList,
   Event.callBegin "bsdf".toList "diffuse_reflection_bsdf".toList [],
   Event.callEnd,
   Event.fieldEnd,
   Event.materialEnd]

/-- The event sequence of the end-to-end example with the file opened first and the material
named by its fully qualified name `mdl::pkg::mat`. -/
def exampleEvents : List Event :=
  [Event.fileBegin "C:\\mdl\\pkg.mdl".toList,
   Event.materialBegin "mdl::pkg::mat".toList (0, 0, 0, 0),
   Event.parameterBegin 0 [] "float".toList "roughness".toList,
   Event.valueFloat (FloatBits.mk 0x3f000000),
   Event.parameterEnd,
   Event.fieldBegin "surface".toList,
   Event.callBegin "bsdf".toList "diffuse_reflection_bsdf".toList [],
   Event.callEnd,
   Event.fieldEnd,
   Event.materialEnd]

/-- The material the end-to-end example builds. -/
def exampleResult : MaterialData :=
  { hash := (0, 0, 0, 0), name := "mat".toList,
    parameters := [⟨[], "float".toList, "roughness".toList,
      some (ExpressionDataConstant (ValueDataFloat (FloatBits.mk 0x3f000000))), []⟩],
    annotations := [], temporaries := [],
    fields := [("surface".toList,
      some (ExpressionDataCall [] "bsdf".toList [] "diffuse_reflection_bsdf".toList [] []))] }

/-- The events of a material without parameters and without fields. -/
def bareMaterialEvents : List Event := openMaterialEvents ++ [Event.materialEnd]

/-- The material without parameters whose field `surface` holds a call, as `fieldOnlyEvents`
build it. -/
def fieldOnlyMaterial : MaterialData :=
  { hash := (0, 0, 0, 0), name := "mat".toList, parameters := [], annotations := [],
    temporaries := [],
    fields := [("surface".toList,
      some (ExpressionDataCall [] "bsdf".toList "df".toList "diffuse_reflection_bsdf".toList
        [] []))] }

/-- The material without parameters and without fields, as `bareMaterialEvents` build it. -/
def bareMaterial : MaterialData :=
  { hash := (0, 0, 0, 0), name := "mat".toList, parameters := [], annotations := [],
    temporaries := [], fields := [] }

/-! ## Bounded recursion of the compatibility checker -/

/-- The ways a run of `MDLBuilder::isCompatibleType` with a bound on its nested recursive
calls can end: the bound was reached (`exhausted`), an assertion failed or an index was
outside its container or `m_currentMaterial` was null (`fault`), or the function returned
a value. -/
inductive Outcome where
  | exhausted
  | fault
  | returned (value : Bool)
deriving DecidableEq, Repr

/-- The result of an `Outcome` as the other definitions of this file see it: a value, or
`none` for every other end of the run. -/
def Outcome.toOption : Outcome → Option Bool
  | Outcome.returned value => some value
  | _ => none

/-- The function `MDLBuilder::isCompatibleType`, for the current material `material`, with
at most `depth` nested recursive calls: the branches are those of `isCompatibleTypeFuel`;
the branch of a temporary reads `m_currentMaterial->temporaries[index]` and then calls the
function again, which takes one unit of `depth`. -/
def isCompatibleTypeRun (material : Option MaterialData) (type : Str) :
    Nat → ExpressionData → Outcome
  | _, ExpressionDataArray _ t _ =>
    let bracePos := find type '[' 0
    if bracePos == npos || type.getLast? == some ']' then
      Outcome.returned (substr type 0 bracePos == t)
    else Outcome.fault
  | _, ExpressionDataCall _ t _ _ _ _ => Outcome.returned (t == type)
  | _, ExpressionDataConstant value => Outcome.returned (isCompatibleConstant type value)
  | _, ExpressionDataParameter index =>
    match material with
    | none => Outcome.fault
    | some m =>
      match m.parameters[index]? with
      | none => Outcome.fault
      | some p => Outcome.returned (type == p.type)
  | depth, ExpressionDataTemporary index =>
    match material with
    | none => Outcome.fault
    | some m =>
      match m.temporaries[index]? with
      | none => Outcome.fault
      | some t =>
        match depth with
        | 0 => Outcome.exhausted
        | depth + 1 => isCompatibleTypeRun material type depth t

/-- The temporaries of `m` are ordered: a temporary that is a reference to a temporary
refers to a strictly smaller index. -/
def OrderedTemporaries (m : MaterialData) : Prop :=
  ∀ i j, m.temporaries[i]? = some (ExpressionDataTemporary j) → j < i

/-- A material with two temporaries, the second a reference to the first. -/
def chainedMaterial : MaterialData :=
  { hash := (0, 0, 0, 0), name := "mat".toList, parameters := [], annotations := [],
    temporaries := [ExpressionDataConstant (ValueDataBool true), ExpressionDataTemporary 0],
    fields := [] }

/-- A builder state whose current material is `chainedMaterial`. -/
def chainedState : MDLBuilder :=
  { MDLBuilder.new with m_currentMaterial := some 0, m_materials := [chainedMaterial] }

/-- The events of a material with the one parameter `float roughness = 0.5` whose field
`surface` is given as a reference to parameter 5. -/
def strayReferenceEvents : List Event :=
  openMaterialEvents ++
    [Event.parameterBegin 0 [] "float".toList "roughness".toList,
     Event.valueFloat (FloatBits.mk 0x3f000000),
     Event.parameterEnd,
     Event.fieldBegin "surface".toList,
     Event.referenceParameter 5,
     Event.fieldEnd,
     Event.materialEnd]

/-- The material `strayReferenceEvents` build. -/
def strayReferenceMaterial : MaterialData :=
  { hash := (0, 0, 0, 0), name := "mat".toList,
    parameters := [⟨[], "float".toList, "roughness".toList,
      some (ExpressionDataConstant (ValueDataFloat (FloatBits.mk 0x3f000000))), []⟩],
    annotations := [], temporaries := [],
    fields := [("surface".toList, some (ExpressionDataParameter 5))] }

/-- The import table is well formed: no key is the empty string and every key maps to a
set of names that is not empty. -/
def ImportsWellFormed (imports : List (Str × List Str)) : Prop :=
  ∀ entry ∈ imports, entry.1 ≠ [] ∧ entry.2 ≠ []

/-- The events of an array announced with one element of type `float2` that collects two:
the vector of the first element is not closed by `vectorEnd`, so its size 2 stays on the
size stack and is what `arrayEnd` compares with. -/
def unbalancedArrayEvents : List Event :=
  [Event.arrayBegin "float2".toList 1,
   Event.arrayElementBegin 0,
   Event.vectorBegin "float2".toList,
   Event.vectorElementBegin 0, Event.valueFloat (FloatBits.mk 0), Event.vectorElementEnd,
   Event.vectorElementBegin 1, Event.valueFloat (FloatBits.mk 1), Event.vectorElementEnd,
   Event.arrayElementEnd,
   Event.arrayElementBegin 1,
   Event.vectorBegin "float2".toList,
   Event.vectorElementBegin 0, Event.valueFloat (FloatBits.mk 2), Event.vectorElementEnd,
   Event.vectorElementBegin 1, Event.valueFloat (FloatBits.mk 3), Event.vectorElementEnd,
   Event.vectorEnd,
   Event.arrayElementEnd,
   Event.arrayEnd]

/-- The size stack `m_currentVectorSize` after an accepted event: `arrayBegin` pushes its
size argument, `vectorBegin` and `matrixBegin` push the digit at position 5 of their type,
the three end events pop, and no other event touches the stack. -/
def sizeStackAfter (sizes : List Nat) : Event → List Nat
  | Event.arrayBegin _ size => size :: sizes
  | Event.vectorBegin type => digitValue (charAt type 5) :: sizes
  | Event.matrixBegin type => digitValue (charAt type 5) :: sizes
  | Event.arrayEnd => sizes.tail
  | Event.vectorEnd => sizes.tail
  | Event.matrixEnd => sizes.tail
  | _ => sizes

/-- A builder after `vectorBegin("float2")`. -/
def vectorBegunState : MDLBuilder :=
  (step MDLBuilder.new (Event.vectorBegin "float2".toList)).getD MDLBuilder.new

/-- The quotient `a / b` rounded to the nearest integer, ties to even. -/
def roundHalfEven (a b : Nat) : Nat :=
  if 2 * (a % b) > b ∨ (2 * (a % b) = b ∧ (a / b) % 2 = 1) then a / b + 1 else a / b

/-- The test `10 ^ k ≤ num / den`, in integers. -/
def powerOfTenLe (num den : Nat) (k : Int) : Bool :=
  if 0 ≤ k then decide (10 ^ k.toNat * den ≤ num) else decide (den ≤ num * 10 ^ (-k).toNat)

/-- The largest `k` among `n - 46, ..., -45` with `10 ^ k ≤ num / den`, and `-46` when
there is none. -/
def decimalExponent (num den : Nat) : Nat → Int
  | 0 => -46
  | n + 1 =>
    if powerOfTenLe num den ((n : Int) - 45) then (n : Int) - 45
    else decimalExponent num den n

/-- The value `num / den` divided by `10 ^ (X - 5)` and rounded: its first six significant
digits when `X` is its decimal exponent. -/
def significantDigits (num den : Nat) (X : Int) : Nat :=
  if 5 ≤ X then roundHalfEven num (den * 10 ^ (X - 5).toNat)
  else roundHalfEven (num * 10 ^ (5 - X).toNat) den

/-- The exponent of the style `e`: at least two digits. -/
def exponentDigits (n : Nat) : Str := if n < 10 then '0' :: decimal n else decimal n

/-- The conversion `%#.6g` of the positive value `digits * 10 ^ (X - 5)`, `digits` having six
decimal digits: the style `f` with `5 - X` digits after the point when `-4 ≤ X < 6`, and the
style `e` with five digits after the point otherwise. With the flag `#` the point is always
written and no zero is removed. -/
def generalText (digits : Nat) (X : Int) : Str :=
  if -4 ≤ X ∧ X < 6 then
    if 0 ≤ X then
      (decimal digits).take (X.toNat + 1) ++ ".".toList ++ (decimal digits).drop (X.toNat + 1)
    else "0".toList ++ ".".toList ++ (List.replicate ((-X).toNat - 1) '0' ++ decimal digits)
  else
    (decimal digits).take 1 ++ ".".toList ++ (decimal digits).drop 1
      ++ ("e".toList ++ (if X < 0 then "-".toList else "+".toList) ++ exponentDigits X.natAbs)

/-- The conversion `%#.6g` of the value `num / den`, which is not negative. A value whose
rounded digits reach `10 ^ 6` has the next exponent. -/
def showpointMagnitude (num den : Nat) : Str :=
  if num = 0 then "0".toList ++ ".".toList ++ "00000".toList
  else
    let X := decimalExponent num den 84
    let digits := significantDigits num den X
    if digits = 10 ^ 6 then generalText (10 ^ 5) (X + 1) else generalText digits X

/-- The text written by `oss << value` for the `float` with the bit pattern `x`, on a stream
with `std::showpoint` and nothing else set: the sign, then `inf` or `nan` for an exponent
field of 255, and the conversion `%#.6g` of the magnitude otherwise. -/
def showpointText (x : FloatBits) : Str :=
  let sign := (x.bits / 2 ^ 31) % 2
  let exponent := (x.bits / 2 ^ 23) % 256
  let fraction := x.bits % 2 ^ 23
  (if sign = 1 then "-".toList else [])
    ++ (if exponent = 255 then (if fraction = 0 then "inf".toList else "nan".toList)
        else if exponent = 0 then showpointMagnitude fraction (2 ^ 149)
        else if exponent < 150 then showpointMagnitude (2 ^ 23 + fraction) (2 ^ (150 - exponent))
        else showpointMagnitude ((2 ^ 23 + fraction) * 2 ^ (exponent - 150)) 1)

/-- The serializer with the stream text of the C++ library, for a given `dp::home()`. -/
def standardHost (home : Str) : Host := { printFloat := showpointText, home := home }

/-- A decimal text with an explicit point: an optional minus sign, at least one digit, the
point, digits, and possibly an exponent `e`, a sign and at least one digit. -/
def DecimalText (text : Str) : Prop :=
  ∃ minus whole fraction exponent : Str,
    text = minus ++ whole ++ ".".toList ++ fraction ++ exponent
      ∧ (minus = [] ∨ minus = "-".toList)
      ∧ whole ≠ [] ∧ (∀ c ∈ whole, c ∈ "0123456789".toList)
      ∧ (∀ c ∈ fraction, c ∈ "0123456789".toList)
      ∧ (exponent = [] ∨ ∃ (sign : Char) (digits : Str), (sign = '+' ∨ sign = '-')
          ∧ digits ≠ [] ∧ (∀ c ∈ digits, c ∈ "0123456789".toList)
          ∧ exponent = 'e' :: sign :: digits)
/-! ## Auxiliary facts -/

theorem DP_ASSERT_eq_some (c : Bool) (u : Unit) : DP_ASSERT c = some u ↔ c = true := by
  cases c <;> simp [DP_ASSERT]

theorem DP_ASSERT_true : DP_ASSERT true = some () := rfl

theorem DP_ASSERT_false : DP_ASSERT false = none := rfl

theorem digitValue_of_isDigit (c : Char) (h : c.isDigit = true) :
    digitValue c = c.toNat - 48 ∧ 48 ≤ c.toNat ∧ c.toNat ≤ 57 := by
  have h1 : 48 ≤ c.toNat ∧ c.toNat ≤ 57 := by
    simp only [Char.isDigit, Bool.and_eq_true, decide_eq_true_eq] at h
    exact ⟨h.1, h.2⟩
  refine ⟨?_, h1⟩
  unfold digitValue sizeT
  have h2 : ((c.toNat : Int) - 48) % 2 ^ 64 = (c.toNat : Int) - 48 :=
    Int.emod_eq_of_lt (by omega) (by omega)
  rw [h2]
  omega

theorem matrixColumnsLoop_eq (type : Str) (values : List (List FloatBits)) (ret : Bool) :
    matrixColumnsLoop type values ret
      = (ret && values.all fun column => digitValue (charAt type 7) == column.length) := by
  induction values generalizing ret with
  | nil => simp [matrixColumnsLoop]
  | cons column rest ih =>
    cases ret with
    | false => simp [matrixColumnsLoop]
    | true => simp [matrixColumnsLoop, ih]

/-! ## C8, C9: constants against a declared type -/

theorem isCompatibleType_constant (s : MDLBuilder) (T : Str) (value : ValueData) :
    isCompatibleType s T (ExpressionDataConstant value) = some (isCompatibleConstant T value) := by
  simp [isCompatibleType, isCompatibleTypeFuel]

theorem vector_shape_iff (T : Str) (k : Nat) :
    (T.length == 6 && substr T 0 5 == "float".toList && (charAt T 5).isDigit
        && digitValue (charAt T 5) == k) = true
      ↔ ∃ d : Char, d.isDigit = true ∧ T = "float".toList ++ [d] ∧ d.toNat - 48 = k := by
  constructor
  · intro h
    simp only [Bool.and_eq_true, beq_iff_eq] at h
    obtain ⟨⟨⟨hlen, hpre⟩, hdig⟩, hval⟩ := h
    rcases T with _ | ⟨a, _ | ⟨b, _ | ⟨c, _ | ⟨d, _ | ⟨e, _ | ⟨f, _ | ⟨g, T⟩⟩⟩⟩⟩⟩⟩ <;>
      simp at hlen
    simp [substr] at hpre
    obtain ⟨rfl, rfl, rfl, rfl, rfl⟩ := hpre
    have hf : charAt ['f', 'l', 'o', 'a', 't', f] 5 = f := rfl
    rw [hf] at hdig hval
    refine ⟨f, hdig, rfl, ?_⟩
    rw [← (digitValue_of_isDigit f hdig).1]; exact hval
  · rintro ⟨d, hd, rfl, hk⟩
    have hf : charAt ("float".toList ++ [d]) 5 = d := rfl
    simp only [Bool.and_eq_true, beq_iff_eq]
    rw [hf]
    exact ⟨⟨⟨rfl, rfl⟩, hd⟩, by rw [(digitValue_of_isDigit d hd).1]; exact hk⟩

theorem matrix_shape_iff (T : Str) (k : Nat) :
    (T.length == 8 && substr T 0 5 == "float".toList && (charAt T 5).isDigit
        && digitValue (charAt T 5) == k && charAt T 6 == 'x' && (charAt T 7).isDigit) = true
      ↔ ∃ n m : Char, n.isDigit = true ∧ m.isDigit = true
          ∧ T = "float".toList ++ [n, 'x', m] ∧ n.toNat - 48 = k := by
  constructor
  · intro h
    simp only [Bool.and_eq_true, beq_iff_eq] at h
    obtain ⟨⟨⟨⟨⟨hlen, hpre⟩, hdig⟩, hval⟩, hx⟩, hm⟩ := h
    rcases T with _ | ⟨a, _ | ⟨b, _ | ⟨c, _ | ⟨d, _ | ⟨e, _ | ⟨f, _ | ⟨g, _ | ⟨h, _ | ⟨i, T⟩⟩⟩⟩⟩⟩⟩⟩⟩ <;>
      simp at hlen
    simp [substr] at hpre
    obtain ⟨rfl, rfl, rfl, rfl, rfl⟩ := hpre
    have h5 : charAt ['f', 'l', 'o', 'a', 't', f, g, h] 5 = f := rfl
    have h6 : charAt ['f', 'l', 'o', 'a', 't', f, g, h] 6 = g := rfl
    have h7 : charAt ['f', 'l', 'o', 'a', 't', f, g, h] 7 = h := rfl
    rw [h5] at hdig hval
    rw [h6] at hx
    rw [h7] at hm
    subst hx
    refine ⟨f, h, hdig, hm, rfl, ?_⟩
    rw [← (digitValue_of_isDigit f hdig).1]; exact hval
  · rintro ⟨n, m, hn, hm, rfl, hk⟩
    have h5 : charAt ("float".toList ++ [n, 'x', m]) 5 = n := rfl
    have h6 : charAt ("float".toList ++ [n, 'x', m]) 6 = 'x' := rfl
    have h7 : charAt ("float".toList ++ [n, 'x', m]) 7 = m := rfl
    simp only [Bool.and_eq_true, beq_iff_eq]
    rw [h5, h6, h7]
    exact ⟨⟨⟨⟨⟨rfl, rfl⟩, hn⟩, by rw [(digitValue_of_isDigit n hn).1]; exact hk⟩, rfl⟩, hm⟩

/-- C8: for every declared type string `T`, a constant holding a Bool, Color, Float, Int,
String or Texture value is compatible with `T` exactly when `T` is the spelling `bool`,
`color`, `float`, `int`, `string`, `texture_2d` respectively, and a constant holding an Enum
value exactly when `T` is the enum type name stored in the value; the check always returns. -/
theorem isCompatibleType_scalar_constants (s : MDLBuilder) (T : Str) :
    (∀ v, isCompatibleType s T (ExpressionDataConstant (ValueDataBool v))
        = some (decide (T = "bool".toList)))
    ∧ (∀ r g b, isCompatibleType s T (ExpressionDataConstant (ValueDataColor r g b))
        = some (decide (T = "color".toList)))
    ∧ (∀ v, isCompatibleType s T (ExpressionDataConstant (ValueDataFloat v))
        = some (decide (T = "float".toList)))
    ∧ (∀ v, isCompatibleType s T (ExpressionDataConstant (ValueDataInt v))
        = some (decide (T = "int".toList)))
    ∧ (∀ v, isCompatibleType s T (ExpressionDataConstant (ValueDataString v))
        = some (decide (T = "string".toList)))
    ∧ (∀ name gamma, isCompatibleType s T (ExpressionDataConstant (ValueDataTexture name gamma))
        = some (decide (T = "texture_2d".toList)))
    ∧ (∀ typeSpace type value,
        isCompatibleType s T (ExpressionDataConstant (ValueDataEnum typeSpace type value))
          = some (decide (T = type))) := by
  refine ⟨?_, ?_, ?_, ?_, ?_, ?_, ?_⟩ <;> intros <;>
    rw [isCompatibleType_constant] <;> simp only [isCompatibleConstant, beq_eq_decide] <;> congr!

/-- C9: for every declared type string `T`, the check of a Vector constant with `k` elements
returns, and returns true exactly when `T` is `float` followed by one decimal digit of value
`k`; the check of a Matrix constant returns, and returns true exactly when `T` is `float`,
a digit `N`, `x`, a digit `M`, with `N` the number of columns and every column of exactly
`M` elements. -/
theorem isCompatibleType_vector_matrix (s : MDLBuilder) (T : Str) :
    (∀ values : List FloatBits, ∃ b,
        isCompatibleType s T (ExpressionDataConstant (ValueDataVector values)) = some b
        ∧ (b = true ↔ ∃ d : Char, d.isDigit = true ∧ T = "float".toList ++ [d]
            ∧ d.toNat - 48 = values.length))
    ∧ (∀ values : List (List FloatBits), ∃ b,
        isCompatibleType s T (ExpressionDataConstant (ValueDataMatrix values)) = some b
        ∧ (b = true ↔ ∃ n m : Char, n.isDigit = true ∧ m.isDigit = true
            ∧ T = "float".toList ++ [n, 'x', m] ∧ n.toNat - 48 = values.length
            ∧ ∀ column ∈ values, column.length = m.toNat - 48)) := by
  constructor
  · intro values
    refine ⟨_, isCompatibleType_constant s T _, ?_⟩
    simp only [isCompatibleConstant]
    exact vector_shape_iff T values.length
  · intro values
    refine ⟨_, isCompatibleType_constant s T _, ?_⟩
    simp only [isCompatibleConstant, matrixColumnsLoop_eq]
    rw [Bool.and_eq_true, matrix_shape_iff]
    constructor
    · rintro ⟨⟨n, m, hn, hm, rfl, hk⟩, hall⟩
      refine ⟨n, m, hn, hm, rfl, hk, ?_⟩
      intro column hc
      have h7 : charAt ("float".toList ++ [n, 'x', m]) 7 = m := rfl
      rw [List.all_eq_true] at hall
      have := hall column hc
      rw [h7, beq_iff_eq, (digitValue_of_isDigit m hm).1] at this
      exact this.symm
    · rintro ⟨n, m, hn, hm, rfl, hk, hcols⟩
      refine ⟨⟨n, m, hn, hm, rfl, hk⟩, ?_⟩
      rw [List.all_eq_true]
      intro column hc
      have h7 : charAt ("float".toList ++ [n, 'x', m]) 7 = m := rfl
      rw [h7, beq_iff_eq, (digitValue_of_isDigit m hm).1]
      exact (hcols column hc).symm

/-! ## C10: arrays against a declared type -/

theorem find_zero_of_not_mem (s : Str) (c : Char) (h : c ∉ s) : find s c 0 = npos := by
  simp [find, h]

theorem find_zero_of_mem (s : Str) (c : Char) (h : c ∈ s) :
    find s c 0 = s.indexOf c ∧ s.indexOf c < s.length := by
  refine ⟨by simp [find, h], List.indexOf_lt_length.mpr h⟩

theorem take_indexOf_eq_takeWhile (s : Str) (c : Char) :
    s.take (s.indexOf c) = s.takeWhile (fun x => x != c) := by
  induction s with
  | nil => simp
  | cons a l ih =>
    by_cases h : a = c
    · subst h; simp [List.takeWhile]
    · have h' : (a != c) = true := by simpa using h
      have h2 : (a == c) = false := by simpa using h
      rw [List.indexOf_cons, h2]
      simp [List.takeWhile, h', ih]

theorem takeWhile_ne_of_not_mem (s : Str) (c : Char) (h : c ∉ s) :
    s.takeWhile (fun x => x != c) = s := by
  induction s with
  | nil => simp
  | cons a l ih =>
    have h1 : a ≠ c := fun e => h (by simp [e])
    have h2 : c ∉ l := fun e => h (by simp [e])
    have h' : (a != c) = true := by simpa using h1
    simp [List.takeWhile, h', ih h2]

theorem str_beq_eq_decide (a b : Str) : (a == b) = decide (a = b) := by
  by_cases h : a = b <;> simp [h]

/-- The array branch of `isCompatibleType`. -/
theorem arrayBranch_eq (s : MDLBuilder) (T typeSpace E : Str)
    (values : List ExpressionData) (hT : T.length < 2 ^ 64) :
    isCompatibleType s T (ExpressionDataArray typeSpace E values)
      = if '[' ∈ T ∧ T.getLast? ≠ some ']' then none
        else some (decide (T.takeWhile (fun x => x != '[') = E)) := by
  simp only [isCompatibleType, isCompatibleTypeFuel]
  by_cases hmem : '[' ∈ T
  · obtain ⟨hf, hlt⟩ := find_zero_of_mem T '[' hmem
    have hne : (T.indexOf '[' == npos) = false := by
      have : T.indexOf '[' ≠ npos := by unfold npos; omega
      simpa using this
    rw [hf, hne]
    by_cases hlast : T.getLast? = some ']'
    · simp [hmem, hlast, DP_ASSERT, substr, take_indexOf_eq_takeWhile, str_beq_eq_decide]
    · simp [hmem, hlast, DP_ASSERT]
  · have hf := find_zero_of_not_mem T '[' hmem
    have htake : T.take npos = T := List.take_of_length_le (by unfold npos; omega)
    simp [hmem, hf, DP_ASSERT, substr, htake, takeWhile_ne_of_not_mem T '[' hmem,
      str_beq_eq_decide]

/-- C10 (as amended): for a declared type `T` and an Array expression with element type `E`,
the check fails when `T` contains `[` without ending in `]`; otherwise it returns whether `T`
with everything from its first `[` removed equals `E`. A declared type without `[` is
compared whole, so an Array of element type `E` is compatible with the unbracketed `T = E`. -/
theorem isCompatibleType_array (s : MDLBuilder) (T typeSpace E : Str)
    (values : List ExpressionData) (hT : T.length < 2 ^ 64) :
    ('[' ∈ T → T.getLast? ≠ some ']' →
        isCompatibleType s T (ExpressionDataArray typeSpace E values) = none)
    ∧ ('[' ∈ T → T.getLast? = some ']' →
        isCompatibleType s T (ExpressionDataArray typeSpace E values)
          = some (decide (T.takeWhile (fun x => x != '[') = E)))
    ∧ ('[' ∉ T →
        isCompatibleType s T (ExpressionDataArray typeSpace E values) = some (decide (T = E))) := by
  rw [arrayBranch_eq s T typeSpace E values hT]
  refine ⟨?_, ?_, ?_⟩
  · intro h1 h2; simp [h1, h2]
  · intro h1 h2; simp [h1, h2]
  · intro h1; simp [h1, takeWhile_ne_of_not_mem T '[' h1]

/-- Witness for C10: the three cases at `int[3]x`, `int[3]` and `int`. -/
theorem isCompatibleType_array_witness :
    isCompatibleType MDLBuilder.new "int[3]x".toList
        (ExpressionDataArray [] "int".toList []) = none
    ∧ isCompatibleType MDLBuilder.new "int[3]".toList
        (ExpressionDataArray [] "int".toList []) = some true
    ∧ isCompatibleType MDLBuilder.new "float".toList
        (ExpressionDataArray [] "int".toList []) = some false :=
  ⟨(isCompatibleType_array MDLBuilder.new "int[3]x".toList [] "int".toList [] (by decide)).1
      (by decide) (by decide),
   by simpa using (isCompatibleType_array MDLBuilder.new "int[3]".toList [] "int".toList []
      (by decide)).2.1 (by decide) (by decide),
   by simpa using (isCompatibleType_array MDLBuilder.new "float".toList [] "int".toList []
      (by decide)).2.2 (by decide)⟩

/-- Counterexample to C10 as stated: the declared type `int` carries no bracketed suffix, and
an Array expression with element type `int` is compatible with it. -/
theorem isCompatibleType_array_unbracketed :
    '[' ∉ "int".toList
    ∧ isCompatibleType MDLBuilder.new "int".toList
        (ExpressionDataArray [] "int".toList []) = some true :=
  ⟨by decide, by decide⟩

/-! ## Ordered maps -/

theorem mapFind_eq_none_iff {κ β : Type} [DecidableEq κ] (m : List (κ × β)) (k : κ) :
    mapFind m k = none ↔ k ∉ mapKeys m := by
  induction m with
  | nil => simp [mapFind, mapKeys]
  | cons e rest ih =>
    obtain ⟨k', v⟩ := e
    by_cases h : k = k'
    · simp [mapFind, mapKeys, h]
    · simp only [mapKeys] at ih
      simp [mapFind, mapKeys, h, ih]

theorem mapInsert_perm {κ β : Type} [DecidableEq κ] (lt : κ → κ → Bool) (k : κ) (v : β)
    (m : List (κ × β)) (h : mapFind m k = none) :
    (mapInsert lt k v m).Perm ((k, v) :: m) := by
  induction m with
  | nil => simp [mapInsert]
  | cons e rest ih =>
    obtain ⟨k', v'⟩ := e
    by_cases hk : k = k'
    · simp [mapFind, hk] at h
    · have hrest : mapFind rest k = none := by simpa [mapFind, hk] using h
      by_cases hlt : lt k k' = true
      · simp [mapInsert, hk, hlt]
      · simp only [mapInsert, hk, hlt, if_false]
        exact ((ih hrest).cons (k', v')).trans (List.Perm.swap _ _ _)

theorem mapFind_mapInsert_self {κ β : Type} [DecidableEq κ] (lt : κ → κ → Bool) (k : κ) (v : β)
    (m : List (κ × β)) (h : mapFind m k = none) :
    mapFind (mapInsert lt k v m) k = some v := by
  induction m with
  | nil => simp [mapInsert, mapFind]
  | cons e rest ih =>
    obtain ⟨k', v'⟩ := e
    by_cases hk : k = k'
    · simp [mapFind, hk] at h
    · have hrest : mapFind rest k = none := by simpa [mapFind, hk] using h
      by_cases hlt : lt k k' = true
      · simp [mapInsert, hk, hlt, mapFind]
      · simp [mapInsert, hk, hlt, mapFind, ih hrest]

theorem mapFind_mapInsert_other {κ β : Type} [DecidableEq κ] (lt : κ → κ → Bool) (k k0 : κ)
    (v : β) (m : List (κ × β)) (h : k0 ≠ k) :
    mapFind (mapInsert lt k v m) k0 = mapFind m k0 := by
  induction m with
  | nil => simp [mapInsert, mapFind, h]
  | cons e rest ih =>
    obtain ⟨k', v'⟩ := e
    by_cases hk : k = k'
    · simp [mapInsert, hk]
    · by_cases hlt : lt k k' = true
      · simp [mapInsert, hk, hlt, mapFind, h]
      · by_cases h0 : k0 = k'
        · simp [mapInsert, hk, hlt, mapFind, h0]
        · simp [mapInsert, hk, hlt, mapFind, h0, ih]

theorem registerImport_structures (s : MDLBuilder) (nameSpace name : Str) :
    (registerImport s nameSpace name).m_structures = s.m_structures := by
  unfold registerImport; split <;> rfl

/-! ## C2: `callEnd` -/

/-- C2 (as amended): `callEnd` is accepted exactly when the expression stack is not empty and
its top node is a Call, whatever the number of declared slots of that call and whichever of
them are filled; it leaves the builder unchanged. -/
theorem callEnd_accepts_iff_top_is_call (s : MDLBuilder) :
    (∀ ts t cs c argumentData arguments rest,
        s.m_currentExpression = ExpressionDataCall ts t cs c argumentData arguments :: rest →
        callEnd s = some s)
    ∧ (∀ s', callEnd s = some s' →
        s' = s ∧ ∃ ts t cs c argumentData arguments rest,
          s.m_currentExpression = ExpressionDataCall ts t cs c argumentData arguments :: rest) := by
  constructor
  · intro ts t cs c argumentData arguments rest h
    simp [callEnd, h, isCall, DP_ASSERT]
  · intro s' h
    unfold callEnd at h
    split at h
    · simp at h
    · rename_i top rest htop
      cases top <;> simp [isCall, DP_ASSERT] at h
      exact ⟨h.symm, _, _, _, _, _, _, _, htop⟩

/-- Witness for C2: a call with one declared slot and no filled slot is on top. -/
theorem callEnd_accepts_iff_top_is_call_witness :
    unfilledCallState.m_currentExpression
        = [ExpressionDataCall [] "float".toList "df".toList "f".toList
            [ArgumentData.mk [] "float".toList "x".toList] []]
    ∧ callEnd unfilledCallState = some unfilledCallState
    ∧ (unfilledCallState = unfilledCallState
        ∧ ∃ ts t cs c argumentData arguments rest, unfilledCallState.m_currentExpression
            = ExpressionDataCall ts t cs c argumentData arguments :: rest) :=
  ⟨rfl, (callEnd_accepts_iff_top_is_call unfilledCallState).1 _ _ _ _ _ _ _ rfl,
   (callEnd_accepts_iff_top_is_call unfilledCallState).2 unfilledCallState rfl⟩

/-- Counterexample to C2 as stated: after `callBegin` with one declared argument slot and no
`argumentBegin` / `argumentEnd`, the call has one declared and no filled slot, and `callEnd`
is accepted. -/
theorem callEnd_accepts_unfilled_call :
    ∃ s, run MDLBuilder.new
        [Event.callBegin "float".toList "::df::f".toList [("float".toList, "x".toList)]] = some s
      ∧ s.m_currentExpression
        = [ExpressionDataCall [] "float".toList "df".toList "f".toList
            [ArgumentData.mk [] "float".toList "x".toList] []]
      ∧ callEnd s = some s :=
  ⟨_, rfl, rfl, rfl⟩


/-! ## C3: registration of structure types -/

/-- C3: for every builder state and every structure name `q` whose name space can be
extracted, `structureTypeBegin(q)` returns true and adds exactly one registry entry, for `q`
and with an empty member list, when `q` is not registered; when `q` is registered it returns
false and leaves the structure registry unchanged. So a second registration of `q` reports
"do not descend" and the registry holds exactly one entry for `q`. -/
theorem structureTypeBegin_registers_once (s : MDLBuilder) (q nameSpace : Str)
    (hq : extractNameSpace q = some nameSpace) :
    (mapFind s.m_structures q = none →
      ∃ s1, structureTypeBegin s q = some (true, s1)
        ∧ s1.m_structures.Perm
            ((q, StructureData.mk nameSpace (extractTypeName q) []) :: s.m_structures)
        ∧ mapFind s1.m_structures q = some (StructureData.mk nameSpace (extractTypeName q) [])
        ∧ ((mapKeys s1.m_structures).filter fun k => decide (k = q)).length = 1
        ∧ ∃ s2, structureTypeBegin s1 q = some (false, s2)
            ∧ s2.m_structures = s1.m_structures)
    ∧ (mapFind s.m_structures q ≠ none →
      ∃ s1, structureTypeBegin s q = some (false, s1) ∧ s1.m_structures = s.m_structures) := by
  have heq : ∀ t : MDLBuilder, structureTypeBegin t q
      = some ((mapFind t.m_structures q).isNone,
          if (mapFind t.m_structures q).isNone then
            { registerImport t nameSpace (extractTypeName q) with
                m_structures := mapInsert strLt q
                  (StructureData.mk nameSpace (extractTypeName q) []) t.m_structures,
                m_currentStructure := q :: t.m_currentStructure }
          else registerImport t nameSpace (extractTypeName q)) := by
    intro t
    simp only [structureTypeBegin, tokenizeType, hq, registerImport_structures]
    have hc : (registerImport t nameSpace (extractTypeName q)).m_currentStructure
        = t.m_currentStructure := by
      unfold registerImport; split <;> rfl
    rw [← hc]
    rfl
  have hunknown : ∀ t : MDLBuilder, mapFind t.m_structures q = none →
      ∃ t1, structureTypeBegin t q = some (true, t1)
        ∧ t1.m_structures = mapInsert strLt q
            (StructureData.mk nameSpace (extractTypeName q) []) t.m_structures := by
    intro t ht
    rw [heq t, ht]
    exact ⟨_, rfl, rfl⟩
  have hknown : ∀ t : MDLBuilder, mapFind t.m_structures q ≠ none →
      ∃ t1, structureTypeBegin t q = some (false, t1) ∧ t1.m_structures = t.m_structures := by
    intro t ht
    obtain ⟨sd, hsd⟩ := Option.ne_none_iff_exists'.mp ht
    rw [heq t, hsd]
    exact ⟨_, rfl, registerImport_structures t _ _⟩
  refine ⟨?_, hknown s⟩
  intro hs
  obtain ⟨s1, h1, hm⟩ := hunknown s hs
  have hfind := mapFind_mapInsert_self strLt q
    (StructureData.mk nameSpace (extractTypeName q) []) s.m_structures hs
  have hperm := mapInsert_perm strLt q
    (StructureData.mk nameSpace (extractTypeName q) []) s.m_structures hs
  refine ⟨s1, h1, hm ▸ hperm, hm ▸ hfind, ?_, ?_⟩
  · have hk : (mapKeys s1.m_structures).Perm (q :: mapKeys s.m_structures) := by
      rw [hm]; exact hperm.map Prod.fst
    have hnot : (mapKeys s.m_structures).filter (fun k => decide (k = q)) = [] := by
      rw [List.filter_eq_nil_iff]
      intro k hk' hkq
      have hkq' : k = q := by simpa using hkq
      exact (mapFind_eq_none_iff _ _).mp hs (hkq' ▸ hk')
    rw [(hk.filter _).length_eq]
    simp [List.filter_cons, hnot]
  · exact hknown s1 (by rw [hm, hfind]; simp)

/-- Witness for C3: the structure `::pkg::S` registered in a fresh builder, and registered
again in the builder that holds it. -/
theorem structureTypeBegin_registers_once_witness :
    (∃ s1, structureTypeBegin MDLBuilder.new "::pkg::S".toList = some (true, s1)
      ∧ s1.m_structures.Perm
          (("::pkg::S".toList, StructureData.mk "pkg".toList
              (extractTypeName "::pkg::S".toList) []) :: MDLBuilder.new.m_structures)
      ∧ mapFind s1.m_structures "::pkg::S".toList
          = some (StructureData.mk "pkg".toList (extractTypeName "::pkg::S".toList) [])
      ∧ ((mapKeys s1.m_structures).filter fun k => decide (k = "::pkg::S".toList)).length = 1
      ∧ ∃ s2, structureTypeBegin s1 "::pkg::S".toList = some (false, s2)
          ∧ s2.m_structures = s1.m_structures)
    ∧ ∃ s1, structureTypeBegin registeredStructureState "::pkg::S".toList = some (false, s1)
        ∧ s1.m_structures = registeredStructureState.m_structures :=
  ⟨(structureTypeBegin_registers_once MDLBuilder.new "::pkg::S".toList "pkg".toList
      (by decide)).1 (by decide),
   (structureTypeBegin_registers_once registeredStructureState "::pkg::S".toList "pkg".toList
      (by decide)).2 (by decide)⟩

/-! ## C4: registration of enum types -/

theorem registerType_frame (s s1 : MDLBuilder) (name typeName : Str)
    (h : registerType s name = some (typeName, s1)) :
    ∃ imports, s1 = { s with m_imports := imports } := by
  unfold registerType at h
  dsimp only at h
  generalize (if find_first_of name '[' ≠ npos then substr name 0 (find_first_of name '[')
    else name) = tn at h
  by_cases hstd : tn ∈ standardTypes
  · rw [if_pos hstd] at h
    simp only [Option.some.injEq, Prod.mk.injEq] at h
    exact ⟨s.m_imports, h.2 ▸ rfl⟩
  · rw [if_neg hstd] at h
    cases hns : extractNameSpace tn with
    | none => simp [hns] at h
    | some ns =>
      cases ha : DP_ASSERT (find_last_of tn ':' npos != npos) with
      | none => simp [hns, ha] at h
      | some u =>
        by_cases hne : ns = []
        · simp [hns, ha, hne] at h
          exact ⟨s.m_imports, h.2 ▸ rfl⟩
        · simp [hns, ha, hne] at h
          exact ⟨_, h.2.symm⟩

/-- C4 (as amended): in a state in which no enum definition is open, `enumTypeBegin(q, size)`
looks the enum up under the bare local name `enumName` that `registerType(q)` returns (the
name space of `q` is not part of the key). It returns false exactly when an enum of that
local name is registered, and then leaves the enum registry unchanged; otherwise it returns
true, adds exactly one registry entry, for `enumName` and without values, and opens it. -/
theorem enumTypeBegin_keyed_by_local_name (s s1 : MDLBuilder) (q enumName : Str) (size : Nat)
    (hopen : s.m_currentEnum = none) (hreg : registerType s q = some (enumName, s1)) :
    (mapFind s.m_enums enumName ≠ none →
      enumTypeBegin s q size = some (false, s1) ∧ s1.m_enums = s.m_enums)
    ∧ (mapFind s.m_enums enumName = none →
      ∃ s2, enumTypeBegin s q size = some (true, s2)
        ∧ s2.m_enums.Perm ((enumName, EnumData.mk enumName []) :: s.m_enums)
        ∧ s2.m_currentEnum = some enumName) := by
  obtain ⟨imports, rfl⟩ := registerType_frame s s1 q enumName hreg
  constructor
  · intro h
    obtain ⟨e, he⟩ := Option.ne_none_iff_exists'.mp h
    simp [enumTypeBegin, hopen, DP_ASSERT, hreg, he]
  · intro h
    have heq : enumTypeBegin s q size = some (true,
        { s with m_imports := imports,
                 m_enums := mapInsert strLt enumName (EnumData.mk enumName []) s.m_enums,
                 m_currentEnum := some enumName }) := by
      simp [enumTypeBegin, hopen, DP_ASSERT, hreg, h]
    exact ⟨_, heq, mapInsert_perm strLt enumName _ _ h, rfl⟩

/-- Witness for C4: `::a::E` in a fresh builder, and the same name again once it is
registered and closed. -/
theorem enumTypeBegin_keyed_by_local_name_witness :
    (∃ s2, enumTypeBegin MDLBuilder.new "::a::E".toList 2 = some (true, s2)
      ∧ s2.m_enums.Perm (("E".toList, EnumData.mk "E".toList []) :: MDLBuilder.new.m_enums)
      ∧ s2.m_currentEnum = some "E".toList)
    ∧ (enumTypeBegin closedEnumState "::a::E".toList 2 = some (false, closedEnumState)
      ∧ closedEnumState.m_enums = closedEnumState.m_enums) :=
  ⟨(enumTypeBegin_keyed_by_local_name MDLBuilder.new
      { MDLBuilder.new with m_imports := [("a".toList, ["E".toList])] }
      "::a::E".toList "E".toList 2 rfl rfl).2 (by decide),
   (enumTypeBegin_keyed_by_local_name closedEnumState closedEnumState
      "::a::E".toList "E".toList 2 rfl rfl).1 (by decide)⟩

/-- Counterexample to C4 as stated: once the enum `::a::E` is registered and closed, the
begin event of the different qualified name `::b::E`, which was never registered, returns
false and adds no registry entry. -/
theorem enumTypeBegin_rejects_other_namespace :
    ∃ s s', run MDLBuilder.new
          [Event.enumTypeBegin "::a::E".toList 2, Event.enumTypeEnd] = some s
      ∧ s.m_currentEnum = none
      ∧ mapKeys s.m_enums = ["E".toList]
      ∧ enumTypeBegin s "::b::E".toList 2 = some (false, s')
      ∧ s'.m_enums = s.m_enums :=
  ⟨_, _, rfl, rfl, rfl, rfl, rfl⟩

/-! ## C1: the import block -/

theorem occurrences_append (x : Str) (l1 l2 : List Str) :
    occurrences x (l1 ++ l2) = occurrences x l1 + occurrences x l2 := by
  simp [occurrences]

theorem occurrences_eq_zero (x : Str) (l : List Str) (h : x ∉ l) : occurrences x l = 0 := by
  simp only [occurrences, List.length_eq_zero, List.filter_eq_nil_iff]
  intro a ha hax
  exact h ((of_decide_eq_true hax) ▸ ha)

theorem occurrences_map_eq_one {f : Str → Str} (names : List Str) (n : Str)
    (hnodup : names.Nodup) (hn : n ∈ names)
    (hinj : ∀ a ∈ names, f a = f n → a = n) :
    occurrences (f n) (names.map f) = 1 := by
  induction names with
  | nil => simp at hn
  | cons a rest ih =>
    rw [List.nodup_cons] at hnodup
    have hsplit : occurrences (f n) ((a :: rest).map f)
        = occurrences (f n) [f a] + occurrences (f n) (rest.map f) := by
      rw [← occurrences_append]; rfl
    rw [hsplit]
    by_cases han : a = n
    · subst han
      have hrest : f a ∉ rest.map f := by
        intro hmem
        obtain ⟨b, hb, hfb⟩ := List.mem_map.mp hmem
        have := hinj b (List.mem_cons_of_mem _ hb) hfb
        exact hnodup.1 (this ▸ hb)
      rw [occurrences_eq_zero _ _ hrest]
      simp [occurrences]
    · have hn' : n ∈ rest := by
        rcases List.mem_cons.mp hn with h | h
        · exact absurd h.symm han
        · exact h
      have hfa : f a ≠ f n := fun h => han (hinj a (List.mem_cons_self _ _) h)
      rw [ih hnodup.2 hn' (fun b hb => hinj b (List.mem_cons_of_mem _ hb))]
      simp [occurrences, hfa]

/-- Two strings that agree up to their first `c` agree before and after it. -/
theorem split_at_first (c : Char) (a b x y : Str) (ha : c ∉ a) (hb : c ∉ b)
    (h : a ++ c :: x = b ++ c :: y) : a = b ∧ x = y := by
  induction a generalizing b with
  | nil =>
    cases b with
    | nil => simpa using h
    | cons b0 b' =>
      simp only [List.nil_append, List.cons_append, List.cons.injEq] at h
      exact absurd (by simp [h.1]) hb
  | cons a0 a' ih =>
    cases b with
    | nil =>
      simp only [List.nil_append, List.cons_append, List.cons.injEq] at h
      exact absurd (by simp [h.1]) ha
    | cons b0 b' =>
      simp only [List.cons_append, List.cons.injEq] at h
      have ha' : c ∉ a' := fun hm => ha (List.mem_cons_of_mem _ hm)
      have hb' : c ∉ b' := fun hm => hb (List.mem_cons_of_mem _ hm)
      obtain ⟨h1, h2⟩ := ih b' ha' hb' h.2
      exact ⟨by rw [h.1, h1], h2⟩

/-- An import line determines its name space and its name, for names without `:`. -/
theorem importLine_inj (ns ns' n n' : Str) (hn : ':' ∉ n) (hn' : ':' ∉ n')
    (h : importLine ns n = importLine ns' n') : ns = ns' ∧ n = n' := by
  unfold importLine at h
  have h1 : (ns ++ "::".toList ++ n) ++ ";".toList = (ns' ++ "::".toList ++ n') ++ ";".toList := by
    simpa [List.append_assoc] using h
  have h2 : ns ++ "::".toList ++ n = ns' ++ "::".toList ++ n' := List.append_cancel_right h1
  have h3 := congrArg List.reverse h2
  simp only [List.reverse_append] at h3
  have h4 : n.reverse ++ ':' :: (':' :: ns.reverse) = n'.reverse ++ ':' :: (':' :: ns'.reverse) := by
    simpa using h3
  obtain ⟨e1, e2⟩ := split_at_first ':' _ _ _ _ (by simpa using hn) (by simpa using hn') h4
  simp only [List.cons.injEq, true_and] at e2
  exact ⟨List.reverse_injective e2, List.reverse_injective e1⟩

theorem wildcardLine_eq_importLine (ns : Str) : wildcardLine ns = importLine ns "*".toList := by
  simp [wildcardLine, importLine]

/-- The lines of one entry, without the assertion on the name space. -/
theorem importEntryLines_eq (entry : Str × List Str) (h : entry.1 ≠ []) :
    importEntryLines entry
      = some (if entry.2.length < 4 then entry.2.map fun i => importLine entry.1 i
              else [wildcardLine entry.1]) := by
  have h' : entry.1.isEmpty = false := by
    cases hh : entry.1 with
    | nil => exact absurd hh h
    | cons a l => rfl
  unfold importEntryLines
  simp only [h', DP_ASSERT, Bool.not_false, if_true]
  by_cases hl : entry.2.length < 4 <;> simp [hl]

theorem importLoop_eq (imports : List (Str × List Str)) (hns : ∀ e ∈ imports, e.1 ≠ []) :
    importLoop imports = some ((imports.map entryLines).flatten) := by
  induction imports with
  | nil => rfl
  | cons e rest ih =>
    have h1 := importEntryLines_eq e (hns e (List.mem_cons_self _ _))
    have h2 := ih (fun e' he' => hns e' (List.mem_cons_of_mem _ he'))
    simp [importLoop, h1, h2, entryLines]

theorem lineOf_not_mem_entryLines (ns x : Str) (e : Str × List Str) (hx : LineOf ns x)
    (hne : e.1 ≠ ns) (hnames : ∀ n ∈ e.2, ':' ∉ n ∧ '*' ∉ n) : x ∉ entryLines e := by
  obtain ⟨n, hn, rfl⟩ := hx
  intro hmem
  unfold entryLines at hmem
  split at hmem
  · obtain ⟨n', hn', heq⟩ := List.mem_map.mp hmem
    exact hne (importLine_inj _ _ _ _ (hnames n' hn').1 hn heq).1
  · rw [List.mem_singleton, wildcardLine_eq_importLine] at hmem
    exact hne (importLine_inj _ _ _ _ hn (by decide) hmem).1.symm

theorem occurrences_join_of_lineOf (imports : List (Str × List Str)) (e : Str × List Str)
    (x : Str) (he : e ∈ imports) (hkeys : (mapKeys imports).Nodup)
    (hnames : ∀ e' ∈ imports, ∀ n ∈ e'.2, ':' ∉ n ∧ '*' ∉ n) (hx : LineOf e.1 x) :
    occurrences x ((imports.map entryLines).flatten) = occurrences x (entryLines e) := by
  have hzero : ∀ l : List (Str × List Str), (∀ e' ∈ l, e'.1 ≠ e.1) →
      (∀ e' ∈ l, ∀ n ∈ e'.2, ':' ∉ n ∧ '*' ∉ n) →
      occurrences x ((l.map entryLines).flatten) = 0 := by
    intro l
    induction l with
    | nil => intro _ _; rfl
    | cons a rest ih =>
      intro h1 h2
      simp only [List.map_cons, List.flatten_cons, occurrences_append]
      rw [ih (fun e' he' => h1 e' (List.mem_cons_of_mem _ he'))
        (fun e' he' => h2 e' (List.mem_cons_of_mem _ he'))]
      rw [occurrences_eq_zero _ _ (lineOf_not_mem_entryLines e.1 x a hx
        (h1 a (List.mem_cons_self _ _)) (h2 a (List.mem_cons_self _ _)))]
  induction imports with
  | nil => simp at he
  | cons a rest ih =>
    simp only [mapKeys, List.map_cons, List.nodup_cons] at hkeys
    simp only [List.map_cons, List.flatten_cons, occurrences_append]
    rcases List.mem_cons.mp he with h | h
    · subst h
      rw [hzero rest (fun e' he' hk => hkeys.1 (hk ▸ List.mem_map_of_mem Prod.fst he'))
        (fun e' he' => hnames e' (List.mem_cons_of_mem _ he'))]
      rfl
    · have hane : a.1 ≠ e.1 := fun hk => hkeys.1 (hk ▸ List.mem_map_of_mem Prod.fst h)
      rw [occurrences_eq_zero _ _ (lineOf_not_mem_entryLines e.1 x a hx hane
        (hnames a (List.mem_cons_self _ _)))]
      rw [ih h hkeys.2 (fun e' he' => hnames e' (List.mem_cons_of_mem _ he'))]
      simp

theorem importLine_ne_nil (ns n : Str) : importLine ns n ≠ [] := by
  simp [importLine]

theorem occurrences_entryLines_name (e : Str × List Str) (n : Str)
    (hset : e.2.Nodup) (hnames : ∀ a ∈ e.2, ':' ∉ a ∧ '*' ∉ a) (hn : ':' ∉ n) (hstar : '*' ∉ n) :
    occurrences (importLine e.1 n) (entryLines e)
      = if e.2.length < 4 ∧ n ∈ e.2 then 1 else 0 := by
  unfold entryLines
  by_cases hlen : e.2.length < 4
  · by_cases hmem : n ∈ e.2
    · simp only [hlen, hmem, and_self, if_true]
      exact occurrences_map_eq_one (f := fun i => importLine e.1 i) e.2 n hset hmem
        (fun a ha h => (importLine_inj _ _ _ _ (hnames a ha).1 hn h).2)
    · simp only [hlen, hmem, and_false, if_true, if_false]
      apply occurrences_eq_zero
      intro h
      obtain ⟨a, ha, heq⟩ := List.mem_map.mp h
      exact hmem ((importLine_inj _ _ _ _ (hnames a ha).1 hn heq).2 ▸ ha)
  · simp only [hlen, false_and, if_false]
    apply occurrences_eq_zero
    rw [List.mem_singleton, wildcardLine_eq_importLine]
    intro h
    have := (importLine_inj _ _ _ _ hn (by decide) h).2
    exact hstar (by rw [this]; decide)

theorem occurrences_entryLines_wildcard (e : Str × List Str)
    (hnames : ∀ a ∈ e.2, ':' ∉ a ∧ '*' ∉ a) :
    occurrences (wildcardLine e.1) (entryLines e) = if e.2.length < 4 then 0 else 1 := by
  unfold entryLines
  by_cases hlen : e.2.length < 4
  · simp only [hlen, if_true]
    apply occurrences_eq_zero
    intro h
    obtain ⟨a, ha, heq⟩ := List.mem_map.mp h
    rw [wildcardLine_eq_importLine] at heq
    have := (importLine_inj _ _ _ _ (hnames a ha).1 (by decide) heq).2
    exact (hnames a ha).2 (by rw [this]; decide)
  · simp [hlen, occurrences]

/-- C1: for an import table with distinct name spaces, none of them empty, whose sets hold
distinct names without `:` and `*`, the import block is written, and for every entry
(name space `ns`, set `S`): if `|S| < 4` the block holds the line `import ns::name;` exactly
once for every `name` in `S`, for no other name, and holds no line `import ns::*;`; if
`|S| ≥ 4` it holds the line `import ns::*;` exactly once and no line `import ns::name;`. -/
theorem importBlock_threshold (imports : List (Str × List Str))
    (hkeys : (mapKeys imports).Nodup)
    (hns : ∀ e ∈ imports, e.1 ≠ [])
    (hsets : ∀ e ∈ imports, e.2.Nodup)
    (hnames : ∀ e ∈ imports, ∀ n ∈ e.2, ':' ∉ n ∧ '*' ∉ n) :
    ∃ lines, importBlock imports = some lines
      ∧ ∀ e ∈ imports,
          (occurrences (wildcardLine e.1) lines = if e.2.length < 4 then 0 else 1)
          ∧ ∀ n, ':' ∉ n → '*' ∉ n →
              occurrences (importLine e.1 n) lines
                = if e.2.length < 4 ∧ n ∈ e.2 then 1 else 0 := by
  cases himp : imports with
  | nil => exact ⟨[], rfl, by simp⟩
  | cons e0 rest =>
    rw [← himp]
    refine ⟨(imports.map entryLines).flatten ++ [[]], ?_, ?_⟩
    · have hne : imports.isEmpty = false := by rw [himp]; rfl
      simp [importBlock, hne, importLoop_eq imports hns]
    · intro e he
      have hblank : ∀ x : Str, x ≠ [] → occurrences x [([] : Str)] = 0 := by
        intro x hx
        apply occurrences_eq_zero
        simpa using hx
      constructor
      · rw [occurrences_append, hblank _ (by rw [wildcardLine_eq_importLine]; exact importLine_ne_nil _ _),
          occurrences_join_of_lineOf imports e _ he hkeys hnames
            ⟨"*".toList, by decide, wildcardLine_eq_importLine e.1⟩,
          occurrences_entryLines_wildcard e (hnames e he)]
        rfl
      · intro n hn hstar
        rw [occurrences_append, hblank _ (importLine_ne_nil _ _),
          occurrences_join_of_lineOf imports e _ he hkeys hnames ⟨n, hn, rfl⟩,
          occurrences_entryLines_name e n (hsets e he) (hnames e he) hn hstar]
        rfl

/-- Witness for C1: a table with a name space of four names and one of a single name. -/
theorem importBlock_threshold_witness :
    importBlock exampleImports
      = some ["import df::*;".toList, "import tex::gamma_mode;".toList, []]
    ∧ ∃ lines, importBlock exampleImports = some lines
      ∧ ∀ e ∈ exampleImports,
          (occurrences (wildcardLine e.1) lines = if e.2.length < 4 then 0 else 1)
          ∧ ∀ n, ':' ∉ n → '*' ∉ n →
              occurrences (importLine e.1 n) lines
                = if e.2.length < 4 ∧ n ∈ e.2 then 1 else 0 :=
  ⟨by decide,
   importBlock_threshold exampleImports (by decide) (by decide) (by decide) (by decide)⟩

/-! ## The end events that attach a node to its parent -/

theorem argumentEnd_eq_some_iff (s s' : MDLBuilder) :
    argumentEnd s = some s' ↔
      ∃ argument ts t cs c argumentData arguments rest idx indices slot,
        s.m_currentExpression
          = argument :: ExpressionDataCall ts t cs c argumentData arguments :: rest
        ∧ s.m_currentIndex = idx :: indices
        ∧ mapFind arguments idx = none
        ∧ argumentData[idx]? = some slot
        ∧ isCompatibleType s slot.type argument = some true
        ∧ s' = { s with
            m_currentExpression :=
              ExpressionDataCall ts t cs c argumentData (mapSet (· < ·) idx argument arguments)
                :: rest,
            m_currentIndex := indices } := by
  constructor
  · intro h
    unfold argumentEnd at h
    split at h
    · rename_i argument ts t cs c argumentData arguments rest idx indices hexp hidx
      simp only [Option.bind_eq_bind, Option.bind_eq_some, DP_ASSERT_eq_some,
        Option.isNone_iff_eq_none, pure, Option.some.injEq] at h
      obtain ⟨_, hfree, slot, hslot, ok, hok, _, hokt, hs'⟩ := h
      subst hokt
      exact ⟨argument, ts, t, cs, c, argumentData, arguments, rest, idx, indices, slot,
        hexp, hidx, hfree, hslot, hok, hs'.symm⟩
    · simp at h
  · rintro ⟨argument, ts, t, cs, c, argumentData, arguments, rest, idx, indices, slot,
      hexp, hidx, hfree, hslot, hok, rfl⟩
    unfold argumentEnd
    simp [hexp, hidx, hfree, hslot, hok, DP_ASSERT]

theorem structureMemberEnd_eq_argumentEnd (s : MDLBuilder) :
    structureMemberEnd s = argumentEnd s := rfl

theorem arrayElementEnd_eq_some_iff (s s' : MDLBuilder) :
    arrayElementEnd s = some s' ↔
      ∃ argument ts t values rest idx indices,
        s.m_currentExpression = argument :: ExpressionDataArray ts t values :: rest
        ∧ s.m_currentIndex = idx :: indices
        ∧ values.length = idx
        ∧ isCompatibleType s t argument = some true
        ∧ s' = { s with
            m_currentExpression := ExpressionDataArray ts t (values ++ [argument]) :: rest,
            m_currentIndex := indices } := by
  constructor
  · intro h
    unfold arrayElementEnd at h
    split at h
    · rename_i argument ts t values rest idx indices hexp hidx
      simp only [Option.bind_eq_bind, Option.bind_eq_some, DP_ASSERT_eq_some,
        beq_iff_eq, pure, Option.some.injEq] at h
      obtain ⟨_, hlen, ok, hok, _, hokt, hs'⟩ := h
      subst hokt
      exact ⟨argument, ts, t, values, rest, idx, indices, hexp, hidx, hlen, hok, hs'.symm⟩
    · simp at h
  · rintro ⟨argument, ts, t, values, rest, idx, indices, hexp, hidx, hlen, hok, rfl⟩
    unfold arrayElementEnd
    simp [hexp, hidx, hlen, hok, DP_ASSERT]

theorem currentMaterial_eq_some_iff (s : MDLBuilder) (m : MaterialData) :
    s.currentMaterial = some m ↔
      ∃ mi, s.m_currentMaterial = some mi ∧ s.m_materials[mi]? = some m := by
  simp [MDLBuilder.currentMaterial, Option.bind_eq_some]

theorem parameterEnd_eq_some_iff (s s' : MDLBuilder) :
    parameterEnd s = some s' ↔
      ∃ top mi i m p,
        s.m_currentExpression = [top]
        ∧ s.m_currentParameter = some (mi, i)
        ∧ s.m_materials[mi]? = some m
        ∧ m.parameters[i]? = some p
        ∧ isCompatibleType s p.type top = some true
        ∧ s' = { s with
            m_materials := s.m_materials.set mi
              { m with parameters := m.parameters.set i { p with value := some top } },
            m_currentExpression := [],
            m_currentParameter := none } := by
  constructor
  · intro h
    unfold parameterEnd at h
    split at h
    · rename_i mi i top hpar hexp
      simp only [Option.bind_eq_bind, Option.bind_eq_some, DP_ASSERT_eq_some,
        pure, Option.some.injEq] at h
      obtain ⟨m, hm, p, hp, ok, hok, _, hokt, hs'⟩ := h
      subst hokt
      exact ⟨top, mi, i, m, p, hexp, hpar, hm, hp, hok, hs'.symm⟩
    · simp at h
  · rintro ⟨top, mi, i, m, p, hexp, hpar, hm, hp, hok, rfl⟩
    unfold parameterEnd
    simp [hexp, hpar, hm, hp, hok, DP_ASSERT]

theorem fieldEnd_eq_some_iff (s s' : MDLBuilder) :
    fieldEnd s = some s' ↔
      ∃ top mi name m old,
        s.m_currentExpression = [top]
        ∧ s.currentMaterial.isSome = true
        ∧ s.m_currentField = some (mi, name)
        ∧ s.m_materials[mi]? = some m
        ∧ mapFind m.fields name = some old
        ∧ s' = { s with
            m_materials := s.m_materials.set mi
              { m with fields := mapSet strLt name (some top) m.fields },
            m_currentExpression := [],
            m_currentField := none } := by
  constructor
  · intro h
    unfold fieldEnd at h
    split at h
    · rename_i top hexp
      simp only [Option.bind_eq_bind, Option.bind_eq_some, pure, Option.some.injEq] at h
      obtain ⟨cm, hcm, ⟨mi, name⟩, hfield, m, hm, old, hold, hs'⟩ := h
      exact ⟨top, mi, name, m, old, hexp, by simp [hcm], hfield, hm, hold, hs'.symm⟩
    · simp at h
  · rintro ⟨top, mi, name, m, old, hexp, hcm, hfield, hm, hold, rfl⟩
    obtain ⟨cm, hcm'⟩ := Option.isSome_iff_exists.mp hcm
    unfold fieldEnd
    simp [hexp, hcm', hfield, hm, hold]

theorem temporaryEnd_eq_some_iff (s s' : MDLBuilder) :
    temporaryEnd s = some s' ↔
      ∃ top mi m,
        s.m_currentExpression = [top]
        ∧ s.m_currentMaterial = some mi
        ∧ s.m_materials[mi]? = some m
        ∧ s' = { s with
            m_materials := s.m_materials.set mi
              { m with temporaries := m.temporaries ++ [top] },
            m_currentExpression := [] } := by
  constructor
  · intro h
    unfold temporaryEnd at h
    split at h
    · rename_i top hexp
      simp only [Option.bind_eq_bind, Option.bind_eq_some, pure, Option.some.injEq] at h
      obtain ⟨m, hm, hs'⟩ := h
      obtain ⟨mi, hmi, hmm⟩ := (currentMaterial_eq_some_iff s m).mp hm
      refine ⟨top, mi, m, hexp, hmi, hmm, ?_⟩
      rw [← hs']
      simp [MDLBuilder.setCurrentMaterial, hmi]
    · simp at h
  · rintro ⟨top, mi, m, hexp, hmi, hmm, rfl⟩
    have hm : s.currentMaterial = some m := (currentMaterial_eq_some_iff s m).mpr ⟨mi, hmi, hmm⟩
    unfold temporaryEnd
    simp [hexp, hm, MDLBuilder.setCurrentMaterial, hmi]

theorem mapFind_mapSet_self {κ β : Type} [DecidableEq κ] (lt : κ → κ → Bool) (k : κ) (v : β)
    (m : List (κ × β)) : mapFind (mapSet lt k v m) k = some v := by
  induction m with
  | nil => simp [mapSet, mapFind]
  | cons e rest ih =>
    obtain ⟨k', v'⟩ := e
    by_cases hk : k = k'
    · simp [mapSet, hk, mapFind]
    · by_cases hlt : lt k k' = true
      · simp [mapSet, hk, hlt, mapFind]
      · simp [mapSet, hk, hlt, mapFind, ih]

theorem mapFind_mapSet_other {κ β : Type} [DecidableEq κ] (lt : κ → κ → Bool) (k k0 : κ)
    (v : β) (m : List (κ × β)) (h : k0 ≠ k) :
    mapFind (mapSet lt k v m) k0 = mapFind m k0 := by
  induction m with
  | nil => simp [mapSet, mapFind, h]
  | cons e rest ih =>
    obtain ⟨k', v'⟩ := e
    by_cases hk : k = k'
    · subst hk; simp [mapSet, mapFind, h]
    · by_cases hlt : lt k k' = true
      · simp [mapSet, hk, hlt, mapFind, h]
      · by_cases h0 : k0 = k'
        · simp [mapSet, hk, hlt, mapFind, h0]
        · simp [mapSet, hk, hlt, mapFind, h0, ih]

/-! ## C5: what the attaching end events do -/

/-- C7: whenever `argumentEnd`, `structureMemberEnd`, `arrayElementEnd` or `parameterEnd` is
accepted, `isCompatibleType` holds of the declared type of the slot (the type of the call
slot given by the top of the slot-index stack, the element type of the array, the type of the
current parameter) and the expression that is stored there; when the check does not return
true the event fails and stores nothing. -/
theorem end_events_store_compatible (s s' : MDLBuilder) :
    (∀ end_, (end_ = argumentEnd ∨ end_ = structureMemberEnd) → end_ s = some s' →
      ∃ argument ts t cs c argumentData arguments rest idx indices slot,
        s.m_currentExpression
          = argument :: ExpressionDataCall ts t cs c argumentData arguments :: rest
        ∧ s.m_currentIndex = idx :: indices
        ∧ argumentData[idx]? = some slot
        ∧ isCompatibleType s slot.type argument = some true
        ∧ s'.m_currentExpression
          = ExpressionDataCall ts t cs c argumentData (mapSet (· < ·) idx argument arguments)
              :: rest)
    ∧ (arrayElementEnd s = some s' →
      ∃ argument ts t values rest,
        s.m_currentExpression = argument :: ExpressionDataArray ts t values :: rest
        ∧ isCompatibleType s t argument = some true
        ∧ s'.m_currentExpression = ExpressionDataArray ts t (values ++ [argument]) :: rest)
    ∧ (parameterEnd s = some s' →
      ∃ top mi i m p,
        s.m_currentExpression = [top] ∧ s.m_currentParameter = some (mi, i)
        ∧ s.m_materials[mi]? = some m ∧ m.parameters[i]? = some p
        ∧ isCompatibleType s p.type top = some true
        ∧ s'.m_materials = s.m_materials.set mi
            { m with parameters := m.parameters.set i { p with value := some top } })
    ∧ (∀ argument ts t cs c argumentData arguments rest idx indices slot,
        s.m_currentExpression
          = argument :: ExpressionDataCall ts t cs c argumentData arguments :: rest →
        s.m_currentIndex = idx :: indices →
        argumentData[idx]? = some slot →
        isCompatibleType s slot.type argument ≠ some true →
        argumentEnd s = none ∧ structureMemberEnd s = none)
    ∧ (∀ argument ts t values rest,
        s.m_currentExpression = argument :: ExpressionDataArray ts t values :: rest →
        isCompatibleType s t argument ≠ some true →
        arrayElementEnd s = none)
    ∧ (∀ top mi i m p,
        s.m_currentExpression = [top] → s.m_currentParameter = some (mi, i) →
        s.m_materials[mi]? = some m → m.parameters[i]? = some p →
        isCompatibleType s p.type top ≠ some true →
        parameterEnd s = none) := by
  refine ⟨?_, ?_, ?_, ?_, ?_, ?_⟩
  · intro end_ hend h
    have h' : argumentEnd s = some s' := by
      rcases hend with rfl | rfl
      · exact h
      · exact h
    obtain ⟨argument, ts, t, cs, c, argumentData, arguments, rest, idx, indices, slot,
      hexp, hidx, -, hslot, hok, rfl⟩ := (argumentEnd_eq_some_iff s s').mp h'
    exact ⟨argument, ts, t, cs, c, argumentData, arguments, rest, idx, indices, slot,
      hexp, hidx, hslot, hok, rfl⟩
  · intro h
    obtain ⟨argument, ts, t, values, rest, idx, indices, hexp, -, -, hok, rfl⟩ :=
      (arrayElementEnd_eq_some_iff s s').mp h
    exact ⟨argument, ts, t, values, rest, hexp, hok, rfl⟩
  · intro h
    obtain ⟨top, mi, i, m, p, hexp, hpar, hm, hp, hok, rfl⟩ :=
      (parameterEnd_eq_some_iff s s').mp h
    exact ⟨top, mi, i, m, p, hexp, hpar, hm, hp, hok, rfl⟩
  · intro argument ts t cs c argumentData arguments rest idx indices slot hexp hidx hslot hnot
    have harg : argumentEnd s = none := by
      cases ha : argumentEnd s with
      | none => rfl
      | some u =>
        obtain ⟨_, _, _, _, _, _, _, _, _, _, slot', hexp', hidx', -, hslot', hok', -⟩ :=
          (argumentEnd_eq_some_iff s u).mp ha
        rw [hexp] at hexp'
        rw [hidx] at hidx'
        simp only [List.cons.injEq, ExpressionDataCall.injEq] at hexp' hidx'
        obtain ⟨rfl, ⟨-, -, -, -, rfl, -⟩, -⟩ := hexp'
        obtain ⟨rfl, -⟩ := hidx'
        rw [hslot] at hslot'
        cases hslot'
        exact absurd hok' hnot
    exact ⟨harg, harg⟩
  · intro argument ts t values rest hexp hnot
    cases ha : arrayElementEnd s with
    | none => rfl
    | some u =>
      obtain ⟨_, _, _, _, _, _, _, hexp', -, -, hok', -⟩ :=
        (arrayElementEnd_eq_some_iff s u).mp ha
      rw [hexp] at hexp'
      simp only [List.cons.injEq, ExpressionDataArray.injEq] at hexp'
      obtain ⟨rfl, ⟨-, rfl, -⟩, -⟩ := hexp'
      exact absurd hok' hnot
  · intro top mi i m p hexp hpar hm hp hnot
    cases ha : parameterEnd s with
    | none => rfl
    | some u =>
      obtain ⟨_, _, _, _, _, hexp', hpar', hm', hp', hok', -⟩ :=
        (parameterEnd_eq_some_iff s u).mp ha
      rw [hexp] at hexp'
      rw [hpar] at hpar'
      simp only [List.cons.injEq, and_true, Option.some.injEq, Prod.mk.injEq] at hexp' hpar'
      obtain ⟨rfl, rfl⟩ := hpar'
      subst hexp'
      rw [hm] at hm'
      cases hm'
      rw [hp] at hp'
      cases hp'
      exact absurd hok' hnot

/-- Witness for C7: a float stored in a `float` call slot, structure member, array element
and parameter; an int rejected for each of them. -/
theorem end_events_store_compatible_witness :
    (∃ s' type argument, argumentEnd argumentEndState = some s'
      ∧ argumentEndState.m_currentExpression.head? = some argument
      ∧ isCompatibleType argumentEndState type argument = some true)
    ∧ (∃ s' type argument, structureMemberEnd memberEndState = some s'
      ∧ memberEndState.m_currentExpression.head? = some argument
      ∧ isCompatibleType memberEndState type argument = some true)
    ∧ (∃ s' type argument, arrayElementEnd elementEndState = some s'
      ∧ elementEndState.m_currentExpression.head? = some argument
      ∧ isCompatibleType elementEndState type argument = some true)
    ∧ (∃ s' type argument, parameterEnd parameterEndState = some s'
      ∧ parameterEndState.m_currentExpression.head? = some argument
      ∧ isCompatibleType parameterEndState type argument = some true)
    ∧ (argumentEnd mismatchedArgumentState = none
      ∧ structureMemberEnd mismatchedArgumentState = none)
    ∧ arrayElementEnd mismatchedElementState = none
    ∧ parameterEnd mismatchedParameterState = none := by
  refine ⟨?_, ?_, ?_, ?_, ?_, ?_, ?_⟩
  · obtain ⟨argument, _, _, _, _, _, _, _, _, _, slot, hexp, _, _, hok, _⟩ :=
      (end_events_store_compatible argumentEndState _).1 argumentEnd (Or.inl rfl) rfl
    exact ⟨_, slot.type, argument, rfl, by rw [hexp]; rfl, hok⟩
  · obtain ⟨argument, _, _, _, _, _, _, _, _, _, slot, hexp, _, _, hok, _⟩ :=
      (end_events_store_compatible memberEndState _).1 structureMemberEnd (Or.inr rfl) rfl
    exact ⟨_, slot.type, argument, rfl, by rw [hexp]; rfl, hok⟩
  · obtain ⟨argument, _, t, _, _, hexp, hok, _⟩ :=
      (end_events_store_compatible elementEndState _).2.1 rfl
    exact ⟨_, t, argument, rfl, by rw [hexp]; rfl, hok⟩
  · obtain ⟨top, _, _, _, p, hexp, _, _, _, hok, _⟩ :=
      (end_events_store_compatible parameterEndState _).2.2.1 rfl
    exact ⟨_, p.type, top, rfl, by rw [hexp]; rfl, hok⟩
  · exact (end_events_store_compatible mismatchedArgumentState MDLBuilder.new).2.2.2.1
      _ _ _ _ _ _ _ _ _ _ _ rfl rfl rfl (by decide)
  · exact (end_events_store_compatible mismatchedElementState MDLBuilder.new).2.2.2.2.1
      _ _ _ _ _ rfl (by decide)
  · exact (end_events_store_compatible mismatchedParameterState MDLBuilder.new).2.2.2.2.2
      _ _ _ _ _ rfl rfl rfl rfl (by decide)

/-! ## C6: filled slots stay below the declared slot count -/

theorem mem_mapSet {κ β : Type} [DecidableEq κ] (lt : κ → κ → Bool) (k : κ) (v : β)
    (m : List (κ × β)) (x : κ × β) (h : x ∈ mapSet lt k v m) : x = (k, v) ∨ x ∈ m := by
  induction m with
  | nil => simpa [mapSet] using h
  | cons e rest ih =>
    obtain ⟨k', v'⟩ := e
    unfold mapSet at h
    split at h
    · rcases List.mem_cons.mp h with h1 | h1
      · exact Or.inl h1
      · exact Or.inr (List.mem_cons_of_mem _ h1)
    · split at h
      · rcases List.mem_cons.mp h with h1 | h1
        · exact Or.inl h1
        · exact Or.inr h1
      · rcases List.mem_cons.mp h with h1 | h1
        · exact Or.inr (h1 ▸ List.mem_cons_self _ _)
        · rcases ih h1 with h2 | h2
          · exact Or.inl h2
          · exact Or.inr (List.mem_cons_of_mem _ h2)

theorem registerImport_frame (s : MDLBuilder) (nameSpace name : Str) :
    ∃ imports, registerImport s nameSpace name = { s with m_imports := imports } := by
  unfold registerImport
  split
  · exact ⟨_, rfl⟩
  · exact ⟨s.m_imports, rfl⟩

theorem registerArguments_frame (arguments : List (Str × Str)) (s s1 : MDLBuilder)
    (callArguments : List ArgumentData)
    (h : registerArguments s arguments = some (callArguments, s1)) :
    ∃ imports, s1 = { s with m_imports := imports } := by
  induction arguments generalizing s callArguments with
  | nil =>
    simp only [registerArguments, Option.some.injEq, Prod.mk.injEq] at h
    exact ⟨s.m_imports, h.2 ▸ rfl⟩
  | cons arg rest ih =>
    simp only [registerArguments, Option.bind_eq_bind, Option.bind_eq_some, pure,
      Option.some.injEq, Prod.mk.injEq, Prod.exists] at h
    obtain ⟨argSpace, -, ca, s2, hrest, -, rfl⟩ := h
    obtain ⟨imports, rfl⟩ := ih _ _ hrest
    obtain ⟨imports', h'⟩ := registerImport_frame s argSpace (extractTypeName arg.1)
    rw [h']
    exact ⟨imports, rfl⟩

theorem mem_setInsert (x y : Str) (l : List Str) : y ∈ setInsert x l ↔ y = x ∨ y ∈ l := by
  induction l with
  | nil => simp [setInsert]
  | cons a rest ih =>
    unfold setInsert
    split
    · rename_i h
      subst h
      simp
    · split
      · simp
      · simp only [List.mem_cons, ih]
        constructor
        · rintro (h | h | h)
          · exact Or.inr (Or.inl h)
          · exact Or.inl h
          · exact Or.inr (Or.inr h)
        · rintro (h | h | h)
          · exact Or.inr (Or.inl h)
          · exact Or.inl h
          · exact Or.inr (Or.inr h)

theorem setInsert_idem (x : Str) (l : List Str) : setInsert x (setInsert x l) = setInsert x l := by
  induction l with
  | nil => simp [setInsert]
  | cons a rest ih =>
    by_cases h1 : x = a
    · subst h1; simp [setInsert]
    · by_cases h2 : strLt x a = true
      · simp [setInsert, h1, h2]
      · simp [setInsert, h1, h2, ih]

theorem mapSet_idem {κ β : Type} [DecidableEq κ] (lt : κ → κ → Bool) (k : κ) (v w : β)
    (m : List (κ × β)) : mapSet lt k w (mapSet lt k v m) = mapSet lt k w m := by
  induction m with
  | nil => simp [mapSet]
  | cons e rest ih =>
    obtain ⟨k', v'⟩ := e
    by_cases h1 : k = k'
    · subst h1; simp [mapSet]
    · by_cases h2 : lt k k' = true
      · simp [mapSet, h1, h2]
      · simp [mapSet, h1, h2, ih]

theorem substr_zero_eq_iff_starts (name p : Str) :
    substr name 0 p.length = p ↔ p <+: name := by
  simp only [substr, List.drop_zero]
  rw [List.prefix_iff_eq_take]
  exact eq_comm

/-- The set recorded for the name space `ns` in an import table (empty when there is no
entry). -/
theorem importsInsert_lookup (imports : List (Str × List Str)) (ns n : Str) :
    mapFind (importsInsert imports ns n) ns = some (setInsert n ((mapFind imports ns).getD []))
    ∧ ∀ k, k ≠ ns → mapFind (importsInsert imports ns n) k = mapFind imports k :=
  ⟨mapFind_mapSet_self _ _ _ _, fun _ hk => mapFind_mapSet_other _ _ _ _ _ hk⟩

theorem importsInsert_idem (imports : List (Str × List Str)) (ns n : Str) :
    importsInsert (importsInsert imports ns n) ns n = importsInsert imports ns n := by
  unfold importsInsert
  rw [mapFind_mapSet_self, mapSet_idem]
  simp [setInsert_idem]

/-- C18: for every name space `ns` and name `n`, `registerImport(ns, n)` changes nothing but
the import table. When `ns` is not empty and `n` does not begin with `operator`, the set
recorded for `ns` afterwards holds `n` and exactly the names it held before, and the entry of
every other name space is unchanged; otherwise the builder is unchanged. Registering the same
pair a second time changes nothing. -/
theorem registerImport_spec (s : MDLBuilder) (ns n : Str) :
    (∃ imports, registerImport s ns n = { s with m_imports := imports })
    ∧ (ns ≠ [] → ¬ "operator".toList <+: n →
        (∃ set, mapFind (registerImport s ns n).m_imports ns = some set
          ∧ ∀ x, x ∈ set ↔ x = n ∨ x ∈ (mapFind s.m_imports ns).getD [])
        ∧ ∀ k, k ≠ ns → mapFind (registerImport s ns n).m_imports k = mapFind s.m_imports k)
    ∧ ((ns = [] ∨ "operator".toList <+: n) → registerImport s ns n = s)
    ∧ registerImport (registerImport s ns n) ns n = registerImport s ns n := by
  have hop : substr n 0 8 = "operator".toList ↔ "operator".toList <+: n :=
    substr_zero_eq_iff_starts n "operator".toList
  refine ⟨registerImport_frame s ns n, ?_, ?_, ?_⟩
  · intro hns hn
    have hn' : substr n 0 8 ≠ "operator".toList := fun h => hn (hop.mp h)
    have heq : registerImport s ns n = { s with m_imports := importsInsert s.m_imports ns n } := by
      unfold registerImport; rw [if_pos ⟨hns, hn'⟩]
    rw [heq]
    exact ⟨⟨_, (importsInsert_lookup s.m_imports ns n).1, fun x => mem_setInsert n x _⟩,
      (importsInsert_lookup s.m_imports ns n).2⟩
  · intro h
    unfold registerImport
    rcases h with h | h
    · simp [h]
    · simp [hop.mpr h]
  · by_cases h : ns ≠ [] ∧ substr n 0 8 ≠ "operator".toList
    · have heq : ∀ t : MDLBuilder,
          registerImport t ns n = { t with m_imports := importsInsert t.m_imports ns n } := by
        intro t; unfold registerImport; rw [if_pos h]
      rw [heq s, heq]
      simp [importsInsert_idem]
    · have heq : ∀ t : MDLBuilder, registerImport t ns n = t := by
        intro t; unfold registerImport; rw [if_neg h]
      rw [heq s, heq s]

/-- Witness for C18: `tex::gamma_mode` is recorded, `operator+` and a name without name
space are not. -/
theorem registerImport_spec_witness :
    ((∃ set, mapFind (registerImport MDLBuilder.new "tex".toList "gamma_mode".toList).m_imports
          "tex".toList = some set
        ∧ ∀ x, x ∈ set ↔ x = "gamma_mode".toList
            ∨ x ∈ (mapFind MDLBuilder.new.m_imports "tex".toList).getD [])
      ∧ ∀ k, k ≠ "tex".toList →
          mapFind (registerImport MDLBuilder.new "tex".toList "gamma_mode".toList).m_imports k
            = mapFind MDLBuilder.new.m_imports k)
    ∧ registerImport MDLBuilder.new "df".toList "operator+".toList = MDLBuilder.new
    ∧ registerImport MDLBuilder.new [] "float".toList = MDLBuilder.new :=
  ⟨(registerImport_spec MDLBuilder.new "tex".toList "gamma_mode".toList).2.1
      (by decide) (by decide),
   (registerImport_spec MDLBuilder.new "df".toList "operator+".toList).2.2.1
      (Or.inr (by decide)),
   (registerImport_spec MDLBuilder.new [] "float".toList).2.2.1 (Or.inl rfl)⟩

/-! ## C15: file boundaries -/

theorem structureTypeBegin_unknown (t : MDLBuilder) (q ns : Str)
    (hq : extractNameSpace q = some ns) (h : mapFind t.m_structures q = none) :
    ∃ t1, structureTypeBegin t q = some (true, t1) := by
  simp only [structureTypeBegin, tokenizeType, hq, registerImport_structures, h]
  exact ⟨_, rfl⟩

theorem enumTypeBegin_unknown (t t1 : MDLBuilder) (q n : Str) (size : Nat)
    (hopen : t.m_currentEnum = none) (hreg : registerType t q = some (n, t1))
    (h : mapFind t.m_enums n = none) :
    ∃ t2, enumTypeBegin t q size = some (true, t2) := by
  obtain ⟨imports, rfl⟩ := registerType_frame t t1 q n hreg
  simp [enumTypeBegin, hopen, DP_ASSERT, hreg, h]

theorem fileBegin_eq_some (s s1 : MDLBuilder) (name : Str) (b : Bool)
    (h : fileBegin s name = some (b, s1)) :
    ∃ fileName, s1 = { s.clearTables with m_fileName := fileName } := by
  simp only [fileBegin, Option.bind_eq_bind, Option.bind_eq_some, DP_ASSERT_eq_some, pure,
    Option.some.injEq, Prod.mk.injEq] at h
  obtain ⟨_, -, _, -, _, -, -, rfl⟩ := h
  exact ⟨_, rfl⟩

theorem clear_eq_some (s s1 : MDLBuilder) (h : clear s = some s1) :
    s1 = s.clearTables ∧ s.m_currentEnum = none ∧ s.m_currentExpression = []
      ∧ s.m_currentMaterial = none ∧ s.m_currentParameter = none
      ∧ s.m_currentStructure = [] := by
  simp only [clear, Option.bind_eq_bind, Option.bind_eq_some, DP_ASSERT_eq_some, pure,
    Option.some.injEq, Bool.and_eq_true, Option.isNone_iff_eq_none, List.isEmpty_iff] at h
  obtain ⟨_, ⟨⟨⟨⟨h1, h2⟩, h3⟩, h4⟩, h5⟩, rfl⟩ := h
  exact ⟨rfl, h1, h2, h3, h4, h5⟩

/-- C15: after an accepted `fileBegin`, and after an accepted `clear()`, the material list,
the import table, the enum registry and the structure registry are empty whatever they held
before. So the import block written from the new table has no line, the begin event of any
structure name (whose name space can be extracted) returns true again, and so does the begin
event of any enum name (that `registerType` accepts) when no enum definition is open. -/
theorem file_boundary_clears_tables (s s1 : MDLBuilder)
    (h : (∃ name b, fileBegin s name = some (b, s1)) ∨ clear s = some s1) :
    s1.m_materials = [] ∧ s1.m_imports = [] ∧ s1.m_enums = [] ∧ s1.m_structures = []
    ∧ importBlock s1.m_imports = some []
    ∧ (∀ q ns, extractNameSpace q = some ns →
        ∃ s2, structureTypeBegin s1 q = some (true, s2))
    ∧ (s1.m_currentEnum = none → ∀ q size, (registerType s1 q).isSome = true →
        ∃ s2, enumTypeBegin s1 q size = some (true, s2)) := by
  have htab : s1.m_materials = [] ∧ s1.m_imports = [] ∧ s1.m_enums = []
      ∧ s1.m_structures = [] := by
    rcases h with ⟨name, b, h⟩ | h
    · obtain ⟨fileName, rfl⟩ := fileBegin_eq_some s s1 name b h
      exact ⟨rfl, rfl, rfl, rfl⟩
    · obtain ⟨rfl, -⟩ := clear_eq_some s s1 h
      exact ⟨rfl, rfl, rfl, rfl⟩
  obtain ⟨hm, hi, he, hs⟩ := htab
  refine ⟨hm, hi, he, hs, by rw [hi]; rfl, ?_, ?_⟩
  · intro q ns hq
    exact structureTypeBegin_unknown s1 q ns hq (by rw [hs]; rfl)
  · intro hopen q size hreg
    obtain ⟨⟨n, t1⟩, hreg'⟩ := Option.isSome_iff_exists.mp hreg
    exact enumTypeBegin_unknown s1 t1 q n size hopen hreg' (by rw [he]; rfl)

/-- Witness for C15: a builder holding one material, one structure, one enum and two import
entries; after `fileBegin` of the next file and after `clear()` all four tables are empty and
the same structure and enum names are registered anew. -/
theorem file_boundary_clears_tables_witness :
    (usedBuilderState.m_materials.length = 1 ∧ usedBuilderState.m_imports.length = 2
      ∧ usedBuilderState.m_enums.length = 1 ∧ usedBuilderState.m_structures.length = 1)
    ∧ (∃ s1, fileBegin usedBuilderState "C:\\mdl\\next.mdl".toList = some (true, s1)
      ∧ s1.m_materials = [] ∧ s1.m_imports = [] ∧ s1.m_enums = [] ∧ s1.m_structures = []
      ∧ importBlock s1.m_imports = some []
      ∧ (∃ s2, structureTypeBegin s1 "::pkg::S".toList = some (true, s2))
      ∧ ∃ s2, enumTypeBegin s1 "::a::E".toList 2 = some (true, s2))
    ∧ (∃ s1, clear usedBuilderState = some s1
      ∧ s1.m_materials = [] ∧ s1.m_imports = [] ∧ s1.m_enums = [] ∧ s1.m_structures = []
      ∧ importBlock s1.m_imports = some []
      ∧ (∃ s2, structureTypeBegin s1 "::pkg::S".toList = some (true, s2))
      ∧ ∃ s2, enumTypeBegin s1 "::a::E".toList 2 = some (true, s2)) := by
  refine ⟨⟨rfl, rfl, rfl, rfl⟩, ?_, ?_⟩
  · obtain ⟨h1, h2, h3, h4, h5, h6, h7⟩ := file_boundary_clears_tables usedBuilderState _
      (Or.inl ⟨"C:\\mdl\\next.mdl".toList, true, rfl⟩)
    exact ⟨_, rfl, h1, h2, h3, h4, h5, h6 "::pkg::S".toList "pkg".toList (by decide),
      h7 rfl "::a::E".toList 2 rfl⟩
  · obtain ⟨h1, h2, h3, h4, h5, h6, h7⟩ := file_boundary_clears_tables usedBuilderState _
      (Or.inr rfl)
    exact ⟨_, rfl, h1, h2, h3, h4, h5, h6 "::pkg::S".toList "pkg".toList (by decide),
      h7 rfl "::a::E".toList 2 rfl⟩

/-! ## C14: `materialEnd` and the construction stacks -/

/-- C14 (as amended): `materialEnd` is accepted exactly when a material is open; it resets
`m_currentMaterial` and changes nothing else, so the expression stack and the slot-index
stack are what they were before, empty or not. The expression stack is known to be empty
after an accepted `clear()`. -/
theorem materialEnd_keeps_stacks (s s' : MDLBuilder) :
    (materialEnd s = some s' ↔
      s.m_currentMaterial ≠ none ∧ s' = { s with m_currentMaterial := none })
    ∧ (materialEnd s = some s' →
      s'.m_currentExpression = s.m_currentExpression ∧ s'.m_currentIndex = s.m_currentIndex)
    ∧ (clear s = some s' → s'.m_currentExpression = []) := by
  have hiff : materialEnd s = some s' ↔
      s.m_currentMaterial ≠ none ∧ s' = { s with m_currentMaterial := none } := by
    simp only [materialEnd, Option.bind_eq_bind, Option.bind_eq_some, DP_ASSERT_eq_some, pure,
      Option.some.injEq, Option.isSome_iff_ne_none]
    constructor
    · rintro ⟨_, h, rfl⟩; exact ⟨h, rfl⟩
    · rintro ⟨h, rfl⟩; exact ⟨(), h, rfl⟩
  refine ⟨hiff, ?_, ?_⟩
  · intro h
    obtain ⟨-, rfl⟩ := hiff.mp h
    exact ⟨rfl, rfl⟩
  · intro h
    obtain ⟨rfl, -, hexp, -⟩ := clear_eq_some s s' h
    exact hexp

/-- Witness for C14: `materialEnd` in a builder whose stacks are not empty, and `clear()` in
a builder with nothing left open. -/
theorem materialEnd_keeps_stacks_witness :
    (∃ s', materialEnd danglingArgumentState = some s'
      ∧ s' = { danglingArgumentState with m_currentMaterial := none }
      ∧ s'.m_currentExpression = danglingArgumentState.m_currentExpression
      ∧ s'.m_currentIndex = danglingArgumentState.m_currentIndex)
    ∧ ∃ s', clear usedBuilderState = some s' ∧ s'.m_currentExpression = [] := by
  constructor
  · have h := (materialEnd_keeps_stacks danglingArgumentState
      { danglingArgumentState with m_currentMaterial := none }).1.mpr ⟨by decide, rfl⟩
    exact ⟨_, h, rfl, (materialEnd_keeps_stacks danglingArgumentState _).2.1 h⟩
  · exact ⟨_, rfl, (materialEnd_keeps_stacks usedBuilderState _).2.2 rfl⟩

/-- Counterexample to C14 as stated: the builder accepts `materialEnd` while the expression
stack holds two nodes and the slot-index stack one index, and it accepts the `materialBegin`
of the next material in that state. -/
theorem materialEnd_with_unwound_stacks :
    ∃ s s2, run MDLBuilder.new (danglingArgumentEvents ++ [Event.materialEnd]) = some s
      ∧ s.m_currentExpression.length = 2
      ∧ s.m_currentIndex = [0]
      ∧ step s (Event.materialBegin "mdl::pkg::mat2".toList (0, 0, 0, 0)) = some s2
      ∧ s2.m_currentExpression.length = 2 ∧ s2.m_currentIndex = [0] :=
  ⟨_, _, rfl, rfl, rfl, rfl, rfl, rfl⟩

/-! ## C11: references to parameters and temporaries -/

theorem isCompatibleTypeFuel_temporary (cm : Option MaterialData) (T : Str) (f j : Nat) :
    isCompatibleTypeFuel cm T (f + 1) (ExpressionDataTemporary j)
      = (cm.bind fun m => (m.temporaries[j]?).bind fun t => isCompatibleTypeFuel cm T f t) := by
  simp [isCompatibleTypeFuel]

theorem isCompatibleTypeFuel_not_temporary (cm : Option MaterialData) (T : Str) (f g : Nat)
    (d : ExpressionData) (hd : ∀ j, d ≠ ExpressionDataTemporary j) :
    isCompatibleTypeFuel cm T f d = isCompatibleTypeFuel cm T g d := by
  cases d with
  | ExpressionDataTemporary j => exact absurd rfl (hd j)
  | ExpressionDataArray ts t values => simp [isCompatibleTypeFuel]
  | ExpressionDataCall ts t cs c ad args => simp [isCompatibleTypeFuel]
  | ExpressionDataConstant v => simp [isCompatibleTypeFuel]
  | ExpressionDataParameter i => simp [isCompatibleTypeFuel]

/-- More fuel does not change a result. -/
theorem isCompatibleTypeFuel_succ (cm : Option MaterialData) (T : Str) (f : Nat)
    (d : ExpressionData) (h : isCompatibleTypeFuel cm T f d ≠ none) :
    isCompatibleTypeFuel cm T (f + 1) d = isCompatibleTypeFuel cm T f d := by
  induction f generalizing d with
  | zero =>
    by_cases hd : ∀ j, d ≠ ExpressionDataTemporary j
    · exact isCompatibleTypeFuel_not_temporary cm T _ _ d hd
    · push_neg at hd
      obtain ⟨j, rfl⟩ := hd
      simp [isCompatibleTypeFuel] at h
  | succ f ih =>
    by_cases hd : ∀ j, d ≠ ExpressionDataTemporary j
    · exact isCompatibleTypeFuel_not_temporary cm T _ _ d hd
    · push_neg at hd
      obtain ⟨j, rfl⟩ := hd
      rw [isCompatibleTypeFuel_temporary] at h ⊢
      rw [isCompatibleTypeFuel_temporary cm T f]
      cases cm with
      | none => rfl
      | some m =>
        cases ht : m.temporaries[j]? with
        | none => simp [ht]
        | some t =>
          simp only [Option.some_bind, ht] at h ⊢
          exact ih t h

theorem isCompatibleTypeFuel_mono (cm : Option MaterialData) (T : Str) (f g : Nat)
    (d : ExpressionData) (hfg : f ≤ g) (h : isCompatibleTypeFuel cm T f d ≠ none) :
    isCompatibleTypeFuel cm T g d = isCompatibleTypeFuel cm T f d := by
  induction g with
  | zero =>
    have : f = 0 := by omega
    rw [this]
  | succ g ih =>
    rcases Nat.eq_or_lt_of_le hfg with h1 | h1
    · rw [h1]
    · have h2 := ih (by omega)
      rw [isCompatibleTypeFuel_succ cm T g d (by rw [h2]; exact h), h2]

theorem exactFuel_exists (cm : Option MaterialData) (T : Str) (f : Nat) (d : ExpressionData)
    (h : isCompatibleTypeFuel cm T f d ≠ none) : ∃ k, k ≤ f ∧ ExactFuel cm T d k := by
  induction f with
  | zero => exact ⟨0, Nat.le_refl _, h, fun k' hk' => absurd hk' (Nat.not_lt_zero _)⟩
  | succ f ih =>
    by_cases hf : isCompatibleTypeFuel cm T f d = none
    · refine ⟨f + 1, Nat.le_refl _, h, ?_⟩
      intro k' hk'
      by_contra hne
      have := isCompatibleTypeFuel_mono cm T k' f d (by omega) hne
      rw [hf] at this
      exact hne this.symm
    · obtain ⟨k, hk, he⟩ := ih hf
      exact ⟨k, by omega, he⟩

theorem exactFuel_unique (cm : Option MaterialData) (T : Str) (d : ExpressionData) (k k' : Nat)
    (h : ExactFuel cm T d k) (h' : ExactFuel cm T d k') : k = k' := by
  rcases Nat.lt_trichotomy k k' with h1 | h1 | h1
  · exact absurd (h'.2 k h1) h.1
  · exact h1
  · exact absurd (h.2 k' h1) h'.1

theorem exactFuel_succ (cm : Option MaterialData) (T : Str) (d : ExpressionData) (k : Nat)
    (h : ExactFuel cm T d (k + 1)) :
    ∃ j m t, d = ExpressionDataTemporary j ∧ cm = some m ∧ m.temporaries[j]? = some t
      ∧ ExactFuel cm T t k := by
  obtain ⟨h1, h2⟩ := h
  by_cases hd : ∀ j, d ≠ ExpressionDataTemporary j
  · have := isCompatibleTypeFuel_not_temporary cm T (k + 1) 0 d hd
    rw [h2 0 (by omega)] at this
    exact absurd this h1
  · push_neg at hd
    obtain ⟨j, rfl⟩ := hd
    rw [isCompatibleTypeFuel_temporary] at h1
    cases cm with
    | none => simp at h1
    | some m =>
      cases ht : m.temporaries[j]? with
      | none => simp [ht] at h1
      | some t =>
        simp only [Option.some_bind, ht] at h1
        refine ⟨j, m, t, rfl, rfl, ht, h1, ?_⟩
        intro k' hk'
        have := h2 (k' + 1) (by omega)
        rw [isCompatibleTypeFuel_temporary] at this
        simpa [ht] using this

/-- A check that needs exactly `k` units of fuel follows `k` different temporaries. -/
theorem exactFuel_indices (m : MaterialData) (T : Str) (k : Nat) :
    ∀ d, ExactFuel (some m) T d k →
      ∃ js : List Nat, js.length = k ∧ js.Nodup
        ∧ ∀ i ∈ js, ∃ t, m.temporaries[i]? = some t ∧ ∃ k', k' < k ∧ ExactFuel (some m) T t k' := by
  induction k with
  | zero => intro d _; exact ⟨[], rfl, List.nodup_nil, by simp⟩
  | succ k ih =>
    intro d hd
    obtain ⟨j, m', t, rfl, hm', ht, het⟩ := exactFuel_succ (some m) T d k hd
    cases hm'
    obtain ⟨js, hlen, hnodup, hjs⟩ := ih t het
    refine ⟨j :: js, by simp [hlen], ?_, ?_⟩
    · rw [List.nodup_cons]
      refine ⟨?_, hnodup⟩
      intro hj
      obtain ⟨t', ht', k', hk', he'⟩ := hjs j hj
      rw [ht] at ht'
      cases ht'
      have := exactFuel_unique (some m) T t k k' het he'
      omega
    · intro i hi
      rcases List.mem_cons.mp hi with h1 | h1
      · subst h1
        exact ⟨t, ht, k, by omega, het⟩
      · obtain ⟨t', ht', k', hk', he'⟩ := hjs i h1
        exact ⟨t', ht', k', by omega, he'⟩

theorem exactFuel_le (m : MaterialData) (T : Str) (k : Nat) (d : ExpressionData)
    (h : ExactFuel (some m) T d k) : k ≤ m.temporaries.length := by
  obtain ⟨js, hlen, hnodup, hjs⟩ := exactFuel_indices m T k d h
  have hsub : js.toFinset ⊆ Finset.range m.temporaries.length := by
    intro i hi
    rw [List.mem_toFinset] at hi
    obtain ⟨t, ht, -⟩ := hjs i hi
    rw [Finset.mem_range]
    rcases Nat.lt_or_ge i m.temporaries.length with h1 | h1
    · exact h1
    · rw [List.getElem?_eq_none h1] at ht; cases ht
  have hcard := Finset.card_le_card hsub
  rw [List.toFinset_card_of_nodup hnodup, Finset.card_range, hlen] at hcard
  exact hcard

/-- The fuel `isCompatibleType` starts with is enough: no larger amount changes a result. -/
theorem isCompatibleTypeFuel_saturated (m : MaterialData) (T : Str) (f : Nat)
    (d : ExpressionData) (hf : m.temporaries.length ≤ f) :
    isCompatibleTypeFuel (some m) T f d
      = isCompatibleTypeFuel (some m) T m.temporaries.length d := by
  by_cases h : isCompatibleTypeFuel (some m) T f d = none
  · rw [h]
    by_contra hne
    have := isCompatibleTypeFuel_mono (some m) T _ f d hf (fun e => hne e.symm)
    rw [h] at this
    exact hne this
  · obtain ⟨k, hk, he⟩ := exactFuel_exists (some m) T f d h
    have hkn := exactFuel_le m T k d he
    rw [isCompatibleTypeFuel_mono (some m) T k f d hk he.1,
      isCompatibleTypeFuel_mono (some m) T k _ d hkn he.1]

/-- C11: for every declared type `T` and current material, a reference to parameter `i` in
range is compatible with `T` exactly when `T` is the declared type of parameter `i`, and the
check of a reference to temporary `j` in range gives what the same check gives on the
expression stored as temporary `j`. -/
theorem isCompatibleType_references (s : MDLBuilder) (T : Str) (m : MaterialData)
    (hm : s.currentMaterial = some m) :
    (∀ i p, m.parameters[i]? = some p →
      isCompatibleType s T (ExpressionDataParameter i) = some (decide (T = p.type)))
    ∧ (∀ j t, m.temporaries[j]? = some t →
      isCompatibleType s T (ExpressionDataTemporary j) = isCompatibleType s T t) := by
  constructor
  · intro i p hp
    simp [isCompatibleType, isCompatibleTypeFuel, hm, hp, str_beq_eq_decide]
  · intro j t ht
    simp only [isCompatibleType, hm, Option.map_some', Option.getD_some]
    rw [isCompatibleTypeFuel_temporary]
    simp only [Option.some_bind, ht]
    exact (isCompatibleTypeFuel_saturated m T _ t (Nat.le_succ _)).symm

/-- Witness for C11: parameter 0 of type `float`, and temporary 0 that refers to it. -/
theorem isCompatibleType_references_witness :
    isCompatibleType referenceState "float".toList (ExpressionDataParameter 0) = some true
    ∧ isCompatibleType referenceState "int".toList (ExpressionDataParameter 0) = some false
    ∧ isCompatibleType referenceState "float".toList (ExpressionDataTemporary 0)
        = isCompatibleType referenceState "float".toList (ExpressionDataParameter 0) := by
  have h := isCompatibleType_references referenceState
  refine ⟨?_, ?_, ?_⟩
  · exact ((h "float".toList _ rfl).1 0 _ rfl).trans (by decide)
  · exact ((h "int".toList _ rfl).1 0 _ rfl).trans (by decide)
  · exact (h "float".toList _ rfl).2 0 _ rfl

/-! ## Searching a string: first and last occurrence -/

theorem sizeT_of_nat (n : Nat) (h : n < 2 ^ 64) : sizeT (n : Int) = n := by
  unfold sizeT
  have h2 : ((n : Int)) % 2 ^ 64 = (n : Int) := Int.emod_eq_of_lt (by omega) (by omega)
  rw [h2]
  simp

theorem indexOf_append_cons (c : Char) (a b : Str) (h : c ∉ a) :
    (a ++ c :: b).indexOf c = a.length := by
  induction a with
  | nil => simp [List.indexOf_cons]
  | cons x rest ih =>
    have hx : x ≠ c := fun e => h (by simp [e])
    have hrest : c ∉ rest := fun e => h (List.mem_cons_of_mem _ e)
    have hb : (x == c) = false := by simpa using hx
    simp [List.indexOf_cons, hb, ih hrest]

theorem find_first (s pre post : Str) (c : Char) (hs : s = pre ++ c :: post) (h : c ∉ pre) :
    find s c 0 = pre.length := by
  subst hs
  simp [find, indexOf_append_cons c pre post h]

/-- The value the body of `find_last_of` computes on the searched part `t` of the string. -/
theorem lastIndex_eq (t pre post : Str) (c : Char) (ht : t = pre ++ c :: post) (h : c ∉ post) :
    (if c ∈ t then t.length - 1 - t.reverse.indexOf c else npos) = pre.length := by
  subst ht
  have hrev : (pre ++ c :: post).reverse = post.reverse ++ c :: pre.reverse := by simp
  rw [if_pos (by simp), hrev, indexOf_append_cons c _ _ (by simpa using h)]
  simp only [List.length_append, List.length_cons, List.length_reverse]
  omega

theorem find_last_of_whole (s pre post : Str) (c : Char) (pos : Nat)
    (hs : s = pre ++ c :: post) (h : c ∉ post) (hpos : s.length ≤ pos + 1) :
    find_last_of s c pos = pre.length := by
  unfold find_last_of
  simp only
  rw [List.take_of_length_le hpos]
  exact lastIndex_eq s pre post c hs h

theorem find_last_of_part (s pre post rest : Str) (c : Char) (pos : Nat)
    (hs : s = pre ++ c :: post ++ rest) (h : c ∉ post)
    (hpos : pos + 1 = pre.length + 1 + post.length) :
    find_last_of s c pos = pre.length := by
  unfold find_last_of
  simp only
  have htake : s.take (pos + 1) = pre ++ c :: post := by
    rw [hs, hpos]
    have : pre.length + 1 + post.length = (pre ++ c :: post).length := by simp; omega
    rw [this, List.take_left']
    rfl
  rw [htake]
  exact lastIndex_eq _ pre post c rfl h

theorem find_last_of_not_mem (s : Str) (c : Char) (pos : Nat) (h : c ∉ s) :
    find_last_of s c pos = npos := by
  unfold find_last_of
  simp only
  rw [if_neg]
  intro hm
  exact h (List.mem_of_mem_take hm)

/-- A string that holds `c` splits at the last occurrence of `c`. -/
theorem exists_last_split (c : Char) (s : Str) (h : c ∈ s) :
    ∃ pre post, s = pre ++ c :: post ∧ c ∉ post := by
  induction s with
  | nil => simp at h
  | cons x rest ih =>
    by_cases hr : c ∈ rest
    · obtain ⟨pre, post, hs, hp⟩ := ih hr
      exact ⟨x :: pre, post, by rw [hs]; rfl, hp⟩
    · rcases List.mem_cons.mp h with h1 | h1
      · exact ⟨[], rest, by rw [h1]; rfl, hr⟩
      · exact absurd h1 hr

theorem not_mem_substr (c : Char) (s : Str) (a b : Nat) (h : c ∉ s) : c ∉ substr s a b := by
  intro hm
  exact h (List.mem_of_mem_drop (List.mem_of_mem_take hm))

/-! ## C16: `extractNameSpace` -/

theorem sizeT_sub_three (e s n : Nat) (h : e = s + 3 + n) (hn : n < 2 ^ 64) :
    sizeT ((e : Int) - s - 3) = n := by
  have : (e : Int) - s - 3 = (n : Int) := by omega
  rw [this, sizeT_of_nat n hn]

theorem sizeT_minus_two (e s : Nat) (h : e = s + 1) :
    sizeT ((e : Int) - s - 3) = 2 ^ 64 - 2 := by
  have : (e : Int) - s - 3 = -2 := by omega
  rw [this]
  decide

/-- The qualified branch of `extractNameSpace`, once the three positions are known. -/
theorem extractNameSpace_qualified (name : Str) (startPos endPos : Nat)
    (hpre : substr name 0 2 = "::".toList ∨ substr name 0 5 = "mdl::".toList)
    (hs : find_first_of name ':' = startPos)
    (he : find_last_of name ':' (find_first_of name '(') = endPos)
    (hlt : startPos < endPos) (hend : endPos < npos) :
    extractNameSpace name
      = some (substr name (startPos + 2)
          (if endPos < sizeT ((endPos : Int) - startPos - 3) then 0
           else sizeT ((endPos : Int) - startPos - 3))) := by
  have hs2 : sizeT ((startPos : Int) + 2) = startPos + 2 := by
    have := sizeT_of_nat (startPos + 2) (by unfold npos at hend; omega)
    simpa using this
  have h1 : (startPos != npos) = true := by
    have : startPos ≠ npos := by omega
    simpa using this
  have h2 : (endPos != npos) = true := by
    have : endPos ≠ npos := by omega
    simpa using this
  unfold extractNameSpace
  rw [if_pos hpre]
  simp only [hs, he, h1, h2, hlt, decide_True, Bool.and_self, DP_ASSERT, if_true,
    Option.bind_eq_bind, Option.some_bind, pure, hs2]

theorem extractNameSpace_unqualified (name : Str) (hlen : name.length < 2 ^ 64)
    (h2 : ¬ "::".toList <+: name) (h5 : ¬ "mdl::".toList <+: name) :
    extractNameSpace name = if ':' ∈ name then none else some [] := by
  have h2' : substr name 0 2 ≠ "::".toList :=
    fun h => h2 ((substr_zero_eq_iff_starts name "::".toList).mp h)
  have h5' : substr name 0 5 ≠ "mdl::".toList :=
    fun h => h5 ((substr_zero_eq_iff_starts name "mdl::".toList).mp h)
  unfold extractNameSpace
  rw [if_neg (by rintro (h | h); exact h2' h; exact h5' h)]
  by_cases hm : ':' ∈ name
  · obtain ⟨hf, hl⟩ := find_zero_of_mem name ':' hm
    have : (find_first_of name ':' == npos) = false := by
      rw [find_first_of, hf]
      have : name.indexOf ':' ≠ npos := by
        unfold npos; omega
      simpa using this
    simp [hm, this, DP_ASSERT]
  · have hf := find_zero_of_not_mem name ':' hm
    simp [hm, find_first_of, hf, DP_ASSERT]

/-- The position of the last `:` before the argument list, for a name made of a qualifier
`Q`, a path `ns`, the separator `::`, a local name and an optional argument list. -/
theorem lastColon_position (Q ns localName tail : Str)
    (hQ : '(' ∉ Q) (hl1 : ':' ∉ localName) (hl2 : '(' ∉ localName) (hns : '(' ∉ ns)
    (htail : tail = [] ∨ ∃ args, tail = '(' :: args)
    (hlen : (Q ++ ns ++ "::".toList ++ localName ++ tail).length < 2 ^ 64 - 1) :
    find_last_of (Q ++ ns ++ "::".toList ++ localName ++ tail) ':'
        (find_first_of (Q ++ ns ++ "::".toList ++ localName ++ tail) '(')
        = Q.length + ns.length + 1 := by
  have hpre : (Q ++ ns ++ [':']).length = Q.length + ns.length + 1 := by
    simp only [List.length_append, List.length_singleton]
  rw [← hpre]
  rcases htail with rfl | ⟨args, rfl⟩
  · have hnot : '(' ∉ Q ++ ns ++ "::".toList ++ localName ++ [] := by
      simp only [List.mem_append, not_or]
      exact ⟨⟨⟨⟨hQ, hns⟩, by decide⟩, hl2⟩, by simp⟩
    rw [find_first_of, find_zero_of_not_mem _ _ hnot]
    refine find_last_of_whole _ (Q ++ ns ++ [':']) localName ':' npos (by simp) hl1 ?_
    unfold npos
    omega
  · have hfirst : find_first_of (Q ++ ns ++ "::".toList ++ localName ++ '(' :: args) '('
        = (Q ++ ns ++ "::".toList ++ localName).length := by
      refine find_first _ (Q ++ ns ++ "::".toList ++ localName) args '(' rfl ?_
      simp only [List.mem_append, not_or]
      exact ⟨⟨⟨hQ, hns⟩, by decide⟩, hl2⟩
    rw [hfirst]
    refine find_last_of_part _ (Q ++ ns ++ [':']) (localName ++ ['(']) args ':' _
      (by simp) ?_ ?_
    · simp only [List.mem_append, not_or]
      exact ⟨hl1, by decide⟩
    · simp only [List.length_append, List.length_singleton, List.length_cons,
        List.length_nil, String.toList]
      simp
      omega

/-- C16 (as amended): for a name `P ++ ns ++ "::" ++ local`, optionally followed by `(` and
any argument text, where `P` is `::` or `mdl::`, `ns` holds no `(` and `local` holds neither
`:` nor `(`, `extractNameSpace` returns exactly `ns`; for `P ++ local` it returns the empty
string. For a name that starts with neither `::` nor `mdl::` it returns the empty string when
the name holds no `:`, and fails (the assertion of the function) when it holds one. -/
theorem extractNameSpace_spec (P ns localName tail : Str)
    (hP : P = "::".toList ∨ P = "mdl::".toList)
    (hl1 : ':' ∉ localName) (hl2 : '(' ∉ localName) (hns : '(' ∉ ns)
    (htail : tail = [] ∨ ∃ args, tail = '(' :: args) :
    ((P ++ ns ++ "::".toList ++ localName ++ tail).length < 2 ^ 64 - 1 →
      extractNameSpace (P ++ ns ++ "::".toList ++ localName ++ tail) = some ns)
    ∧ ((P ++ localName ++ tail).length < 2 ^ 64 - 1 →
      extractNameSpace (P ++ localName ++ tail) = some [])
    ∧ ∀ name : Str, name.length < 2 ^ 64 →
        ¬ "::".toList <+: name → ¬ "mdl::".toList <+: name →
        (':' ∉ name → extractNameSpace name = some [])
        ∧ (':' ∈ name → extractNameSpace name = none) := by
  refine ⟨?_, ?_, ?_⟩
  · intro hlen
    have hP' : ∃ p, (P = "::".toList ∧ p = 0 ∨ P = "mdl::".toList ∧ p = 3)
        ∧ P.length = p + 2 := by
      rcases hP with rfl | rfl
      · exact ⟨0, Or.inl ⟨rfl, rfl⟩, rfl⟩
      · exact ⟨3, Or.inr ⟨rfl, rfl⟩, rfl⟩
    obtain ⟨p, hp, hplen⟩ := hP'
    have hPparen : '(' ∉ P := by
      rcases hP with rfl | rfl <;> decide
    have he := lastColon_position P ns localName tail hPparen hl1 hl2 hns htail hlen
    have hs : find_first_of (P ++ ns ++ "::".toList ++ localName ++ tail) ':' = p := by
      rcases hp with ⟨rfl, rfl⟩ | ⟨rfl, rfl⟩
      · exact find_first _ [] (':' :: (ns ++ "::".toList ++ localName ++ tail)) ':'
          (by simp) (by simp)
      · exact find_first _ "mdl".toList (':' :: (ns ++ "::".toList ++ localName ++ tail)) ':'
          (by simp) (by decide)
    have hpre : substr (P ++ ns ++ "::".toList ++ localName ++ tail) 0 2 = "::".toList
        ∨ substr (P ++ ns ++ "::".toList ++ localName ++ tail) 0 5 = "mdl::".toList := by
      rcases hP with rfl | rfl
      · left; simp [substr]
      · right; simp [substr]
    have hbound : (P ++ ns ++ "::".toList ++ localName ++ tail).length
        = P.length + ns.length + 2 + localName.length + tail.length := by
      simp only [List.length_append]
      rfl
    rw [extractNameSpace_qualified _ p (P.length + ns.length + 1) hpre hs he (by omega)
      (by unfold npos; omega)]
    have hcount : sizeT (((P.length + ns.length + 1 : Nat) : Int) - p - 3) = ns.length :=
      sizeT_sub_three _ _ _ (by omega) (by omega)
    rw [hcount, if_neg (by omega), ← hplen]
    simp [substr, List.append_assoc]
  · intro hlen
    have hP' : ∃ p, (P = "::".toList ∧ p = 0 ∨ P = "mdl::".toList ∧ p = 3)
        ∧ P.length = p + 2 ∧ ∃ P0, P = P0 ++ "::".toList ∧ P0.length = p ∧ '(' ∉ P0
          ∧ ':' ∉ P0 := by
      rcases hP with rfl | rfl
      · exact ⟨0, Or.inl ⟨rfl, rfl⟩, rfl, [], rfl, rfl, by decide, by decide⟩
      · exact ⟨3, Or.inr ⟨rfl, rfl⟩, rfl, "mdl".toList, rfl, rfl, by decide, by decide⟩
    obtain ⟨p, hp, hplen, P0, hP0, hP0len, hP0paren, hP0colon⟩ := hP'
    have hname : P ++ localName ++ tail = P0 ++ [] ++ "::".toList ++ localName ++ tail := by
      rw [hP0]; simp
    have hlen' : (P0 ++ [] ++ "::".toList ++ localName ++ tail).length < 2 ^ 64 - 1 := by
      rw [← hname]; exact hlen
    have he := lastColon_position P0 [] localName tail hP0paren hl1 hl2 (by simp) htail hlen'
    have hs : find_first_of (P0 ++ [] ++ "::".toList ++ localName ++ tail) ':' = p := by
      rw [← hP0len]
      exact find_first _ P0 (':' :: (localName ++ tail)) ':' (by simp) hP0colon
    have hpre : substr (P ++ localName ++ tail) 0 2 = "::".toList
        ∨ substr (P ++ localName ++ tail) 0 5 = "mdl::".toList := by
      rcases hP with rfl | rfl
      · left; simp [substr]
      · right; simp [substr]
    have hbound : (P0 ++ [] ++ "::".toList ++ localName ++ tail).length
        = P0.length + 2 + localName.length + tail.length := by
      simp only [List.length_append, List.length_nil]
      rfl
    rw [hname] at hpre ⊢
    simp only [List.length_nil, Nat.add_zero] at he
    rw [hP0len] at he
    rw [extractNameSpace_qualified _ p (p + 1) hpre hs he (by omega) (by unfold npos; omega)]
    have hcount : sizeT (((p + 1 : Nat) : Int) - p - 3) = 2 ^ 64 - 2 :=
      sizeT_minus_two _ _ rfl
    rw [hcount, if_pos (by omega)]
    simp [substr]
  · intro name hlen h2 h5
    rw [extractNameSpace_unqualified name hlen h2 h5]
    exact ⟨fun h => by simp [h], fun h => by simp [h]⟩

/-- Witness for C16: `mdl::df::sub::F(float,::tex::gamma_mode)`, `::local`, `float`
and `df::f`. -/
theorem extractNameSpace_spec_witness :
    extractNameSpace "mdl::df::sub::F(float,::tex::gamma_mode)".toList
        = some "df::sub".toList
    ∧ extractNameSpace "::local".toList = some []
    ∧ extractNameSpace "float".toList = some []
    ∧ extractNameSpace "df::f".toList = none :=
  ⟨(extractNameSpace_spec "mdl::".toList "df::sub".toList "F".toList
      "(float,::tex::gamma_mode)".toList (Or.inr rfl) (by decide) (by decide) (by decide)
      (Or.inr ⟨_, rfl⟩)).1 (by decide),
   (extractNameSpace_spec "::".toList [] "local".toList [] (Or.inl rfl) (by decide)
      (by decide) (by decide) (Or.inl rfl)).2.1 (by decide),
   ((extractNameSpace_spec "::".toList [] [] [] (Or.inl rfl) (by decide)
      (by decide) (by decide) (Or.inl rfl)).2.2 "float".toList (by decide) (by decide)
      (by decide)).1 (by decide),
   ((extractNameSpace_spec "::".toList [] [] [] (Or.inl rfl) (by decide)
      (by decide) (by decide) (Or.inl rfl)).2.2 "df::f".toList (by decide) (by decide)
      (by decide)).2 (by decide)⟩

/-- Counterexample to C16 as stated: `df::f` starts with neither `::` nor `mdl::`, and
`extractNameSpace` does not return the empty string for it: its assertion fails. -/
theorem extractNameSpace_fails_on_unrooted_path :
    ¬ "::".toList <+: "df::f".toList ∧ ¬ "mdl::".toList <+: "df::f".toList
    ∧ extractNameSpace "df::f".toList = none :=
  ⟨by decide, by decide, by decide⟩

/-! ## C19: `registerType` -/

/-- The first step of `registerType`: the array-size suffix is cut off. -/
theorem registerType_strip (t : Str) (ht : t.length < 2 ^ 64 - 1) :
    (if find_first_of t '[' ≠ npos then substr t 0 (find_first_of t '[') else t)
      = t.takeWhile (fun x => x != '[') := by
  by_cases hmem : '[' ∈ t
  · obtain ⟨hf, hlt⟩ := find_zero_of_mem t '[' hmem
    have hne : find_first_of t '[' ≠ npos := by
      rw [find_first_of, hf]; unfold npos; omega
    rw [if_pos hne, find_first_of, hf]
    simp [substr, take_indexOf_eq_takeWhile]
  · have hf := find_zero_of_not_mem t '[' hmem
    rw [if_neg (by rw [find_first_of, hf]; simp), takeWhile_ne_of_not_mem t '[' hmem]

theorem length_takeWhile_le (t : Str) (p : Char → Bool) : (t.takeWhile p).length ≤ t.length := by
  induction t with
  | nil => simp
  | cons a l ih =>
    simp only [List.takeWhile]
    split
    · simp only [List.length_cons]; omega
    · simp

/-- C19 (as amended): let `b` be the type name `t` with everything from its first `[`
removed. If `b` is one of `bool`, `color`, `float`, `float2`, `float3`, `int`, `string`,
`texture_2d`, `registerType(t)` returns `b` and changes nothing. Otherwise, if `b` holds a
`:` and `extractNameSpace` accepts `b`, it returns the part of `b` after its last `:` and,
when the name space of `b` is not empty, records that local name under that name space in
the import table, changing nothing else. Otherwise (no `:` in `b`, or a name space that
cannot be extracted) it fails. -/
theorem registerType_spec (s : MDLBuilder) (t b : Str) (ht : t.length < 2 ^ 64 - 1)
    (hb : b = t.takeWhile (fun x => x != '[')) :
    (b ∈ standardTypes → registerType s t = some (b, s))
    ∧ (b ∉ standardTypes → ∀ pre seg ns, b = pre ++ ':' :: seg → ':' ∉ seg →
        extractNameSpace b = some ns →
        registerType s t
          = some (seg, if ns = [] then s
                       else { s with m_imports := importsInsert s.m_imports ns seg }))
    ∧ (b ∉ standardTypes → (':' ∉ b ∨ extractNameSpace b = none) →
        registerType s t = none) := by
  have hstrip := registerType_strip t ht
  rw [← hb] at hstrip
  have hblen : b.length ≤ t.length := hb ▸ length_takeWhile_le t _
  refine ⟨?_, ?_, ?_⟩
  · intro hstd
    unfold registerType
    simp only [hstrip, if_pos hstd]
  · intro hstd pre seg ns hsplit hseg hns
    have hlast : find_last_of b ':' npos = pre.length :=
      find_last_of_whole b pre seg ':' npos hsplit hseg (by unfold npos; omega)
    have hprelen : pre.length + 1 + seg.length = b.length := by
      rw [hsplit]; simp; omega
    have hne : (pre.length != npos) = true := by
      have : pre.length ≠ npos := by unfold npos; omega
      simpa using this
    have hsize : sizeT ((pre.length : Int) + 1) = pre.length + 1 := by
      have := sizeT_of_nat (pre.length + 1) (by omega)
      simpa using this
    have hseg' : substr b (pre.length + 1) npos = seg := by
      rw [hsplit]
      unfold substr
      have h1 : (pre ++ ':' :: seg).drop (pre.length + 1) = seg := by
        rw [show pre ++ ':' :: seg = (pre ++ [':']) ++ seg by simp]
        rw [show pre.length + 1 = (pre ++ [':']).length by simp]
        exact List.drop_left' rfl
      rw [h1]
      exact List.take_of_length_le (by unfold npos; omega)
    unfold registerType
    simp only [hstrip, if_neg hstd, hns, hlast, hne, DP_ASSERT, if_true, Option.bind_eq_bind,
      Option.some_bind, hsize, hseg', pure, ne_eq, ite_not]
    split <;> rfl
  · intro hstd hbad
    unfold registerType
    simp only [hstrip, if_neg hstd]
    rcases hbad with h | h
    · have hlast : find_last_of b ':' npos = npos := find_last_of_not_mem b ':' npos h
      cases hns : extractNameSpace b with
      | none => rfl
      | some ns => simp [hlast, DP_ASSERT]
    · simp [h]

/-- Witness for C19: `float3[4]`, `::base::texture_return`, `::E` and `float4`. -/
theorem registerType_spec_witness :
    registerType MDLBuilder.new "float3[4]".toList = some ("float3".toList, MDLBuilder.new)
    ∧ registerType MDLBuilder.new "::base::texture_return".toList
        = some ("texture_return".toList,
            if "base".toList = [] then MDLBuilder.new
            else { MDLBuilder.new with
              m_imports := importsInsert MDLBuilder.new.m_imports "base".toList
                "texture_return".toList })
    ∧ registerType MDLBuilder.new "float4".toList = none :=
  ⟨(registerType_spec MDLBuilder.new "float3[4]".toList "float3".toList (by decide)
      (by decide)).1 (by decide),
   (registerType_spec MDLBuilder.new "::base::texture_return".toList
      "::base::texture_return".toList (by decide) (by decide)).2.1 (by decide)
      "::base:".toList "texture_return".toList "base".toList (by decide) (by decide)
      (by decide),
   (registerType_spec MDLBuilder.new "float4".toList "float4".toList (by decide)
      (by decide)).2.2 (by decide) (Or.inl (by decide))⟩

/-- Counterexample to C19 as stated: `float4` is not one of the eight built-in spellings and
has the last path segment `float4`, but `registerType` returns nothing for it: its assertion
on the position of the last `:` fails. -/
theorem registerType_fails_on_unqualified :
    "float4".toList ∉ standardTypes ∧ '[' ∉ "float4".toList
    ∧ registerType MDLBuilder.new "float4".toList = none :=
  ⟨by decide, by decide, rfl⟩

/-! ## C17: `extractTypeName` -/

theorem extractTypeName_eq (type : Str) :
    extractTypeName type = flattenSizes (lowerLastSegment type) := rfl

theorem toLower_eq_special (c x : Char) (hx : x = ':' ∨ x = '<' ∨ x = ',') :
    c.toLower = x ↔ c = x := by
  by_cases h : 65 ≤ c.toNat ∧ c.toNat ≤ 90
  · have hc : c = Char.ofNat c.toNat := (Char.ofNat_toNat c).symm
    obtain ⟨h1, h2⟩ := h
    generalize c.toNat = n at hc h1 h2
    subst hc
    interval_cases n <;> rcases hx with rfl | rfl | rfl <;> decide
  · have : c.toLower = c := by
      unfold Char.toLower
      simp only
      rw [if_neg h]
    rw [this]

theorem mem_map_toLower (x : Char) (hx : x = ':' ∨ x = '<' ∨ x = ',') (l : Str) :
    x ∈ l.map Char.toLower ↔ x ∈ l := by
  simp only [List.mem_map]
  constructor
  · rintro ⟨c, hc, hcx⟩
    exact ((toLower_eq_special c x hx).mp hcx) ▸ hc
  · intro h
    exact ⟨x, h, (toLower_eq_special x x hx).mpr rfl⟩

theorem lowerLastSegment_eq (pre seg : Str) (hpre : pre = [] ∨ ∃ p, pre = p ++ [':'])
    (hseg : ':' ∉ seg) (hlen : (pre ++ seg).length < 2 ^ 64 - 1) :
    lowerLastSegment (pre ++ seg) = seg.map Char.toLower := by
  have hseg' : ':' ∉ seg.map Char.toLower := by
    rw [mem_map_toLower ':' (Or.inl rfl)]; exact hseg
  unfold lowerLastSegment
  simp only
  rcases hpre with rfl | ⟨p, rfl⟩
  · rw [List.nil_append, find_last_of_not_mem _ _ _ hseg']
    simp
  · have hmap : (p ++ [':'] ++ seg).map Char.toLower
        = p.map Char.toLower ++ ':' :: seg.map Char.toLower := by
      simp only [List.map_append, List.map_cons, List.map_nil, List.append_assoc,
        List.singleton_append]
      rfl
    rw [hmap]
    have hlen' : (p.map Char.toLower ++ ':' :: seg.map Char.toLower).length
        = p.length + 1 + seg.length := by simp; omega
    have hlen2 : (p ++ [':'] ++ seg).length = p.length + 1 + seg.length := by simp; omega
    have hlast : find_last_of (p.map Char.toLower ++ ':' :: seg.map Char.toLower) ':' npos
        = p.length := by
      have := find_last_of_whole _ (p.map Char.toLower) (seg.map Char.toLower) ':' npos rfl
        hseg' (by rw [hlen']; unfold npos; omega)
      simpa using this
    rw [hlast, if_pos (by unfold npos; omega)]
    unfold substr
    have h1 : (p.map Char.toLower ++ ':' :: seg.map Char.toLower).drop (p.length + 1)
        = seg.map Char.toLower := by
      rw [show p.map Char.toLower ++ ':' :: seg.map Char.toLower
        = (p.map Char.toLower ++ [':']) ++ seg.map Char.toLower by simp]
      exact List.drop_left' (by simp)
    rw [h1]
    exact List.take_of_length_le (by simp; unfold npos; omega)

theorem lowerLastSegment_no_colon (type : Str) (hlen : type.length < 2 ^ 64 - 1) :
    ':' ∉ lowerLastSegment type := by
  unfold lowerLastSegment
  simp only
  by_cases hm : ':' ∈ type.map Char.toLower
  · obtain ⟨pre, post, hs, hp⟩ := exists_last_split ':' _ hm
    have hl : (type.map Char.toLower).length = type.length := by simp
    have hlast : find_last_of (type.map Char.toLower) ':' npos = pre.length :=
      find_last_of_whole _ pre post ':' npos hs hp (by rw [hl]; unfold npos; omega)
    have hprelen : pre.length < type.length := by
      rw [← hl, hs]; simp
    rw [hlast, if_pos (by unfold npos; omega), hs]
    intro hmem
    unfold substr at hmem
    have h1 : (pre ++ ':' :: post).drop (pre.length + 1) = post := by
      rw [show pre ++ ':' :: post = (pre ++ [':']) ++ post by simp]
      exact List.drop_left' (by simp)
    rw [h1] at hmem
    exact hp (List.mem_of_mem_take hmem)
  · rw [find_last_of_not_mem _ _ _ hm]
    simpa using hm

theorem flattenSizes_no_colon (L : Str) (h : ':' ∉ L) : ':' ∉ flattenSizes L := by
  unfold flattenSizes
  simp only
  split
  · split
    · simp only [List.mem_append, not_or]
      exact ⟨⟨⟨not_mem_substr _ _ _ _ h, not_mem_substr _ _ _ _ h⟩, by decide⟩,
        not_mem_substr _ _ _ _ h⟩
    · simp only [List.mem_append, not_or]
      exact ⟨not_mem_substr _ _ _ _ h, not_mem_substr _ _ _ _ h⟩
  · exact h

theorem flattenSizes_plain (L : Str) (h : '<' ∉ L) : flattenSizes L = L := by
  unfold flattenSizes
  simp only
  have : find L '<' 0 = npos := by simp [find, h]
  rw [this]
  simp

theorem drop_length_append (A B : Str) : (A ++ B).drop A.length = B :=
  List.drop_left' rfl

theorem flattenSizes_one (A N : Str) (hA : '<' ∉ A) (hN : ',' ∉ N)
    (hlen : (A ++ '<' :: (N ++ ['>'])).length < 2 ^ 64 - 1) :
    flattenSizes (A ++ '<' :: (N ++ ['>'])) = A ++ N := by
  have hl : (A ++ '<' :: (N ++ ['>'])).length = A.length + N.length + 2 := by
    simp; omega
  rw [hl] at hlen
  unfold flattenSizes
  simp only
  rw [find_first _ A (N ++ ['>']) '<' rfl hA]
  have hcomma : find (A ++ '<' :: (N ++ ['>'])) ',' A.length = npos := by
    unfold find
    rw [drop_length_append, if_neg]
    simp only [List.mem_cons, List.mem_append, List.mem_singleton, not_or]
    exact ⟨by decide, hN, by decide, by simp⟩
  rw [hcomma, if_pos (by unfold npos; omega), if_neg (by simp), hl]
  have hsz : sizeT (((A.length + N.length + 2 : Nat) : Int) - (A.length : Int) - 2) = N.length := by
    rw [show ((A.length + N.length + 2 : Nat) : Int) - (A.length : Int) - 2 = ((N.length : Nat) : Int)
      by push_cast; ring]
    exact sizeT_of_nat _ (by omega)
  rw [hsz]
  unfold substr
  congr 1
  · simp
  · rw [show A ++ '<' :: (N ++ ['>']) = (A ++ ['<']) ++ (N ++ ['>']) by simp,
      List.drop_left' (by simp)]
    simp

theorem flattenSizes_two (A N M : Str) (hA : '<' ∉ A) (hN : ',' ∉ N)
    (hlen : (A ++ '<' :: (N ++ ',' :: (M ++ ['>']))).length < 2 ^ 64 - 1) :
    flattenSizes (A ++ '<' :: (N ++ ',' :: (M ++ ['>']))) = A ++ N ++ "x".toList ++ M := by
  have hl : (A ++ '<' :: (N ++ ',' :: (M ++ ['>']))).length
      = A.length + N.length + M.length + 3 := by
    simp; omega
  rw [hl] at hlen
  unfold flattenSizes
  simp only
  rw [find_first _ A (N ++ ',' :: (M ++ ['>'])) '<' rfl hA]
  have hcomma : find (A ++ '<' :: (N ++ ',' :: (M ++ ['>']))) ',' A.length
      = A.length + N.length + 1 := by
    unfold find
    rw [drop_length_append, if_pos (by simp)]
    have : (('<' :: N) ++ ',' :: (M ++ ['>'])).indexOf ',' = ('<' :: N).length :=
      indexOf_append_cons ',' ('<' :: N) (M ++ ['>'])
        (by simp only [List.mem_cons, not_or]; exact ⟨by decide, hN⟩)
    rw [show '<' :: (N ++ ',' :: (M ++ ['>'])) = ('<' :: N) ++ ',' :: (M ++ ['>']) by simp, this]
    simp; omega
  rw [hcomma, if_pos (by unfold npos; omega), if_pos (by unfold npos; omega), hl]
  have hsz1 : sizeT (((A.length + N.length + 1 : Nat) : Int) - (A.length : Int) - 1)
      = N.length := by
    rw [show ((A.length + N.length + 1 : Nat) : Int) - (A.length : Int) - 1
      = ((N.length : Nat) : Int) by push_cast; ring]
    exact sizeT_of_nat _ (by omega)
  have hsz2 : sizeT (((A.length + N.length + M.length + 3 : Nat) : Int)
      - ((A.length + N.length + 1 : Nat) : Int) - 2) = M.length := by
    rw [show ((A.length + N.length + M.length + 3 : Nat) : Int)
      - ((A.length + N.length + 1 : Nat) : Int) - 2 = ((M.length : Nat) : Int) by push_cast; ring]
    exact sizeT_of_nat _ (by omega)
  rw [hsz1, hsz2]
  unfold substr
  congr 1
  congr 1
  congr 1
  · simp
  · rw [show A ++ '<' :: (N ++ ',' :: (M ++ ['>'])) = (A ++ ['<']) ++ (N ++ ',' :: (M ++ ['>']))
      by simp, List.drop_left' (by simp)]
    simp
  · rw [show A ++ '<' :: (N ++ ',' :: (M ++ ['>'])) = (A ++ '<' :: N ++ [',']) ++ (M ++ ['>'])
      by simp, List.drop_left' (by simp; omega)]
    simp

/-- C17: `extractTypeName` on a spelling `pre ++ seg` whose last path segment is `seg` (`pre`
is empty or ends in `:`, `seg` holds no `:`). A segment without `<` is returned lower-cased;
a segment `T<N>` gives `lower T ++ lower N`; a segment `T<N,M>` gives
`lower T ++ lower N ++ "x" ++ lower M`; and for every spelling the result holds no `:`. -/
theorem extractTypeName_spec (pre : Str) (hpre : pre = [] ∨ ∃ p, pre = p ++ [':']) :
    (∀ seg : Str, ':' ∉ seg → '<' ∉ seg → (pre ++ seg).length < 2 ^ 64 - 1 →
      extractTypeName (pre ++ seg) = seg.map Char.toLower)
    ∧ (∀ T N : Str, ':' ∉ T → '<' ∉ T → ':' ∉ N → ',' ∉ N →
      (pre ++ (T ++ '<' :: (N ++ ['>']))).length < 2 ^ 64 - 1 →
      extractTypeName (pre ++ (T ++ '<' :: (N ++ ['>'])))
        = T.map Char.toLower ++ N.map Char.toLower)
    ∧ (∀ T N M : Str, ':' ∉ T → '<' ∉ T → ':' ∉ N → ',' ∉ N → ':' ∉ M →
      (pre ++ (T ++ '<' :: (N ++ ',' :: (M ++ ['>'])))).length < 2 ^ 64 - 1 →
      extractTypeName (pre ++ (T ++ '<' :: (N ++ ',' :: (M ++ ['>']))))
        = T.map Char.toLower ++ N.map Char.toLower ++ "x".toList ++ M.map Char.toLower)
    ∧ (∀ type : Str, type.length < 2 ^ 64 - 1 → ':' ∉ extractTypeName type) := by
  refine ⟨?_, ?_, ?_, ?_⟩
  · intro seg hc hl hlen
    rw [extractTypeName_eq, lowerLastSegment_eq pre seg hpre hc hlen]
    exact flattenSizes_plain _ (by rw [mem_map_toLower '<' (Or.inr (Or.inl rfl))]; exact hl)
  · intro T N hTc hTl hNc hNcomma hlen
    have hseg : ':' ∉ T ++ '<' :: (N ++ ['>']) := by
      simp only [List.mem_append, List.mem_cons, List.mem_singleton, not_or]
      exact ⟨hTc, by decide, hNc, by decide, by simp⟩
    rw [extractTypeName_eq, lowerLastSegment_eq pre _ hpre hseg hlen]
    have hmap : (T ++ '<' :: (N ++ ['>'])).map Char.toLower
        = T.map Char.toLower ++ '<' :: (N.map Char.toLower ++ ['>']) := by
      simp only [List.map_append, List.map_cons, List.map_nil]
      rfl
    rw [hmap]
    refine flattenSizes_one _ _ ?_ ?_ ?_
    · rw [mem_map_toLower '<' (Or.inr (Or.inl rfl))]; exact hTl
    · rw [mem_map_toLower ',' (Or.inr (Or.inr rfl))]; exact hNcomma
    · rw [← hmap]
      simp only [List.length_map]
      simp only [List.length_append] at hlen ⊢
      omega
  · intro T N M hTc hTl hNc hNcomma hMc hlen
    have hseg : ':' ∉ T ++ '<' :: (N ++ ',' :: (M ++ ['>'])) := by
      simp only [List.mem_append, List.mem_cons, List.mem_singleton, not_or]
      exact ⟨hTc, by decide, hNc, by decide, hMc, by decide, by simp⟩
    rw [extractTypeName_eq, lowerLastSegment_eq pre _ hpre hseg hlen]
    have hmap : (T ++ '<' :: (N ++ ',' :: (M ++ ['>']))).map Char.toLower
        = T.map Char.toLower ++ '<' :: (N.map Char.toLower ++ ',' :: (M.map Char.toLower ++ ['>']))
        := by
      simp only [List.map_append, List.map_cons, List.map_nil]
      rfl
    rw [hmap]
    refine flattenSizes_two _ _ _ ?_ ?_ ?_
    · rw [mem_map_toLower '<' (Or.inr (Or.inl rfl))]; exact hTl
    · rw [mem_map_toLower ',' (Or.inr (Or.inr rfl))]; exact hNcomma
    · rw [← hmap]
      simp only [List.length_map]
      simp only [List.length_append] at hlen ⊢
      omega
  · intro type hlen
    rw [extractTypeName_eq]
    exact flattenSizes_no_colon _ (lowerLastSegment_no_colon type hlen)

/-- The claim C17 at work: `float<2>` gives `float2` and `::Float<4,4>` gives `float4x4`. -/
theorem extractTypeName_spec_witness :
    extractTypeName "float<2>".toList = "float2".toList
    ∧ extractTypeName "::Float<4,4>".toList = "float4x4".toList
    ∧ extractTypeName "::base::Color".toList = "color".toList
    ∧ ':' ∉ extractTypeName "::Float<4,4>".toList :=
  ⟨(extractTypeName_spec [] (Or.inl rfl)).2.1 "float".toList "2".toList
      (by decide) (by decide) (by decide) (by decide) (by decide),
    (extractTypeName_spec "::".toList (Or.inr ⟨[':'], rfl⟩)).2.2.1 "Float".toList "4".toList
      "4".toList (by decide) (by decide) (by decide) (by decide) (by decide) (by decide),
    (extractTypeName_spec "::base::".toList (Or.inr ⟨"::base:".toList, rfl⟩)).1 "Color".toList
      (by decide) (by decide) (by decide),
    (extractTypeName_spec [] (Or.inl rfl)).2.2.2 "::Float<4,4>".toList (by decide)⟩

/-- A last segment that holds `<` without being of the form `T<N>` or `T<N,M>` is not
returned lower-cased: `float<` gives `float`, and `vec<2>x` gives `vec2>`. -/
theorem extractTypeName_cuts_open_size :
    extractTypeName "float<".toList = "float".toList
    ∧ "float<".toList.map Char.toLower = "float<".toList
    ∧ ':' ∉ "float<".toList
    ∧ "float<".toList.getLast? = some '<'
    ∧ extractTypeName "vec<2>x".toList = "vec2>".toList := by
  refine ⟨by decide, by decide, by decide, by decide, by decide⟩

/-! ## The material list under the events -/

theorem registerImport_materials (s : MDLBuilder) (nameSpace name : Str) :
    (registerImport s nameSpace name).m_materials = s.m_materials := by
  obtain ⟨imports, h⟩ := registerImport_frame s nameSpace name
  rw [h]

theorem registerType_materials (s s1 : MDLBuilder) (name typeName : Str)
    (h : registerType s name = some (typeName, s1)) : s1.m_materials = s.m_materials := by
  obtain ⟨imports, rfl⟩ := registerType_frame _ _ _ _ h
  rfl

theorem registerArguments_materials (arguments : List (Str × Str)) (s s1 : MDLBuilder)
    (callArguments : List ArgumentData)
    (h : registerArguments s arguments = some (callArguments, s1)) :
    s1.m_materials = s.m_materials := by
  obtain ⟨imports, rfl⟩ := registerArguments_frame _ _ _ _ h
  rfl


theorem map_set_same {α β : Type} (f : α → β) (l : List α) (i : Nat) (a b : α)
    (ha : l[i]? = some a) (hf : f b = f a) : (l.set i b).map f = l.map f := by
  apply List.ext_getElem?
  intro j
  rw [List.getElem?_map, List.getElem?_map, List.getElem?_set]
  by_cases hij : i = j
  · subst hij
    rw [if_pos rfl, ha]
    have hlt : i < l.length := by
      rcases Nat.lt_or_ge i l.length with h | h
      · exact h
      · rw [List.getElem?_eq_none h] at ha; cases ha
    simp [hlt, hf]
  · rw [if_neg hij]

theorem outline_set (s : MDLBuilder) (mi : Nat) (m m1 : MaterialData)
    (hm : s.m_materials[mi]? = some m) (hname : m1.name = m.name)
    (hpar : (m1.parameters.map fun p => p.name) = m.parameters.map fun p => p.name) :
    ((s.m_materials.set mi m1).map fun m => (m.name, m.parameters.map fun p => p.name))
      = s.outline := by
  unfold MDLBuilder.outline
  exact map_set_same _ _ _ _ _ hm (by simp only [hname, hpar])

theorem outline_setCurrentMaterial (s : MDLBuilder) (m m1 : MaterialData)
    (hm : s.currentMaterial = some m) (hname : m1.name = m.name)
    (hpar : (m1.parameters.map fun p => p.name) = m.parameters.map fun p => p.name) :
    (s.setCurrentMaterial m1).outline = s.outline := by
  obtain ⟨mi, hmi, hmm⟩ := (currentMaterial_eq_some_iff s m).mp hm
  simp only [MDLBuilder.setCurrentMaterial, hmi]
  exact outline_set s mi m m1 hmm hname hpar

theorem annotationEnd_outline (s s' : MDLBuilder) (h : annotationEnd s = some s') :
    s'.outline = s.outline := by
  unfold annotationEnd at h
  split at h
  · simp at h
  · simp only [Option.bind_eq_bind, Option.bind_eq_some, DP_ASSERT_eq_some] at h
    obtain ⟨_, -, h⟩ := h
    split at h
    · simp only [Option.bind_eq_bind, Option.bind_eq_some, pure, Option.some.injEq] at h
      obtain ⟨m, hm, p, hp, rfl⟩ := h
      exact outline_set s _ m _ hm rfl (map_set_same _ _ _ _ _ hp rfl)
    · simp only [Option.bind_eq_bind, Option.bind_eq_some, pure, Option.some.injEq] at h
      obtain ⟨m, hm, rfl⟩ := h
      exact outline_setCurrentMaterial s m _ hm rfl rfl

theorem fieldBegin_outline (s s' : MDLBuilder) (name : Str) (b : Bool)
    (h : fieldBegin s name = some (b, s')) : s'.outline = s.outline := by
  simp only [fieldBegin, Option.bind_eq_bind, Option.bind_eq_some, DP_ASSERT_eq_some, pure,
    Option.some.injEq, Prod.mk.injEq] at h
  obtain ⟨mi, -, m, hm, _, -, -, rfl⟩ := h
  exact outline_set s mi m _ hm rfl rfl

theorem fieldEnd_outline (s s' : MDLBuilder) (h : fieldEnd s = some s') :
    s'.outline = s.outline := by
  obtain ⟨top, mi, name, m, old, -, -, -, hm, -, rfl⟩ := (fieldEnd_eq_some_iff s s').mp h
  exact outline_set s mi m _ hm rfl rfl

theorem temporaryEnd_outline (s s' : MDLBuilder) (h : temporaryEnd s = some s') :
    s'.outline = s.outline := by
  unfold temporaryEnd at h
  split at h
  · simp only [Option.bind_eq_bind, Option.bind_eq_some, pure, Option.some.injEq] at h
    obtain ⟨m, hm, rfl⟩ := h
    exact outline_setCurrentMaterial s m _ hm rfl rfl
  · simp at h

theorem parameterEnd_outline (s s' : MDLBuilder) (h : parameterEnd s = some s') :
    s'.outline = s.outline := by
  unfold parameterEnd at h
  split at h
  · simp only [Option.bind_eq_bind, Option.bind_eq_some, DP_ASSERT_eq_some, pure,
      Option.some.injEq] at h
    obtain ⟨m, hm, p, hp, ok, -, _, -, rfl⟩ := h
    exact outline_set s _ m _ hm rfl (map_set_same _ _ _ _ _ hp rfl)
  · simp at h

theorem materialBegin_eq_some (s s' : MDLBuilder) (name : Str) (hash : Nat × Nat × Nat × Nat)
    (b : Bool) (h : materialBegin s name hash = some (b, s')) :
    (∀ md ∈ s.m_materials,
        md.name ≠ substr name (sizeT (find_last_of name ':' npos + 1)) npos)
      ∧ s'.m_materials = s.m_materials ++
          [{ hash := hash, name := substr name (sizeT (find_last_of name ':' npos + 1)) npos,
             parameters := [], annotations := [], temporaries := [], fields := [] }]
      ∧ s.m_currentMaterial = none
      ∧ s'.m_currentMaterial = some s.m_materials.length := by
  simp only [materialBegin, Option.bind_eq_bind, Option.bind_eq_some, DP_ASSERT_eq_some, pure,
    Option.some.injEq, Prod.mk.injEq] at h
  obtain ⟨_, hcur, _, -, _, -, _, -, _, -, _, hall, -, rfl⟩ := h
  refine ⟨?_, rfl, by simpa using hcur, rfl⟩
  intro md hmd
  have := List.all_eq_true.mp hall md hmd
  simpa using this

theorem parameterBegin_eq_some (s s' : MDLBuilder) (index : Nat) (modifier type name : Str)
    (b : Bool) (h : parameterBegin s index modifier type name = some (b, s')) :
    ∃ mi m typeName, s.m_currentMaterial = some mi ∧ s.m_materials[mi]? = some m
      ∧ index = m.parameters.length
      ∧ (∀ pd ∈ m.parameters, pd.name ≠ name)
      ∧ s'.m_materials = s.m_materials.set mi
          { m with parameters := m.parameters ++
              [{ modifier := modifier, type := typeName, name := name, value := none,
                 annotations := [] }] }
      ∧ s'.m_currentMaterial = some mi := by
  simp only [parameterBegin, Option.bind_eq_bind, Option.bind_eq_some, DP_ASSERT_eq_some, pure,
    Option.some.injEq, Prod.mk.injEq, Prod.exists] at h
  obtain ⟨_, -, mi, hmi, m, hm, _, hidx, _, hall, typeName, s1, hreg, -, rfl⟩ := h
  obtain ⟨imports, rfl⟩ := registerType_frame _ _ _ _ hreg
  refine ⟨mi, m, typeName, hmi, hm, ?_, ?_, rfl, hmi⟩
  · simp only [beq_iff_eq] at hidx
    exact hidx.symm
  · intro pd hpd
    have := List.all_eq_true.mp hall pd hpd
    simpa using this

theorem materialBegin_outline (s s' : MDLBuilder) (name : Str) (hash : Nat × Nat × Nat × Nat)
    (b : Bool) (h : materialBegin s name hash = some (b, s')) :
    ∃ materialName, (∀ o ∈ s.outline, o.1 ≠ materialName)
      ∧ s'.outline = s.outline ++ [(materialName, [])] := by
  obtain ⟨hfresh, hmat, -, -⟩ := materialBegin_eq_some _ _ _ _ _ h
  refine ⟨substr name (sizeT (((find_last_of name ':' npos : Nat) : Int) + 1)) npos, ?_, ?_⟩
  · intro o ho
    simp only [MDLBuilder.outline, List.mem_map] at ho
    obtain ⟨md, hmd, rfl⟩ := ho
    exact hfresh md hmd
  · simp only [MDLBuilder.outline, hmat, List.map_append, List.map_cons, List.map_nil]

theorem parameterBegin_outline (s s' : MDLBuilder) (index : Nat) (modifier type name : Str)
    (b : Bool) (h : parameterBegin s index modifier type name = some (b, s')) :
    ∃ mi materialName names, s.m_currentMaterial = some mi
      ∧ s.outline[mi]? = some (materialName, names)
      ∧ index = names.length ∧ name ∉ names
      ∧ s'.outline = s.outline.set mi (materialName, names ++ [name]) := by
  obtain ⟨mi, m, typeName, hmi, hm, hidx, hfresh, hmat, -⟩ := parameterBegin_eq_some _ _ _ _ _ _ _ h
  refine ⟨mi, m.name, m.parameters.map fun p => p.name, hmi, ?_, ?_, ?_, ?_⟩
  · simp only [MDLBuilder.outline, List.getElem?_map, hm, Option.map_some']
  · simpa using hidx
  · intro hmem
    obtain ⟨pd, hpd, hn⟩ := List.mem_map.mp hmem
    exact hfresh pd hpd hn
  · simp only [MDLBuilder.outline, hmat, List.map_set, List.map_append, List.map_cons,
      List.map_nil]

/-- Every accepted event changes the outline as `OutlineStep` says. -/
theorem step_outline (s s' : MDLBuilder) (e : Event) (h : step s e = some s') :
    OutlineStep s e s' := by
  cases e <;> simp only [step, Option.map_eq_some', Prod.exists, exists_eq_right] at h
    <;> simp only [OutlineStep]
  all_goals try (obtain ⟨b, h⟩ := h)
  case annotationEnd => exact annotationEnd_outline _ _ h
  case fieldBegin name => exact fieldBegin_outline _ _ _ _ h
  case fieldEnd => exact fieldEnd_outline _ _ h
  case parameterEnd => exact parameterEnd_outline _ _ h
  case temporaryEnd => exact temporaryEnd_outline _ _ h
  case materialBegin name hash => exact materialBegin_outline _ _ _ _ _ h
  case parameterBegin index modifier type name => exact parameterBegin_outline _ _ _ _ _ _ _ h
  all_goals (
    (try simp only [annotationBegin, argumentBegin, argumentEnd, arrayBegin, arrayEnd,
      arrayElementBegin, arrayElementEnd, callBegin, callEnd, defaultRef, enumTypeBegin,
      enumTypeEnd, enumTypeValue, fileEnd, materialEnd, matrixBegin, matrixElementBegin,
      matrixElementEnd, matrixEnd, referenceParameter, referenceTemporary, structureBegin,
      structureEnd, structureMemberBegin, structureMemberEnd, structureTypeBegin,
      structureTypeElement, structureTypeEnd, temporaryBegin, valueBool, valueBsdfMeasurement,
      valueColor, valueEnum, valueFloat, valueInt, valueLightProfile, valueString, valueTexture,
      vectorBegin, vectorElementBegin, vectorElementEnd, vectorEnd, fileBegin, clear,
      MDLBuilder.pushConstant] at h)
    (try split at h)
    all_goals (try simp only [Option.bind_eq_bind, Option.bind_eq_some, DP_ASSERT_eq_some, pure,
      Option.some.injEq, Prod.mk.injEq, Prod.exists, reduceCtorEq, DP_ASSERT_false,
      Option.none_bind] at h)
    all_goals (try casesm* ∃ _, _, _ ∧ _)
    all_goals (try (have hrt := registerType_materials _ _ _ _ (by assumption)))
    all_goals (try (have hra := registerArguments_materials _ _ _ _ (by assumption)))
    all_goals (try subst_vars)
    all_goals (first
      | rfl
      | (simp only [MDLBuilder.outline]; split <;> simp [registerImport_materials, *])
      | simp [MDLBuilder.outline, MDLBuilder.clearTables, MDLBuilder.pushConstant,
          registerImport_materials, *]))

/-! ## C12: the indices announced by `parameterBegin` and `temporaryBegin` -/

theorem announce_parameters_step (s s' : MDLBuilder) (e : Event) (log : List (List Nat))
    (h : OutlineStep s e s') (hinv : log = s.outline.map fun o => List.range o.2.length) :
    announce parameterIndex s e log = s'.outline.map fun o => List.range o.2.length := by
  cases e <;> simp only [OutlineStep] at h
  case materialBegin name hash =>
    obtain ⟨materialName, -, hout⟩ := h
    simp only [announce, hout, hinv, List.map_append, List.map_cons, List.map_nil,
      List.length_nil, List.range_zero]
  case parameterBegin index modifier type name =>
    obtain ⟨mi, materialName, names, hmi, hget, hidx, -, hout⟩ := h
    have hlog : log.getD mi [] = List.range names.length := by
      rw [hinv, List.getD_eq_getElem?_getD, List.getElem?_map, hget]
      rfl
    subst hidx
    simp only [announce, parameterIndex, hmi, hlog, hout, List.map_set, List.length_append,
      List.length_cons, List.length_nil, List.range_succ]
    rw [hinv]
  case fileBegin name => simp only [announce, h, List.map_nil]
  case clear => simp only [announce, h, List.map_nil]
  all_goals (simp only [announce, parameterIndex, h]; exact hinv)

theorem runAnnounced_parameters (events : List Event) (s s' : MDLBuilder)
    (log log' : List (List Nat))
    (h : runAnnounced parameterIndex s log events = some (s', log'))
    (hinv : log = s.outline.map fun o => List.range o.2.length) :
    log' = s'.outline.map fun o => List.range o.2.length := by
  induction events generalizing s log with
  | nil =>
    simp only [runAnnounced, Option.some.injEq, Prod.mk.injEq] at h
    obtain ⟨rfl, rfl⟩ := h
    exact hinv
  | cons e rest ih =>
    simp only [runAnnounced, Option.bind_eq_some] at h
    obtain ⟨s1, h1, h2⟩ := h
    exact ih s1 _ h2 (announce_parameters_step s s1 e log (step_outline s s1 e h1) hinv)

/-- C12: `parameterBegin` is accepted only with the index that equals the number of
parameters of the current material, and `temporaryBegin` only with the index that equals the
number of its temporaries (it leaves the builder as it is); and after every accepted sequence
of events the indices announced by `parameterBegin` for a material are `0, 1, ..., n - 1` in
this order, `n` being the number of its parameters. -/
theorem announced_indices :
    (∀ (s s' : MDLBuilder) (index : Nat) (modifier type name : Str) (b : Bool),
      parameterBegin s index modifier type name = some (b, s') →
      ∃ m, s.currentMaterial = some m ∧ index = m.parameters.length)
    ∧ (∀ (s s' : MDLBuilder) (idx : Nat) (b : Bool),
      temporaryBegin s idx = some (b, s') →
      ∃ m, s.currentMaterial = some m ∧ idx = m.temporaries.length ∧ s' = s)
    ∧ (∀ (events : List Event) (s : MDLBuilder) (log : List (List Nat)),
      runAnnounced parameterIndex MDLBuilder.new [] events = some (s, log) →
      run MDLBuilder.new events = some s
      ∧ log = s.m_materials.map fun m => List.range m.parameters.length) := by
  refine ⟨?_, ?_, ?_⟩
  · intro s s' index modifier type name b h
    obtain ⟨mi, m, typeName, hmi, hm, hidx, -, -, -⟩ := parameterBegin_eq_some _ _ _ _ _ _ _ h
    exact ⟨m, (currentMaterial_eq_some_iff s m).mpr ⟨mi, hmi, hm⟩, hidx⟩
  · intro s s' idx b h
    simp only [temporaryBegin, Option.bind_eq_bind, Option.bind_eq_some, DP_ASSERT_eq_some, pure,
      Option.some.injEq, Prod.mk.injEq] at h
    obtain ⟨m, hm, _, hc, -, rfl⟩ := h
    simp only [Bool.and_eq_true, beq_iff_eq] at hc
    exact ⟨m, hm, hc.1.symm, rfl⟩
  · intro events s log h
    refine ⟨?_, ?_⟩
    · generalize MDLBuilder.new = s0 at h
      generalize ([] : List (List Nat)) = log0 at h
      induction events generalizing s0 log0 with
      | nil =>
        simp only [runAnnounced, Option.some.injEq, Prod.mk.injEq] at h
        simp only [run, h.1]
      | cons e rest ih =>
        simp only [runAnnounced, Option.bind_eq_some] at h
        obtain ⟨s1, h1, h2⟩ := h
        simp only [run, h1, Option.some_bind]
        exact ih s1 _ h2
    · have := runAnnounced_parameters events MDLBuilder.new s [] log h
        (by simp [MDLBuilder.outline, MDLBuilder.new])
      rw [this]
      simp only [MDLBuilder.outline, List.map_map, Function.comp_def, List.length_map]

/-- The claim C12 at work on the material with the parameters `a` and `b`: the two accepted
`parameterBegin` events announce 0 and 1, in this order. -/
theorem announced_indices_witness :
    (∃ m, (run MDLBuilder.new openMaterialEvents).bind MDLBuilder.currentMaterial = some m
      ∧ 0 = m.parameters.length)
    ∧ (∃ m, referenceState.currentMaterial = some m ∧ 1 = m.temporaries.length)
    ∧ run MDLBuilder.new twoParameterEvents = some twoParameterState
    ∧ [[0, 1]] = twoParameterState.m_materials.map fun m => List.range m.parameters.length :=
  ⟨announced_indices.1 ((run MDLBuilder.new openMaterialEvents).getD MDLBuilder.new) _
      0 [] "float".toList "a".toList true rfl,
    (announced_indices.2.1 referenceState _ 1 true rfl).imp fun _ h => ⟨h.1, h.2.1⟩,
    (announced_indices.2.2 twoParameterEvents twoParameterState [[0, 1]] rfl).1,
    (announced_indices.2.2 twoParameterEvents twoParameterState [[0, 1]] rfl).2⟩

/-- The record of `temporaryBegin` does not follow the stored temporaries: a material stores
its temporary 0 although no index was announced, and another one stores one temporary after
index 0 was announced twice. -/
theorem temporaries_not_announced_in_order :
    ((runAnnounced temporaryIndex MDLBuilder.new [] unannouncedTemporaryEvents).map fun r =>
        (r.1.m_materials.map fun m => m.temporaries.length, r.2)) = some ([1], [[]])
    ∧ ((runAnnounced temporaryIndex MDLBuilder.new [] repeatedTemporaryEvents).map fun r =>
        (r.1.m_materials.map fun m => m.temporaries.length, r.2)) = some ([1], [[0, 0]]) :=
  ⟨rfl, rfl⟩

/-! ## C13: distinct material and parameter names -/

theorem outline_nodup_step (s s' : MDLBuilder) (e : Event) (h : OutlineStep s e s')
    (hinv : (s.outline.map Prod.fst).Nodup ∧ ∀ o ∈ s.outline, o.2.Nodup) :
    (s'.outline.map Prod.fst).Nodup ∧ ∀ o ∈ s'.outline, o.2.Nodup := by
  cases e <;> simp only [OutlineStep] at h
  case materialBegin name hash =>
    obtain ⟨materialName, hfresh, hout⟩ := h
    rw [hout]
    refine ⟨?_, ?_⟩
    · rw [List.map_append, List.nodup_append]
      refine ⟨hinv.1, by simp, ?_⟩
      intro a ha hb
      simp only [List.map_cons, List.map_nil, List.mem_singleton] at hb
      obtain ⟨o, ho, rfl⟩ := List.mem_map.mp ha
      exact hfresh o ho hb
    · intro o ho
      rcases List.mem_append.mp ho with h1 | h1
      · exact hinv.2 o h1
      · rw [List.mem_singleton] at h1
        subst h1
        exact List.nodup_nil
  case parameterBegin index modifier type name =>
    obtain ⟨mi, materialName, names, -, hget, -, hfresh, hout⟩ := h
    rw [hout]
    refine ⟨?_, ?_⟩
    · rw [map_set_same Prod.fst _ mi (materialName, names) (materialName, names ++ [name])
        hget rfl]
      exact hinv.1
    · intro o ho
      rcases List.mem_or_eq_of_mem_set ho with h1 | h1
      · exact hinv.2 o h1
      · subst h1
        have hn : names.Nodup := hinv.2 _ (List.getElem?_mem hget)
        rw [List.nodup_append]
        refine ⟨hn, by simp, ?_⟩
        intro a ha hb
        rw [List.mem_singleton] at hb
        exact hfresh (hb ▸ ha)
  case fileBegin name => rw [h]; exact ⟨List.nodup_nil, by simp⟩
  case clear => rw [h]; exact ⟨List.nodup_nil, by simp⟩
  all_goals (rw [h]; exact hinv)

theorem outline_nodup_run (events : List Event) (s s' : MDLBuilder)
    (h : run s events = some s')
    (hinv : (s.outline.map Prod.fst).Nodup ∧ ∀ o ∈ s.outline, o.2.Nodup) :
    (s'.outline.map Prod.fst).Nodup ∧ ∀ o ∈ s'.outline, o.2.Nodup := by
  induction events generalizing s with
  | nil =>
    simp only [run, Option.some.injEq] at h
    exact h ▸ hinv
  | cons e rest ih =>
    simp only [run, Option.bind_eq_some] at h
    obtain ⟨s1, h1, h2⟩ := h
    exact ih s1 h2 (outline_nodup_step s s1 e (step_outline s s1 e h1) hinv)

/-- C13: `materialBegin` is rejected when the local name it extracts (the text after the last
`:`) is the name of a material of the list, `parameterBegin` is rejected when its name is the
name of a parameter of the current material, and in every reachable state the names of the
materials are pairwise distinct, as are the parameter names of each material. -/
theorem names_pairwise_distinct :
    (∀ (s : MDLBuilder) (name : Str) (hash : Nat × Nat × Nat × Nat),
      (∃ md ∈ s.m_materials,
        md.name = substr name (sizeT (((find_last_of name ':' npos : Nat) : Int) + 1)) npos) →
      materialBegin s name hash = none)
    ∧ (∀ (s : MDLBuilder) (index : Nat) (modifier type name : Str) (m : MaterialData),
      s.currentMaterial = some m → (∃ pd ∈ m.parameters, pd.name = name) →
      parameterBegin s index modifier type name = none)
    ∧ (∀ s : MDLBuilder, Reachable s →
      (s.m_materials.map fun m => m.name).Nodup
      ∧ ∀ m ∈ s.m_materials, (m.parameters.map fun p => p.name).Nodup) := by
  refine ⟨?_, ?_, ?_⟩
  · rintro s name hash ⟨md, hmd, hname⟩
    cases hres : materialBegin s name hash with
    | none => rfl
    | some r =>
      obtain ⟨b, s'⟩ := r
      exact absurd hname ((materialBegin_eq_some _ _ _ _ _ hres).1 md hmd)
  · rintro s index modifier type name m hm ⟨pd, hpd, hname⟩
    cases hres : parameterBegin s index modifier type name with
    | none => rfl
    | some r =>
      obtain ⟨b, s'⟩ := r
      obtain ⟨mi, m0, typeName, hmi, hm0, -, hfresh, -, -⟩ :=
        parameterBegin_eq_some _ _ _ _ _ _ _ hres
      obtain ⟨mi1, hmi1, hm1⟩ := (currentMaterial_eq_some_iff s m).mp hm
      rw [hmi] at hmi1
      cases hmi1
      rw [hm0] at hm1
      cases hm1
      exact absurd hname (hfresh pd hpd)
  · rintro s ⟨events, hrun⟩
    have h := outline_nodup_run events MDLBuilder.new s hrun
      ⟨by simp [MDLBuilder.outline, MDLBuilder.new], by simp [MDLBuilder.outline, MDLBuilder.new]⟩
    refine ⟨?_, ?_⟩
    · have h1 := h.1
      simp only [MDLBuilder.outline, List.map_map] at h1
      exact h1
    · intro m hm
      exact h.2 (m.name, m.parameters.map fun p => p.name)
        (List.mem_map.mpr ⟨m, hm, rfl⟩)

/-- The claim C13 at work: after the material `mat` with the parameters `a` and `b` is
completed, a second `materialBegin` for `mat` is rejected; a second parameter `roughness` is
rejected; and the names of the completed material are distinct. -/
theorem names_pairwise_distinct_witness :
    materialBegin twoParameterState "mdl::pkg::mat".toList (0, 0, 0, 0) = none
    ∧ parameterBegin referenceState 1 [] "float".toList "roughness".toList = none
    ∧ Reachable twoParameterState
    ∧ twoParameterState.outline = [("mat".toList, ["a".toList, "b".toList])]
    ∧ ((twoParameterState.m_materials.map fun m => m.name).Nodup
      ∧ ∀ m ∈ twoParameterState.m_materials, (m.parameters.map fun p => p.name).Nodup) :=
  ⟨names_pairwise_distinct.1 twoParameterState "mdl::pkg::mat".toList (0, 0, 0, 0)
      ⟨_, List.getElem?_mem (rfl : twoParameterState.m_materials[0]? = some _), rfl⟩,
    names_pairwise_distinct.2.1 referenceState 1 [] "float".toList "roughness".toList _ rfl
      ⟨_, List.getElem?_mem (rfl : (referenceState.m_materials[0]?.bind
        fun m => m.parameters[0]?) = some _), rfl⟩,
    ⟨twoParameterEvents, rfl⟩, rfl,
    names_pairwise_distinct.2.2 twoParameterState ⟨twoParameterEvents, rfl⟩⟩

/-! ## C20: the text written for a material -/

/-- C20: for a material without parameters `main` writes the header and `()` only, whatever
its annotations, temporaries and fields are. The completed material `mat` with the field
`surface` and no parameter gets no field body, while the same material with one parameter
gets the body with the pair `surface : ...`. -/
theorem emitMaterial_without_parameters
    (format : MaterialData → Option ExpressionData → Nat → Option Str)
    (type : MaterialData → ExpressionData → Option Str) :
    (∀ (hash : Nat × Nat × Nat × Nat) (name : Str) (annotations temporaries : List ExpressionData)
        (fields : List (Str × Option ExpressionData)),
      emitMaterial format type
        { hash := hash, name := name, parameters := [], annotations := annotations,
          temporaries := temporaries, fields := fields }
        = some ("export material ".toList ++ name ++ "()\n\n".toList))
    ∧ run MDLBuilder.new fieldOnlyEvents = some fieldOnlyState
    ∧ (fieldOnlyState.m_materials.map fun m =>
        (m.name, m.parameters.length, m.fields.map Prod.fst, emitMaterial format type m))
      = [("mat".toList, 0, ["surface".toList], some "export material mat()\n\n".toList)]
    ∧ run MDLBuilder.new parameterFieldEvents = some parameterFieldState
    ∧ (parameterFieldState.m_materials.map fun m =>
        (m.name, m.parameters.length, m.fields.map Prod.fst,
          emitMaterial (fun _ _ _ => some "E".toList) (fun _ _ => some "T".toList) m))
      = [("mat".toList, 1, ["surface".toList], some
          "export material mat\n(\n  float a = E\n\n)\n= material\n(\n  surface : E\n);\n\n".toList)] := by
  refine ⟨?_, rfl, rfl, rfl, ?_⟩
  · intro hash name annotations temporaries fields
    simp [emitMaterial, endl]
  · decide

/-! ## C29: the leaf kinds that are not implemented -/

theorem run_append (s : MDLBuilder) (l1 l2 : List Event) :
    run s (l1 ++ l2) = (run s l1).bind fun s1 => run s1 l2 := by
  induction l1 generalizing s with
  | nil => simp [run]
  | cons e rest ih =>
    simp only [List.cons_append, run]
    cases step s e with
    | none => rfl
    | some s1 => exact ih s1

/-- C29: in every builder state `valueBsdfMeasurement(v)` and `valueLightProfile(v)` fail for
every argument `v`; so no accepted sequence of events holds one of them, and no state with a
value pushed by them arises. -/
theorem unimplemented_values_fail (s : MDLBuilder) (v : Str) :
    valueBsdfMeasurement s v = none ∧ valueLightProfile s v = none
    ∧ (∀ before after : List Event,
        run s (before ++ Event.valueBsdfMeasurement v :: after) = none
        ∧ run s (before ++ Event.valueLightProfile v :: after) = none) := by
  refine ⟨rfl, rfl, ?_⟩
  intro before after
  constructor
  · rw [run_append]
    cases run s before with
    | none => rfl
    | some s1 => rfl
  · rw [run_append]
    cases run s before with
    | none => rfl
    | some s1 => rfl

/-! ## C25: numbers -/

theorem toDigitsCore_eq (fuel n : Nat) (ds : List Char) (hn : 0 < n) (hf : n < fuel) :
    Nat.toDigitsCore 10 fuel n ds = ((Nat.digits 10 n).reverse.map Nat.digitChar) ++ ds := by
  induction fuel generalizing n ds with
  | zero => omega
  | succ fuel ih =>
    rw [Nat.toDigitsCore]
    rw [Nat.digits_def' (by decide) hn]
    by_cases h0 : n / 10 = 0
    · rw [if_pos h0, h0]
      simp
    · rw [if_neg h0, ih (n / 10) _ (Nat.pos_of_ne_zero h0) (by omega)]
      simp

theorem decimal_zero : decimal 0 = ['0'] := rfl

theorem decimal_pos (n : Nat) (hn : 0 < n) :
    decimal n = (Nat.digits 10 n).reverse.map Nat.digitChar := by
  unfold decimal Nat.toDigits
  rw [toDigitsCore_eq (n + 1) n [] hn (by omega)]
  simp

theorem digitChar_mem (d : Nat) (hd : d < 10) : Nat.digitChar d ∈ "0123456789".toList := by
  interval_cases d <;> decide

theorem decimal_digits (n : Nat) : ∀ c ∈ decimal n, c ∈ "0123456789".toList := by
  intro c hc
  rcases Nat.eq_zero_or_pos n with h | h
  · subst h
    rw [decimal_zero, List.mem_singleton] at hc
    subst hc
    decide
  · rw [decimal_pos n h] at hc
    simp only [List.mem_map, List.mem_reverse] at hc
    obtain ⟨d, hd, rfl⟩ := hc
    exact digitChar_mem d (Nat.digits_lt_base (by decide) hd)

theorem decimal_ne_nil (n : Nat) : decimal n ≠ [] := by
  rcases Nat.eq_zero_or_pos n with h | h
  · subst h
    rw [decimal_zero]
    simp
  · rw [decimal_pos n h]
    simp only [ne_eq, List.map_eq_nil_iff, List.reverse_eq_nil_iff]
    exact Nat.digits_ne_nil_iff_ne_zero.2 (by omega)

theorem exponentDigits_spec (n : Nat) :
    exponentDigits n ≠ [] ∧ ∀ c ∈ exponentDigits n, c ∈ "0123456789".toList := by
  unfold exponentDigits
  split
  · refine ⟨by simp, ?_⟩
    intro c hc
    rcases List.mem_cons.mp hc with h | h
    · subst h; decide
    · exact decimal_digits _ c h
  · exact ⟨decimal_ne_nil n, decimal_digits n⟩

/-- The shape of the conversion of a positive value: digits, the point, digits, and the
exponent of the style `e`. -/
theorem generalText_shape (digits : Nat) (X : Int) :
    ∃ whole fraction exponent : Str,
      generalText digits X = whole ++ ".".toList ++ fraction ++ exponent
        ∧ whole ≠ [] ∧ (∀ c ∈ whole, c ∈ "0123456789".toList)
        ∧ (∀ c ∈ fraction, c ∈ "0123456789".toList)
        ∧ (exponent = [] ∨ ∃ (sign : Char) (ds : Str), (sign = '+' ∨ sign = '-')
            ∧ ds ≠ [] ∧ (∀ c ∈ ds, c ∈ "0123456789".toList)
            ∧ exponent = 'e' :: sign :: ds) := by
  have htake : ∀ k, (decimal digits).take (k + 1) ≠ [] := by
    intro k h
    rw [List.take_eq_nil_iff] at h
    rcases h with h | h
    · omega
    · exact decimal_ne_nil digits h
  unfold generalText
  split
  · split
    · exact ⟨_, _, [], by rw [List.append_nil], htake _,
        fun c hc => decimal_digits _ c (List.mem_of_mem_take hc),
        fun c hc => decimal_digits _ c (List.mem_of_mem_drop hc), Or.inl rfl⟩
    · refine ⟨"0".toList, _, [], by rw [List.append_nil], by simp, by decide, ?_, Or.inl rfl⟩
      intro c hc
      rcases List.mem_append.mp hc with h | h
      · rw [List.eq_of_mem_replicate h]
        decide
      · exact decimal_digits _ c h
  · refine ⟨_, _, _, rfl, htake 0,
      fun c hc => decimal_digits _ c (List.mem_of_mem_take hc),
      fun c hc => decimal_digits _ c (List.mem_of_mem_drop hc), Or.inr ?_⟩
    obtain ⟨hne, hds⟩ := exponentDigits_spec X.natAbs
    split
    · exact ⟨'-', _, Or.inr rfl, hne, hds, rfl⟩
    · exact ⟨'+', _, Or.inl rfl, hne, hds, rfl⟩

theorem showpointMagnitude_shape (num den : Nat) :
    ∃ whole fraction exponent : Str,
      showpointMagnitude num den = whole ++ ".".toList ++ fraction ++ exponent
        ∧ whole ≠ [] ∧ (∀ c ∈ whole, c ∈ "0123456789".toList)
        ∧ (∀ c ∈ fraction, c ∈ "0123456789".toList)
        ∧ (exponent = [] ∨ ∃ (sign : Char) (ds : Str), (sign = '+' ∨ sign = '-')
            ∧ ds ≠ [] ∧ (∀ c ∈ ds, c ∈ "0123456789".toList)
            ∧ exponent = 'e' :: sign :: ds) := by
  unfold showpointMagnitude
  split
  · exact ⟨"0".toList, "00000".toList, [], by rw [List.append_nil], by simp, by decide,
      by decide, Or.inl rfl⟩
  · dsimp only
    split
    · exact generalText_shape _ _
    · exact generalText_shape _ _

/-- The text of a finite float on a stream with `std::showpoint` is a decimal text with an
explicit point. -/
theorem showpointText_decimal (x : FloatBits) (h : x.isFinite = true) :
    DecimalText (showpointText x) := by
  have hexp : (x.bits / 2 ^ 23) % 256 ≠ 255 := by
    simpa [FloatBits.isFinite] using h
  have hshape : ∀ (minus : Str) (num den : Nat), (minus = [] ∨ minus = "-".toList) →
      DecimalText (minus ++ showpointMagnitude num den) := by
    intro minus num den hminus
    obtain ⟨whole, fraction, exponent, htext, h1, h2, h3, h4⟩ := showpointMagnitude_shape num den
    refine ⟨minus, whole, fraction, exponent, ?_, hminus, h1, h2, h3, h4⟩
    rw [htext]
    simp only [List.append_assoc]
  have hminus : (if (x.bits / 2 ^ 31) % 2 = 1 then "-".toList else []) = []
      ∨ (if (x.bits / 2 ^ 31) % 2 = 1 then "-".toList else []) = "-".toList := by
    split
    · exact Or.inr rfl
    · exact Or.inl rfl
  unfold showpointText
  dsimp only
  rw [if_neg hexp]
  generalize (if (x.bits / 2 ^ 31) % 2 = 1 then "-".toList else []) = minus at hminus ⊢
  by_cases h0 : (x.bits / 2 ^ 23) % 256 = 0
  · rw [if_pos h0]
    exact hshape _ _ _ hminus
  · rw [if_neg h0]
    by_cases h1 : (x.bits / 2 ^ 23) % 256 < 150
    · rw [if_pos h1]
      exact hshape _ _ _ hminus
    · rw [if_neg h1]
      exact hshape _ _ _ hminus

theorem decimalText_point (text : Str) (h : DecimalText text) : '.' ∈ text := by
  obtain ⟨minus, whole, fraction, exponent, rfl, -⟩ := h
  simp

/-- The host of the examples writes its two floats as the C++ library does. -/
theorem exampleHost_agrees :
    exampleHost.printFloat (FloatBits.mk 0x40000000) = showpointText (FloatBits.mk 0x40000000)
      ∧ exampleHost.printFloat (FloatBits.mk 0x3f000000)
          = showpointText (FloatBits.mk 0x3f000000) :=
  ⟨by decide, by decide⟩

/-- C25: an Int value is written as its decimal representation: an optional minus sign and
the base 10 digits of its absolute value, most significant first (`0` for zero), so that the
text holds neither `.` nor `f`. A Float value is written as the text of `operator<<` followed
by `f`, so the text ends in `f`. For every finite float the text of `operator<<` on the
stream of `format` (`std::showpoint`, precision 6) is a decimal text with an explicit point:
an optional minus sign, at least one digit, `.`, digits, and possibly an exponent. -/
theorem formatValue_numbers (host : Host) (home : Str) :
    (∀ n : Int, formatValue host (ValueDataInt n) = some (decimalInt n)
      ∧ decimalInt n = (if n < 0 then ['-'] else []) ++
          (if n = 0 then ['0'] else (Nat.digits 10 n.natAbs).reverse.map Nat.digitChar)
      ∧ '.' ∉ decimalInt n ∧ 'f' ∉ decimalInt n)
    ∧ (∀ x : FloatBits, ∃ text, formatValue host (ValueDataFloat x) = some text
      ∧ text = host.printFloat x ++ ['f']
      ∧ text.getLast? = some 'f')
    ∧ (∀ x : FloatBits, x.isFinite = true →
      ∃ text, formatValue (standardHost home) (ValueDataFloat x) = some text
        ∧ text = showpointText x ++ ['f']
        ∧ DecimalText (showpointText x)
        ∧ '.' ∈ text
        ∧ text.getLast? = some 'f') := by
  refine ⟨?_, ?_, ?_⟩
  · intro n
    have hrep : decimalInt n = (if n < 0 then ['-'] else []) ++
        (if n = 0 then ['0'] else (Nat.digits 10 n.natAbs).reverse.map Nat.digitChar) := by
      unfold decimalInt
      by_cases h0 : n = 0
      · subst h0; rfl
      · have hpos : 0 < n.natAbs := Int.natAbs_pos.mpr h0
        rw [decimal_pos _ hpos, if_neg h0]
        split <;> rfl
    have hchars : ∀ c ∈ decimalInt n, c = '-' ∨ c ∈ "0123456789".toList := by
      intro c hc
      unfold decimalInt at hc
      split at hc
      · rcases List.mem_cons.mp hc with h | h
        · exact Or.inl h
        · exact Or.inr (decimal_digits _ c h)
      · exact Or.inr (decimal_digits _ c hc)
    refine ⟨rfl, hrep, ?_, ?_⟩
    · intro h
      rcases hchars _ h with h1 | h1
      · exact absurd h1 (by decide)
      · exact absurd h1 (by decide)
    · intro h
      rcases hchars _ h with h1 | h1
      · exact absurd h1 (by decide)
      · exact absurd h1 (by decide)
  · intro x
    exact ⟨_, rfl, rfl, by simp⟩
  · intro x hx
    have hd := showpointText_decimal x hx
    exact ⟨_, rfl, rfl, hd, List.mem_append_left _ (decimalText_point _ hd), by simp⟩

/-- The claim C25 at work: the float 2.0 gives `2.00000f`, the integers 2 and -40 give `2`
and `-40`; further floats show the two styles, the rounding and the sign. -/
theorem formatValue_numbers_witness :
    formatValue exampleHost (ValueDataInt 2) = some "2".toList
    ∧ formatValue exampleHost (ValueDataInt (-40)) = some "-40".toList
    ∧ (FloatBits.mk 0x40000000).isFinite = true
    ∧ (∃ text, formatValue (standardHost []) (ValueDataFloat (FloatBits.mk 0x40000000))
          = some text
        ∧ text = showpointText (FloatBits.mk 0x40000000) ++ ['f']
        ∧ DecimalText (showpointText (FloatBits.mk 0x40000000))
        ∧ '.' ∈ text ∧ text.getLast? = some 'f')
    ∧ formatValue (standardHost []) (ValueDataFloat (FloatBits.mk 0x40000000))
        = some "2.00000f".toList
    ∧ showpointText (FloatBits.mk 0x3f000000) = "0.500000".toList
    ∧ showpointText (FloatBits.mk 0x3dcccccd) = "0.100000".toList
    ∧ showpointText (FloatBits.mk 0x3727c5ac) = "1.00000e-05".toList
    ∧ showpointText (FloatBits.mk 0x47f1205a) = "123457.".toList
    ∧ showpointText (FloatBits.mk 0x501502f9) = "1.00000e+10".toList
    ∧ showpointText (FloatBits.mk 0x4996b428) = "1.23456e+06".toList
    ∧ showpointText (FloatBits.mk 0x4996b478) = "1.23458e+06".toList
    ∧ showpointText (FloatBits.mk 0x497423f8) = "1.00000e+06".toList
    ∧ showpointText (FloatBits.mk 0x80000000) = "-0.00000".toList
    ∧ showpointText (FloatBits.mk 0x00000001) = "1.40130e-45".toList
    ∧ showpointText (FloatBits.mk 0x7f7fffff) = "3.40282e+38".toList :=
  ⟨((formatValue_numbers exampleHost []).1 2).1,
    ((formatValue_numbers exampleHost []).1 (-40)).1,
    by decide,
    (formatValue_numbers exampleHost []).2.2 (FloatBits.mk 0x40000000) (by decide),
    by decide, by decide, by decide, by decide, by decide, by decide, by decide, by decide,
    by decide, by decide, by decide, by decide⟩

/-! ## `replaceAll` with a single character to replace -/

theorem findStrFrom_char (a : Char) (rest : Str) (i : Nat) :
    findStrFrom [a] rest i = if a ∈ rest then i + rest.indexOf a else npos := by
  induction rest generalizing i with
  | nil => simp [findStrFrom]
  | cons c rest ih =>
    rw [findStrFrom]
    by_cases hc : c = a
    · subst hc
      simp [List.isPrefixOf]
    · have hc' : a ≠ c := fun h => hc h.symm
      have hpre : ([a] : Str).isPrefixOf (c :: rest) = false := by
        simp [List.isPrefixOf, hc']
      rw [hpre, ih]
      simp only [Bool.false_eq_true, if_false, List.mem_cons, hc', false_or]
      split
      · rw [List.indexOf_cons_ne _ hc]
        omega
      · rfl

theorem findStr_char (a : Char) (done rest : Str) :
    findStr (done ++ rest) [a] done.length
      = if a ∈ rest then done.length + rest.indexOf a else npos := by
  unfold findStr
  rw [if_neg (by simp), List.drop_left' rfl, findStrFrom_char]

theorem flatMap_eq_self_of_not_mem (a : Char) (dst l : Str) (h : a ∉ l) :
    (l.flatMap fun c => if c = a then dst else [c]) = l := by
  induction l with
  | nil => rfl
  | cons c rest ih =>
    simp only [List.mem_cons, not_or] at h
    have hc : c ≠ a := fun e => h.1 e.symm
    simp only [List.flatMap_cons, if_neg hc, ih h.2, List.singleton_append]

theorem exists_first_split (c : Char) (s : Str) (h : c ∈ s) :
    ∃ pre post, s = pre ++ c :: post ∧ c ∉ pre := by
  induction s with
  | nil => cases h
  | cons x rest ih =>
    by_cases hx : x = c
    · exact ⟨[], rest, by simp [hx], by simp⟩
    · have hr : c ∈ rest := by
        rcases List.mem_cons.mp h with h1 | h1
        · exact absurd h1.symm hx
        · exact h1
      obtain ⟨pre, post, hs, hp⟩ := ih hr
      refine ⟨x :: pre, post, by simp [hs], ?_⟩
      simp only [List.mem_cons, not_or]
      exact ⟨fun e => hx e.symm, hp⟩

theorem replaceAllLoop_char (a : Char) (dst : Str) (fuel : Nat) (done rest : Str)
    (hfuel : rest.length < fuel)
    (hlen : (done ++ rest.flatMap fun c => if c = a then dst else [c]).length < npos) :
    replaceAllLoop [a] dst fuel (done ++ rest) (findStr (done ++ rest) [a] done.length)
      = some (done ++ rest.flatMap fun c => if c = a then dst else [c]) := by
  induction fuel generalizing done rest with
  | zero => omega
  | succ fuel ih =>
    rw [findStr_char, replaceAllLoop]
    by_cases hmem : a ∈ rest
    · obtain ⟨pre, post, hsplit, hpre⟩ := exists_first_split a rest hmem
      subst hsplit
      have hflat : ((pre ++ a :: post).flatMap fun c => if c = a then dst else [c])
          = pre ++ dst ++ post.flatMap fun c => if c = a then dst else [c] := by
        simp only [List.flatMap_append, List.flatMap_cons,
          flatMap_eq_self_of_not_mem a dst pre hpre, List.append_assoc, if_true]
      rw [hflat] at hlen ⊢
      rw [if_pos hmem, indexOf_append_cons a pre post hpre]
      have hpos : done.length + pre.length ≠ npos := by
        simp only [List.length_append] at hlen
        omega
      rw [if_pos hpos]
      simp only
      have hout : (done ++ (pre ++ a :: post)).take (done.length + pre.length) ++ dst
          ++ (done ++ (pre ++ a :: post)).drop (done.length + pre.length + [a].length)
          = (done ++ pre ++ dst) ++ post := by
        have h1 : (done ++ (pre ++ a :: post)).take (done.length + pre.length) = done ++ pre := by
          rw [← List.append_assoc]
          exact List.take_left' (by simp)
        have h2 : (done ++ (pre ++ a :: post)).drop (done.length + pre.length + [a].length)
            = post := by
          rw [show done ++ (pre ++ a :: post) = (done ++ pre ++ [a]) ++ post by simp]
          exact List.drop_left' (by simp; omega)
        rw [h1, h2]
      rw [hout]
      have hidx : done.length + pre.length + dst.length = (done ++ pre ++ dst).length := by
        simp only [List.length_append]
      rw [hidx, ih (done ++ pre ++ dst) post (by simp at hfuel; omega)
        (by simpa [List.append_assoc] using hlen)]
      simp [List.append_assoc]
    · rw [if_neg hmem, if_neg (by simp), flatMap_eq_self_of_not_mem a dst rest hmem]

theorem replaceAll_char (a : Char) (dst s : Str)
    (hlen : (s.flatMap fun c => if c = a then dst else [c]).length < npos) :
    replaceAll [a] dst s = some (s.flatMap fun c => if c = a then dst else [c]) := by
  have h := replaceAllLoop_char a dst (s.length + 1) [] s (by omega) (by simpa using hlen)
  simpa [replaceAll] using h

/-! ## C26: strings -/

theorem escape_length (s : Str) :
    (s.flatMap fun c => if c = '"' then ['\\', '"'] else [c]).length
      = s.length + (s.filter fun c => c = '"').length := by
  induction s with
  | nil => rfl
  | cons c rest ih =>
    by_cases hc : c = '"'
    · simp only [List.flatMap_cons, if_pos hc, List.length_append, ih, List.length_cons,
        List.length_nil, List.filter_cons, hc, decide_True, if_true]
      omega
    · simp only [List.flatMap_cons, if_neg hc, List.length_append, ih, List.length_cons,
        List.length_nil, List.filter_cons, hc, decide_False]
      simp
      omega

theorem getLast?_cons_of_getLast? (x y : Char) (l : Str) (h : l.getLast? = some y) :
    (x :: l).getLast? = some y := by
  cases l with
  | nil => cases h
  | cons z rest => rw [List.getLast?_cons_cons]; exact h

theorem escape_quote_preceded (s pre post : Str)
    (h : (s.flatMap fun c => if c = '"' then ['\\', '"'] else [c]) = pre ++ '"' :: post) :
    pre.getLast? = some '\\' := by
  induction s generalizing pre with
  | nil =>
    simp at h
  | cons c rest ih =>
    by_cases hc : c = '"'
    · simp only [List.flatMap_cons, if_pos hc, List.cons_append, List.nil_append] at h
      match pre, h with
      | [], h => simp at h
      | [x], h =>
        simp only [List.cons_append, List.nil_append, List.cons.injEq] at h
        rw [← h.1]; rfl
      | x :: y :: pre1, h =>
        simp only [List.cons_append, List.cons.injEq] at h
        have := ih pre1 h.2.2
        exact getLast?_cons_of_getLast? x _ _ (getLast?_cons_of_getLast? y _ _ this)
    · simp only [List.flatMap_cons, if_neg hc, List.cons_append, List.nil_append] at h
      match pre, h with
      | [], h =>
        simp only [List.nil_append, List.cons.injEq] at h
        exact absurd h.1 hc
      | x :: pre1, h =>
        simp only [List.cons_append, List.cons.injEq] at h
        exact getLast?_cons_of_getLast? x _ _ (ih pre1 h.2)

/-- C26: for every string value `s`, `format` yields `"` ++ e ++ `"`, where `e` is `s` with
every `"` replaced by a backslash and `"` and every other character kept; the length of the
text is `|s| + 2 +` the number of `"` in `s`, and every `"` strictly inside the text follows
a backslash. -/
theorem formatValue_string (host : Host) (s : Str) (hlen : 2 * s.length < 2 ^ 64 - 1) :
    ∃ e text : Str, e = (s.flatMap fun c => if c = '"' then ['\\', '"'] else [c])
      ∧ formatValue host (ValueDataString s) = some text
      ∧ text = '"' :: e ++ ['"']
      ∧ text.length = s.length + 2 + (s.filter fun c => c = '"').length
      ∧ ∀ pre post : Str, text = pre ++ '"' :: post → pre ≠ [] → post ≠ [] →
          pre.getLast? = some '\\' := by
  have hfil : (s.filter fun c => c = '"').length ≤ s.length := List.length_filter_le _ _
  have hrep : replaceAll "\"".toList "\\\"".toList s
      = some (s.flatMap fun c => if c = '"' then ['\\', '"'] else [c]) :=
    replaceAll_char '"' ['\\', '"'] s (by rw [escape_length]; unfold npos; omega)
  refine ⟨_, _, rfl, ?_, rfl, ?_, ?_⟩
  · simp only [formatValue, hrep, Option.bind_eq_bind, Option.some_bind, pure]
    rfl
  · simp only [List.length_cons, List.length_append, escape_length, List.length_nil]
    omega
  · intro pre post h hpre hpost
    match pre, hpre, h with
    | x :: pre1, _, h =>
      simp only [List.cons_append, List.cons.injEq] at h
      obtain ⟨-, h⟩ := h
      have hp : post = post.dropLast ++ [post.getLast hpost] :=
        (List.dropLast_append_getLast hpost).symm
      rw [hp, show pre1 ++ '"' :: (post.dropLast ++ [post.getLast hpost])
        = (pre1 ++ '"' :: post.dropLast) ++ [post.getLast hpost] by simp] at h
      have h2 := (List.append_inj' h rfl).1
      exact getLast?_cons_of_getLast? x _ _ (escape_quote_preceded s pre1 _ h2)

/-- The claim C26 at work on the string `say "hi"`. -/
theorem formatValue_string_witness :
    ∃ e text : Str, e = "say \\\"hi\\\"".toList
      ∧ formatValue ⟨fun _ => [], []⟩ (ValueDataString "say \"hi\"".toList) = some text
      ∧ text = '"' :: e ++ ['"']
      ∧ text.length = 8 + 2 + 2
      ∧ ∀ pre post : Str, text = pre ++ '"' :: post → pre ≠ [] → post ≠ [] →
          pre.getLast? = some '\\' :=
  formatValue_string ⟨fun _ => [], []⟩ "say \"hi\"".toList (by decide)

/-! ## C27: enum values -/

/-- C27: `format` writes the name space of an Enum value and `::` in front of the symbol
unless the name space is the string `::`; the test is not on an empty name space. So the
value `red` of the enum type `::E`, whose name space is empty, is written `::red`. -/
theorem formatValue_enum_empty_namespace (host : Host) :
    (∀ type sym : Str, formatValue host (ValueDataEnum [] type sym) = some ("::".toList ++ sym))
    ∧ (∀ type sym : Str,
        formatValue host (ValueDataEnum "::".toList type sym) = some sym)
    ∧ (run MDLBuilder.new [Event.valueEnum "::E".toList 0 "red".toList]).map
        (fun s => s.m_currentExpression)
      = some [ExpressionDataConstant (ValueDataEnum [] "e".toList "red".toList)]
    ∧ format host ⟨(0, 0, 0, 0), [], [], [], [], []⟩
        (ExpressionDataConstant (ValueDataEnum [] "e".toList "red".toList)) 0
      = some "::red".toList
    ∧ format host ⟨(0, 0, 0, 0), [], [], [], [], []⟩
        (ExpressionDataArray [] "e".toList []) 0 = some "e[]()".toList :=
  ⟨fun _ _ => rfl, fun _ _ => rfl, rfl, rfl, rfl⟩

/-! ## C28: textures -/

theorem flatMap_single_eq_map (a b : Char) (s : Str) :
    (s.flatMap fun c => if c = a then [b] else [c]) = s.map fun c => if c = a then b else c := by
  induction s with
  | nil => rfl
  | cons c rest ih =>
    simp only [List.flatMap_cons, List.map_cons, ih]
    split <;> rfl

theorem replaceAll_slash (s : Str) (hlen : s.length < 2 ^ 64 - 1) :
    replaceAll "\\".toList "/".toList s = some (s.map fun c => if c = '\\' then '/' else c) := by
  have h := replaceAll_char '\\' ['/'] s
    (by rw [flatMap_single_eq_map, List.length_map]; exact hlen)
  rw [flatMap_single_eq_map] at h
  exact h

theorem findStrFrom_ge (str rest : Str) (i : Nat) :
    findStrFrom str rest i = npos ∨ i ≤ findStrFrom str rest i := by
  induction rest generalizing i with
  | nil =>
    rw [findStrFrom]
    split
    · exact Or.inr (Nat.le_refl _)
    · exact Or.inl rfl
  | cons c rest ih =>
    rw [findStrFrom]
    split
    · exact Or.inr (Nat.le_refl _)
    · rcases ih (i + 1) with h | h
      · exact Or.inl h
      · exact Or.inr (by omega)

theorem findStr_zero_iff (s str : Str) : findStr s str 0 = 0 ↔ str <+: s := by
  unfold findStr
  rw [if_neg (by omega), List.drop_zero]
  cases s with
  | nil =>
    rw [findStrFrom]
    constructor
    · intro h
      split at h
      · rename_i he; rw [he]
      · exact absurd h (by decide)
    · intro h
      rw [if_pos (List.prefix_nil.mp h)]
  | cons c rest =>
    rw [findStrFrom]
    by_cases hp : str.isPrefixOf (c :: rest) = true
    · rw [if_pos hp]
      exact ⟨fun _ => List.isPrefixOf_iff_prefix.mp hp, fun _ => rfl⟩
    · rw [if_neg hp]
      constructor
      · intro h
        rw [Nat.zero_add] at h
        rcases findStrFrom_ge str rest 1 with h1 | h1
        · rw [h1] at h; exact absurd h (by decide)
        · omega
      · intro h
        exact absurd (List.isPrefixOf_iff_prefix.mpr h) hp

theorem stripLeft_eq (strip source : Str) (hlen : source.length < 2 ^ 64 - 1) :
    stripLeft strip source = if strip <+: source then source.drop strip.length else source := by
  unfold stripLeft
  by_cases h : strip <+: source
  · rw [if_pos h]
    have : findStr source strip 0 = 0 := (findStr_zero_iff source strip).mpr h
    simp only [this, beq_self_eq_true, if_true, substr]
    exact List.take_of_length_le (by simp [npos]; omega)
  · rw [if_neg h]
    have : findStr source strip 0 ≠ 0 := fun e => h ((findStr_zero_iff source strip).mp e)
    simp [this]

theorem gammaText_injective (g1 g2 : GammaMode) (rest1 rest2 : Str)
    (h : gammaText g1 ++ ')' :: rest1 = gammaText g2 ++ ')' :: rest2) : g1 = g2 := by
  cases g1 <;> cases g2 <;> first | rfl | (exfalso; revert h; simp [gammaText])

/-- C28: `valueTexture(p, g)` pushes a Texture constant that holds the path `p` and the gamma
mode `g`; for such a value `format` yields `texture_2d("` ++ q ++ `", tex::gamma_` ++ m ++ `)`,
where q is `p` with every backslash replaced by `/` and then without the media prefix (the
home path with `/` for every backslash, followed by `/media/effects/mdl/`) when it starts
with that prefix, and m is `default`, `linear` or `srgb`; q holds no backslash, and two
different gamma modes give different texts. -/
theorem texture_spec (host : Host) (p : Str) (g : GammaMode)
    (hp : p.length < 2 ^ 64 - 1) (hhome : host.home.length < 2 ^ 64 - 1) :
    (∀ s : MDLBuilder, ∃ s1, valueTexture s p g = some s1
      ∧ s1.m_currentExpression
          = ExpressionDataConstant (ValueDataTexture p g) :: s.m_currentExpression)
    ∧ ∃ q0 media q text : Str,
        q0 = (p.map fun c => if c = '\\' then '/' else c)
        ∧ media = (host.home.map fun c => if c = '\\' then '/' else c)
            ++ "/media/effects/mdl/".toList
        ∧ q = (if media <+: q0 then q0.drop media.length else q0)
        ∧ formatValue host (ValueDataTexture p g) = some text
        ∧ text = "texture_2d(\"".toList ++ q ++ "\", tex::gamma_".toList ++ gammaText g
            ++ ")".toList
        ∧ gammaText GammaMode.DEFAULT = "default".toList
        ∧ gammaText GammaMode.LINEAR = "linear".toList
        ∧ gammaText GammaMode.SRGB = "srgb".toList
        ∧ '\\' ∉ q
        ∧ ∀ g2 : GammaMode, g2 ≠ g → formatValue host (ValueDataTexture p g2) ≠ some text := by
  have hq0 : '\\' ∉ (p.map fun c => if c = '\\' then '/' else c) := by
    intro h
    obtain ⟨c, -, hc⟩ := List.mem_map.mp h
    split at hc
    · exact absurd hc (by decide)
    · rename_i hne; exact hne hc
  have hfmt : ∀ g2 : GammaMode, formatValue host (ValueDataTexture p g2)
      = some ("texture_2d(\"".toList
        ++ (if ((host.home.map fun c => if c = '\\' then '/' else c)
              ++ "/media/effects/mdl/".toList) <+: (p.map fun c => if c = '\\' then '/' else c)
            then (p.map fun c => if c = '\\' then '/' else c).drop
              ((host.home.map fun c => if c = '\\' then '/' else c)
                ++ "/media/effects/mdl/".toList).length
            else (p.map fun c => if c = '\\' then '/' else c))
        ++ "\", tex::gamma_".toList ++ gammaText g2 ++ ")".toList) := by
    intro g2
    simp only [formatValue, replaceAll_slash p hp, replaceAll_slash host.home hhome,
      Option.bind_eq_bind, Option.some_bind, pure]
    rw [stripLeft_eq _ _ (by rw [List.length_map]; exact hp)]
  refine ⟨?_, _, _, _, _, rfl, rfl, rfl, hfmt g, rfl, rfl, rfl, rfl, ?_, ?_⟩
  · intro s
    refine ⟨_, rfl, ?_⟩
    obtain ⟨imports, h⟩ := registerImport_frame s "tex".toList "gamma_mode".toList
    rw [h]
    rfl
  · split
    · exact fun h => hq0 (List.mem_of_mem_drop h)
    · exact hq0
  · intro g2 hne h
    rw [hfmt g2, Option.some.injEq] at h
    simp only [List.append_assoc] at h
    have h1 := List.append_cancel_left h
    have h2 := List.append_cancel_left h1
    have h3 := List.append_cancel_left h2
    exact hne (gammaText_injective g2 g [] [] (by simpa using h3))

/-- The claim C28 at work: a texture below the media path of the host, with backslashes. -/
theorem texture_spec_witness :
    (∃ s1, valueTexture MDLBuilder.new "C:\\dp\\media\\effects\\mdl\\x\\y.png".toList
        GammaMode.SRGB = some s1
      ∧ s1.m_currentExpression = [ExpressionDataConstant
          (ValueDataTexture "C:\\dp\\media\\effects\\mdl\\x\\y.png".toList GammaMode.SRGB)])
    ∧ formatValue exampleHost
        (ValueDataTexture "C:\\dp\\media\\effects\\mdl\\x\\y.png".toList GammaMode.SRGB)
      = some "texture_2d(\"x/y.png\", tex::gamma_srgb)".toList
    ∧ formatValue exampleHost
        (ValueDataTexture "C:\\dp\\media\\effects\\mdl\\x\\y.png".toList GammaMode.LINEAR)
      ≠ some "texture_2d(\"x/y.png\", tex::gamma_srgb)".toList := by
  obtain ⟨h1, q0, media, q, text, hq0, hmedia, hq, hfmt, htext, -, -, -, -, hdiff⟩ :=
    texture_spec exampleHost "C:\\dp\\media\\effects\\mdl\\x\\y.png".toList GammaMode.SRGB
      (by decide) (by decide)
  have hval : text = "texture_2d(\"x/y.png\", tex::gamma_srgb)".toList := by
    have : formatValue exampleHost
        (ValueDataTexture "C:\\dp\\media\\effects\\mdl\\x\\y.png".toList GammaMode.SRGB)
        = some "texture_2d(\"x/y.png\", tex::gamma_srgb)".toList := by decide
    rw [hfmt] at this
    exact Option.some.inj this
  refine ⟨h1 MDLBuilder.new, hval ▸ hfmt, ?_⟩
  exact hval ▸ hdiff GammaMode.LINEAR (by decide)

/-! ## C22: the choice of the surface form of a call -/

theorem format_call_eq (host : Host) (material : MaterialData)
    (typeNameSpace type callNameSpace call : Str) (argumentData : List ArgumentData)
    (arguments : List (Nat × ExpressionData)) (level : Nat) :
    format host material
        (ExpressionDataCall typeNameSpace type callNameSpace call argumentData arguments) level
      = formatCall callNameSpace call arguments.length
          (fun idx => formatSlot host material idx arguments level)
          (formatArguments host material call argumentData arguments level true) level := by
  rw [format]

theorem format_call_cases (host : Host) (material : MaterialData)
    (typeNameSpace type callNameSpace call : Str) (argumentData : List ArgumentData)
    (arguments : List (Nat × ExpressionData)) (level : Nat)
    (hne : call ≠ []) (hlen : call.length < 2 ^ 64 - 1) :
    format host material
        (ExpressionDataCall typeNameSpace type callNameSpace call argumentData arguments) level
      = (match surfaceForm call with
        | SurfaceForm.index =>
          formatIndexForm arguments.length (fun idx => formatSlot host material idx arguments level)
        | SurfaceForm.operator =>
          formatOperatorForm call (call.getLast hne) arguments.length
            (fun idx => formatSlot host material idx arguments level)
        | SurfaceForm.member =>
          formatMemberForm call (call.indexOf '.') arguments.length
            (fun idx => formatSlot host material idx arguments level)
        | SurfaceForm.general =>
          formatGeneralForm callNameSpace call arguments.length
            (formatArguments host material call argumentData arguments level true) level) := by
  rw [format_call_eq]
  unfold formatCall surfaceForm
  have hlast : call.getLast? = some (call.getLast hne) := List.getLast?_eq_getLast _ hne
  rw [hlast]
  simp only [Option.some.injEq]
  by_cases hat : call.getLast hne = '@'
  · simp [hat]
  · have hpre : (substr call 0 8 == "operator".toList) = decide ("operator".toList <+: call) := by
      rw [str_beq_eq_decide]
      exact decide_eq_decide.mpr (substr_zero_eq_iff_starts call "operator".toList)
    rw [if_neg hat]
    simp only [beq_iff_eq, hat, if_false, hpre, decide_eq_true_eq]
    by_cases hop : "operator".toList <+: call
    · simp only [if_pos hop]
    · simp only [if_neg hop]
      by_cases hdot : '.' ∈ call
      · have hfind : find call '.' 0 = call.indexOf '.' := (find_zero_of_mem call '.' hdot).1
        have hlt : call.indexOf '.' < call.length := List.indexOf_lt_length.mpr hdot
        rw [if_pos hdot, hfind, if_pos (by unfold npos; omega)]
      · rw [if_neg hdot, find_zero_of_not_mem call '.' hdot, if_neg (by simp)]

/-- C22: the form in which `format` writes a call is chosen from the stored name alone, as
`surfaceForm` tells: the index form for a name ending with `@` (also when it begins with
`operator`), else the operator form for a name beginning with `operator`, else the
member-access form for a name holding `.`, else the general form. Type, name spaces and
declared slots of the call take no part in the choice. -/
theorem format_call_by_surfaceForm (host : Host) (material : MaterialData)
    (typeNameSpace type callNameSpace call : Str) (argumentData : List ArgumentData)
    (arguments : List (Nat × ExpressionData)) (level : Nat)
    (hne : call ≠ []) (hlen : call.length < 2 ^ 64 - 1) :
    format host material
        (ExpressionDataCall typeNameSpace type callNameSpace call argumentData arguments) level
      = (match surfaceForm call with
        | SurfaceForm.index =>
          formatIndexForm arguments.length (fun idx => formatSlot host material idx arguments level)
        | SurfaceForm.operator =>
          formatOperatorForm call (call.getLast hne) arguments.length
            (fun idx => formatSlot host material idx arguments level)
        | SurfaceForm.member =>
          formatMemberForm call (call.indexOf '.') arguments.length
            (fun idx => formatSlot host material idx arguments level)
        | SurfaceForm.general =>
          formatGeneralForm callNameSpace call arguments.length
            (formatArguments host material call argumentData arguments level true) level)
    ∧ ∀ op : Str, surfaceForm ("operator".toList ++ op ++ "@".toList) = SurfaceForm.index := by
  refine ⟨format_call_cases host material typeNameSpace type callNameSpace call
    argumentData arguments level hne hlen, ?_⟩
  intro op
  unfold surfaceForm
  rw [if_pos]
  show ("operator".toList ++ op ++ ['@']).getLast? = some '@'
  exact List.getLast?_concat _

/-- The claim C22 at work: the name `operator@` takes the index form, not the operator form,
whatever the type, the name space and the declared slots of the call are. -/
theorem format_call_by_surfaceForm_witness :
    surfaceForm "operator@".toList = SurfaceForm.index
    ∧ format exampleHost exampleMaterial
        (ExpressionDataCall "t".toList "float".toList "ns".toList "operator@".toList
          [⟨[], "float".toList, "x".toList⟩]
          [(0, ExpressionDataParameter 0), (1, ExpressionDataParameter 1)]) 0
      = some "a[b]".toList :=
  ⟨by decide,
   (format_call_by_surfaceForm exampleHost exampleMaterial "t".toList "float".toList
      "ns".toList "operator@".toList [⟨[], "float".toList, "x".toList⟩]
      [(0, ExpressionDataParameter 0), (1, ExpressionDataParameter 1)] 0
      (by decide) (by decide)).1.trans (by decide)⟩

/-! ## C23: binary operators -/

theorem needsBraces_iff (e : ExpressionData) :
    needsBraces e = true ↔
      ∃ typeNameSpace type callNameSpace call argumentData arguments,
        e = ExpressionDataCall typeNameSpace type callNameSpace call argumentData arguments
        ∧ "operator".toList <+: call := by
  cases e with
  | ExpressionDataCall typeNameSpace type callNameSpace call argumentData arguments =>
    simp only [needsBraces, beq_iff_eq, ExpressionDataCall.injEq]
    constructor
    · intro h
      exact ⟨_, _, _, _, _, _, ⟨rfl, rfl, rfl, rfl, rfl, rfl⟩,
        (substr_zero_eq_iff_starts call "operator".toList).mp h⟩
    · rintro ⟨_, _, _, _, _, _, ⟨-, -, -, rfl, -, -⟩, h⟩
      exact (substr_zero_eq_iff_starts _ "operator".toList).mpr h
  | ExpressionDataArray _ _ _ => simp [needsBraces]
  | ExpressionDataConstant _ => simp [needsBraces]
  | ExpressionDataParameter _ => simp [needsBraces]
  | ExpressionDataTemporary _ => simp [needsBraces]

/-- C23: a call named `operator` ++ OP that does not end in `@`, with exactly the slots 0 and
1 filled, is written `L OP R`: the texts of the two operands around the operator symbol, an
operand in parentheses exactly when it is itself a call whose name begins with `operator`. -/
theorem format_binary_operator (host : Host) (material : MaterialData)
    (typeNameSpace type callNameSpace op : Str) (argumentData : List ArgumentData)
    (a b : ExpressionData) (level : Nat) (L R : Str)
    (hat : ("operator".toList ++ op).getLast? ≠ some '@')
    (hop : op.length < 2 ^ 64 - 1)
    (hL : format host material a level = some L)
    (hR : format host material b level = some R) :
    format host material
        (ExpressionDataCall typeNameSpace type callNameSpace ("operator".toList ++ op)
          argumentData [(0, a), (1, b)]) level
      = some ((if needsBraces a then "(".toList ++ L ++ ")".toList else L)
          ++ " ".toList ++ op ++ " ".toList
          ++ (if needsBraces b then "(".toList ++ R ++ ")".toList else R))
    ∧ (∀ e : ExpressionData, needsBraces e = true ↔
        ∃ typeNameSpace type callNameSpace call argumentData arguments,
          e = ExpressionDataCall typeNameSpace type callNameSpace call argumentData arguments
          ∧ "operator".toList <+: call) := by
  refine ⟨?_, needsBraces_iff⟩
  rw [format_call_eq]
  unfold formatCall
  have hne : "operator".toList ++ op ≠ [] := by simp
  have hlast : ("operator".toList ++ op).getLast?
      = some (("operator".toList ++ op).getLast hne) := List.getLast?_eq_getLast _ hne
  rw [hlast] at hat ⊢
  have hback : (("operator".toList ++ op).getLast hne == '@') = false := by
    rw [beq_eq_false_iff_ne]
    intro h
    exact hat (by rw [h])
  have hpre : (substr ("operator".toList ++ op) 0 8 == "operator".toList) = true := by
    rw [beq_iff_eq]
    exact (substr_zero_eq_iff_starts _ "operator".toList).mpr (List.prefix_append _ _)
  have hsub : substr ("operator".toList ++ op) 8 npos = op := by
    unfold substr
    rw [List.drop_left' (show "operator".toList.length = 8 from rfl)]
    exact List.take_of_length_le (by unfold npos; omega)
  have h0 : formatSlot host material 0 [(0, a), (1, b)] level = some (needsBraces a, L) := by
    simp [formatSlot, hL]
  have h1 : formatSlot host material 1 [(0, a), (1, b)] level = some (needsBraces b, R) := by
    simp [formatSlot, hR]
  simp only [hback, hpre, Bool.false_eq_true, if_false, if_true, formatOperatorForm,
    List.length_cons, List.length_nil, h0, h1, hsub, Option.bind_eq_bind, Option.some_bind,
    pure, braced]
  simp only [DP_ASSERT, Nat.reduceAdd, Nat.reduceBneDiff, if_true, Option.some_bind]
  cases needsBraces a <;> cases needsBraces b <;> simp

/-- The claim C23 at work: `a + b` for two parameter references, and parentheses around an
operand that is itself an operator call. -/
theorem format_binary_operator_witness :
    format exampleHost exampleMaterial
        (ExpressionDataCall [] "float".toList [] "operator+".toList []
          [(0, ExpressionDataParameter 0), (1, ExpressionDataParameter 1)]) 0
      = some "a + b".toList
    ∧ format exampleHost exampleMaterial
        (ExpressionDataCall [] "float".toList [] "operator*".toList []
          [(0, ExpressionDataCall [] "float".toList [] "operator+".toList []
                [(0, ExpressionDataParameter 0), (1, ExpressionDataParameter 1)]),
           (1, ExpressionDataCall [] "float".toList "math".toList "abs".toList []
                [])]) 0
      = some "(a + b) * math::abs()".toList :=
  ⟨(format_binary_operator exampleHost exampleMaterial [] "float".toList [] "+".toList []
      (ExpressionDataParameter 0) (ExpressionDataParameter 1) 0 "a".toList "b".toList
      (by decide) (by decide) rfl rfl).1,
   (format_binary_operator exampleHost exampleMaterial [] "float".toList [] "*".toList []
      (ExpressionDataCall [] "float".toList [] "operator+".toList []
        [(0, ExpressionDataParameter 0), (1, ExpressionDataParameter 1)])
      (ExpressionDataCall [] "float".toList "math".toList "abs".toList [] [])
      0 "a + b".toList "math::abs()".toList (by decide) (by decide) rfl rfl).1⟩

/-! ## C24: the general form of a call -/

theorem intercalate_cons (sep x : Str) (rest : List Str) :
    sep.intercalate (x :: rest) = x ++ (rest.map fun l => sep ++ l).flatten := by
  induction rest generalizing x with
  | nil => simp [List.intercalate]
  | cons y rest ih =>
    have h := ih y
    simp only [List.intercalate, List.intersperse, List.flatten_cons, List.map_cons] at h ⊢
    rw [h]
    simp

theorem allDigits_find_first_not_of (name : Str)
    (h : ∀ ch ∈ name, ch ∈ "0123456789".toList) :
    find_first_not_of name "0123456789".toList = npos := by
  unfold find_first_not_of
  have : name.findIdx? (fun c => !"0123456789".toList.contains c) = none := by
    rw [List.findIdx?_eq_none_iff]
    intro c hc
    simp only [Bool.not_eq_true', Bool.not_eq_false', List.contains_eq_any_beq, List.any_eq_true,
      beq_iff_eq]
    exact ⟨c, h c hc, rfl⟩
  rw [this]

theorem formatArguments_cons (host : Host) (material : MaterialData) (call : Str)
    (argumentData : List ArgumentData) (level : Nat) (hlen : call.length < 2 ^ 64 - 1)
    (p : Nat × ExpressionData) (rest : List (Nat × ExpressionData)) (first : Bool)
    (text more : Str)
    (hslot : p.1 < argumentData.length)
    (hnum : '[' ∈ call → ∀ d, argumentData[p.1]? = some d →
      ∀ ch ∈ d.name, ch ∈ "0123456789".toList)
    (htext : format host material p.2 (level + 1) = some text)
    (hmore : formatArguments host material call argumentData rest level false = some more) :
    formatArguments host material call argumentData (p :: rest) level first
      = some ((if first then [] else ", \n".toList)
          ++ argumentLine call argumentData level p text ++ more) := by
  obtain ⟨k, e⟩ := p
  rw [formatArguments]
  have hd : argumentData[k]? = some (argumentData.get ⟨k, hslot⟩) :=
    List.getElem?_eq_getElem hslot
  simp only [hd, htext, hmore, Option.bind_eq_bind, Option.some_bind, pure, argumentLine,
    Option.map_some', Option.getD_some]
  by_cases hb : '[' ∈ call
  · have hfind : (find call '[' 0 == npos) = false := by
      rw [beq_eq_false_iff_ne]
      have := find_zero_of_mem call '[' hb
      rw [this.1]
      unfold npos; omega
    have hassert : find_first_not_of (argumentData.get ⟨k, hslot⟩).name "0123456789".toList
        = npos := allDigits_find_first_not_of _ (hnum hb _ hd)
    simp only [hfind, hassert, Bool.false_or, beq_self_eq_true, DP_ASSERT, if_true,
      Option.some_bind, Bool.false_eq_true, if_false, if_pos hb, endl]
    cases first <;> simp
  · have hfind : (find call '[' 0 == npos) = true := by
      rw [beq_iff_eq]
      exact find_zero_of_not_mem call '[' hb
    simp only [hfind, Bool.true_or, DP_ASSERT, if_true, Option.some_bind, if_neg hb, endl]
    cases first <;> simp

theorem formatArguments_rest (host : Host) (material : MaterialData) (call : Str)
    (argumentData : List ArgumentData) (level : Nat) (hlen : call.length < 2 ^ 64 - 1)
    (arguments : List (Nat × ExpressionData)) (texts : List Str)
    (hslots : ∀ p ∈ arguments, p.1 < argumentData.length)
    (hnum : '[' ∈ call → ∀ p ∈ arguments, ∀ d, argumentData[p.1]? = some d →
      ∀ ch ∈ d.name, ch ∈ "0123456789".toList)
    (htexts : List.Forall₂
      (fun p text => format host material p.2 (level + 1) = some text) arguments texts) :
    formatArguments host material call argumentData arguments level false
      = some (((List.zipWith (argumentLine call argumentData level) arguments texts).map
          fun l => ", \n".toList ++ l).flatten) := by
  induction htexts with
  | nil => rfl
  | cons htext _ ih =>
    rename_i p text rest texts1 _
    rw [formatArguments_cons host material call argumentData level hlen p rest false text _
      (hslots p (List.mem_cons_self _ _)) (fun hb => hnum hb p (List.mem_cons_self _ _)) htext
      (ih (fun q hq => hslots q (List.mem_cons_of_mem _ hq))
        (fun hb q hq => hnum hb q (List.mem_cons_of_mem _ hq)))]
    simp

theorem mapSet_keys_sorted (idx : Nat) (e : ExpressionData)
    (arguments : List (Nat × ExpressionData))
    (h : arguments.Pairwise fun p q => p.1 < q.1) :
    (mapSet (· < ·) idx e arguments).Pairwise fun p q => p.1 < q.1 := by
  induction arguments with
  | nil => simp [mapSet]
  | cons x rest ih =>
    obtain ⟨k, v⟩ := x
    rw [List.pairwise_cons] at h
    simp only [mapSet]
    by_cases h1 : idx = k
    · rw [if_pos h1, List.pairwise_cons]
      exact ⟨fun q hq => h1 ▸ h.1 q hq, h.2⟩
    · rw [if_neg h1]
      by_cases h2 : idx < k
      · simp only [h2, decide_True, if_true]
        rw [List.pairwise_cons]
        refine ⟨?_, List.pairwise_cons.mpr h⟩
        intro q hq
        rcases List.mem_cons.mp hq with hq1 | hq1
        · rw [hq1]; exact h2
        · exact Nat.lt_trans h2 (h.1 q hq1)
      · simp only [h2, decide_False, Bool.false_eq_true, if_false]
        rw [List.pairwise_cons]
        refine ⟨?_, ih h.2⟩
        intro q hq
        rcases mem_mapSet _ _ _ _ _ hq with hq1 | hq1
        · rw [hq1]; show k < idx; omega
        · exact h.1 q hq1

/-- C24: a call in the general form (its name does not end in `@`, does not begin with
`operator` and holds no `.`) is written as its name, after the call name space and `::`
exactly when that name space is not empty; with no filled slot `()` follows; otherwise the
filled slots follow in parentheses in the order of the slot map, one per line, each as
`argName : value` with the declared name of the slot, the part `argName : ` being left out
for every slot exactly when the name of the call holds `[`. Filling a slot keeps the map in
ascending order of the slot index. -/
theorem format_general_call (host : Host) (material : MaterialData)
    (typeNameSpace type callNameSpace call : Str) (argumentData : List ArgumentData)
    (arguments : List (Nat × ExpressionData)) (level : Nat) (texts : List Str)
    (hne : call ≠ []) (hat : call.getLast? ≠ some '@')
    (hop : ¬ "operator".toList <+: call) (hdot : '.' ∉ call)
    (hlen : call.length < 2 ^ 64 - 1)
    (hslots : ∀ p ∈ arguments, p.1 < argumentData.length)
    (hnum : '[' ∈ call → ∀ p ∈ arguments, ∀ d, argumentData[p.1]? = some d →
      ∀ ch ∈ d.name, ch ∈ "0123456789".toList)
    (htexts : List.Forall₂
      (fun p text => format host material p.2 (level + 1) = some text) arguments texts) :
    format host material
        (ExpressionDataCall typeNameSpace type callNameSpace call argumentData arguments) level
      = some ((if callNameSpace = [] then [] else callNameSpace ++ "::".toList) ++ call
          ++ (if arguments.isEmpty then "()".toList
              else "\n".toList ++ indent level ++ "(\n".toList
                ++ ", \n".toList.intercalate
                    (List.zipWith (argumentLine call argumentData level) arguments texts)
                ++ "\n".toList ++ indent level ++ ")".toList))
    ∧ (∀ (idx : Nat) (e : ExpressionData),
        (arguments.Pairwise fun p q => p.1 < q.1) →
        (mapSet (· < ·) idx e arguments).Pairwise fun p q => p.1 < q.1) := by
  refine ⟨?_, fun idx e h => mapSet_keys_sorted idx e arguments h⟩
  have hform : surfaceForm call = SurfaceForm.general := by
    unfold surfaceForm
    rw [if_neg hat, if_neg hop, if_neg hdot]
  rw [(format_call_cases host material typeNameSpace type callNameSpace call
    argumentData arguments level hne hlen), hform]
  simp only
  unfold formatGeneralForm
  cases htexts with
  | nil =>
    cases callNameSpace <;> simp [List.isEmpty]
  | cons htext hrest =>
    rename_i p text rest texts1
    have hmore := formatArguments_rest host material call argumentData level hlen rest texts1
      (fun q hq => hslots q (List.mem_cons_of_mem _ hq))
      (fun hb q hq => hnum hb q (List.mem_cons_of_mem _ hq)) hrest
    rw [formatArguments_cons host material call argumentData level hlen p rest true text _
      (hslots p (List.mem_cons_self _ _)) (fun hb => hnum hb p (List.mem_cons_self _ _)) htext
      hmore]
    simp only [List.zipWith_cons_cons, intercalate_cons]
    cases callNameSpace <;> simp [List.isEmpty, endl]

/-- The claim C24 at work: a call with two named arguments, a call whose name holds `[`
(its arguments are written without names), and a call without arguments. -/
theorem format_general_call_witness :
    format exampleHost exampleMaterial
        (ExpressionDataCall [] "float".toList "df".toList "f".toList
          [⟨[], "float".toList, "x".toList⟩, ⟨[], "float".toList, "y".toList⟩]
          [(0, ExpressionDataParameter 0), (1, ExpressionDataParameter 1)]) 0
      = some "df::f\n(\n  x : a, \n  y : b\n)".toList
    ∧ format exampleHost exampleMaterial
        (ExpressionDataCall [] "float[2]".toList [] "float[]".toList
          [⟨[], "float".toList, "0".toList⟩, ⟨[], "float".toList, "1".toList⟩]
          [(0, ExpressionDataParameter 0), (1, ExpressionDataParameter 1)]) 0
      = some "float[]\n(\n  a, \n  b\n)".toList
    ∧ format exampleHost exampleMaterial
        (ExpressionDataCall [] "float".toList "df".toList "g".toList [] []) 0
      = some "df::g()".toList := by
  refine ⟨?_, ?_, ?_⟩
  · exact (format_general_call exampleHost exampleMaterial [] "float".toList "df".toList
      "f".toList [⟨[], "float".toList, "x".toList⟩, ⟨[], "float".toList, "y".toList⟩]
      [(0, ExpressionDataParameter 0), (1, ExpressionDataParameter 1)] 0
      ["a".toList, "b".toList] (by decide) (by decide) (by decide) (by decide) (by decide)
      (by intro p hp
          simp only [List.mem_cons, List.mem_singleton, List.not_mem_nil, or_false] at hp
          rcases hp with rfl | rfl <;> decide)
      (fun h => absurd h (by decide))
      (List.Forall₂.cons rfl (List.Forall₂.cons rfl List.Forall₂.nil))).1.trans (by decide)
  · exact (format_general_call exampleHost exampleMaterial [] "float[2]".toList []
      "float[]".toList [⟨[], "float".toList, "0".toList⟩, ⟨[], "float".toList, "1".toList⟩]
      [(0, ExpressionDataParameter 0), (1, ExpressionDataParameter 1)] 0
      ["a".toList, "b".toList] (by decide) (by decide) (by decide) (by decide) (by decide)
      (by intro p hp
          simp only [List.mem_cons, List.mem_singleton, List.not_mem_nil, or_false] at hp
          rcases hp with rfl | rfl <;> decide)
      (by intro _ p hp d hd ch hch
          simp only [List.mem_cons, List.mem_singleton, List.not_mem_nil, or_false] at hp
          rcases hp with rfl | rfl
          · simp only [List.getElem?_cons_zero, Option.some.injEq] at hd
            subst hd
            simp only [String.toList, List.mem_singleton] at hch
            subst hch
            decide
          · simp only [List.getElem?_cons_succ, List.getElem?_cons_zero,
              Option.some.injEq] at hd
            subst hd
            simp only [String.toList, List.mem_singleton] at hch
            subst hch
            decide)
      (List.Forall₂.cons rfl (List.Forall₂.cons rfl List.Forall₂.nil))).1.trans (by decide)
  · exact (format_general_call exampleHost exampleMaterial [] "float".toList "df".toList
      "g".toList [] [] 0 [] (by decide) (by decide) (by decide) (by decide) (by decide)
      (by intro p hp; cases hp) (fun h => absurd h (by decide)) List.Forall₂.nil).1.trans
      (by decide)

/-! ## C21: the end-to-end example -/

/-- C21 (as amended): after `fileBegin` of the file `pkg.mdl`, the events of the example with
the material named `mdl::pkg::mat` are accepted and yield one material whose parameter 0 has
the type `float`, the name `roughness` and the default Float 0.5, and whose field `surface`
is a call without arguments; the serializer writes the parameter line `float roughness = `
followed by the float literal of 0.5, and the body field `surface :
diffuse_reflection_bsdf()`. -/
theorem end_to_end_example (host : Host) :
    ∃ s, run MDLBuilder.new exampleEvents = some s
      ∧ s.m_materials = [exampleResult]
      ∧ s.m_currentExpression = [] ∧ s.m_currentMaterial = none
      ∧ writeMaterial host exampleResult
        = some ("export material mat\n(\n".toList
            ++ "  float roughness = ".toList ++ host.printFloat (FloatBits.mk 0x3f000000)
            ++ "f\n".toList
            ++ "\n)\n= material\n(\n".toList
            ++ "  surface : diffuse_reflection_bsdf()".toList
            ++ "\n);\n\n".toList) := by
  refine ⟨_, rfl, rfl, rfl, rfl, ?_⟩
  have h : writeMaterial host exampleResult
      = some ("export material ".toList ++ "mat".toList
          ++ (endl ++ "(".toList ++ endl
            ++ ([] ++ (indent 1 ++ [] ++ "float".toList ++ " ".toList ++ "roughness".toList
                ++ (" = ".toList ++ (host.printFloat (FloatBits.mk 0x3f000000) ++ "f".toList))
                ++ endl ++ []) ++ [])
            ++ endl ++ ")".toList ++ endl ++ [] ++ "= ".toList ++ []
            ++ "material".toList ++ endl ++ "(".toList ++ endl
            ++ "  surface : diffuse_reflection_bsdf()".toList ++ endl
            ++ ");".toList ++ endl) ++ endl) := rfl
  rw [h]
  simp [endl, indent]

/-- Counterexample to C21 as stated: the sequence that starts with
`materialBegin("pkg::mat")` is rejected, with and without a file opened before it: the name
does not begin with `mdl::`. -/
theorem example_events_as_given_rejected :
    run MDLBuilder.new exampleEventsAsGiven = none
    ∧ run MDLBuilder.new (Event.fileBegin "C:\\mdl\\pkg.mdl".toList :: exampleEventsAsGiven)
      = none
    ∧ materialBegin MDLBuilder.new "pkg::mat".toList (0, 0, 0, 0) = none :=
  ⟨rfl, rfl, rfl⟩

/-! ## C30: serializing and parsing again -/

/-- C30: the text written for a completed material without parameters does not hold its
fields, so that no way of reading the text back restores them: the material `mat` with the
field `surface` and the material `mat` without fields are both built by accepted event
sequences from constants, calls, arrays and references only, both are written as
`export material mat()`, and no function from texts to materials returns each of them from
the text written for it. -/
theorem roundtrip_loses_fields_without_parameters (host : Host)
    (parse : Str → Option MaterialData) :
    (run MDLBuilder.new fieldOnlyEvents).map (fun s => s.m_materials) = some [fieldOnlyMaterial]
    ∧ (run MDLBuilder.new bareMaterialEvents).map (fun s => s.m_materials) = some [bareMaterial]
    ∧ writeMaterial host fieldOnlyMaterial = some "export material mat()\n\n".toList
    ∧ writeMaterial host bareMaterial = some "export material mat()\n\n".toList
    ∧ fieldOnlyMaterial.fields.map Prod.fst = ["surface".toList]
    ∧ bareMaterial.fields.map Prod.fst = []
    ∧ ¬ ((writeMaterial host fieldOnlyMaterial).bind parse = some fieldOnlyMaterial
        ∧ (writeMaterial host bareMaterial).bind parse = some bareMaterial) := by
  refine ⟨rfl, rfl, rfl, rfl, rfl, rfl, ?_⟩
  rintro ⟨h1, h2⟩
  have e1 : writeMaterial host fieldOnlyMaterial = some "export material mat()\n\n".toList := rfl
  have e2 : writeMaterial host bareMaterial = some "export material mat()\n\n".toList := rfl
  rw [e1] at h1
  rw [e2] at h2
  rw [h1] at h2
  have h3 := congrArg (fun m => (m.map fun x => x.fields.map Prod.fst)) h2
  exact absurd h3 (by decide)

/-! ## C31, C32, C33: the operator, index and member-access forms -/

theorem formatSlot_zero (host : Host) (material : MaterialData) (a : ExpressionData)
    (rest : List (Nat × ExpressionData)) (level : Nat) (A : Str)
    (h : format host material a level = some A) :
    formatSlot host material 0 ((0, a) :: rest) level = some (needsBraces a, A) := by
  simp [formatSlot, h]

theorem formatSlot_one (host : Host) (material : MaterialData) (a b : ExpressionData)
    (rest : List (Nat × ExpressionData)) (level : Nat) (B : Str)
    (h : format host material b level = some B) :
    formatSlot host material 1 ((0, a) :: (1, b) :: rest) level = some (needsBraces b, B) := by
  simp [formatSlot, h]

/-- C32: a call whose name ends with `@` and whose filled slots are exactly 0 and 1 is
written `B[I]`: `I` is the text of the expression in slot 1, never in parentheses, and `B`
the text of the expression in slot 0, in parentheses exactly when that expression is a call
whose name begins with `operator`. -/
theorem format_index_call (host : Host) (material : MaterialData)
    (typeNameSpace type callNameSpace call : Str) (argumentData : List ArgumentData)
    (level : Nat) (a b : ExpressionData) (B I : Str)
    (hback : call.getLast? = some '@') (hlen : call.length < 2 ^ 64 - 1)
    (hB : format host material a level = some B)
    (hI : format host material b level = some I) :
    format host material
        (ExpressionDataCall typeNameSpace type callNameSpace call argumentData
          [(0, a), (1, b)]) level
      = some ((if needsBraces a then "(".toList ++ B ++ ")".toList else B)
          ++ "[".toList ++ I ++ "]".toList)
    ∧ (needsBraces a = true ↔
        ∃ typeNameSpace type callNameSpace call argumentData arguments,
          a = ExpressionDataCall typeNameSpace type callNameSpace call argumentData arguments
          ∧ "operator".toList <+: call) := by
  refine ⟨?_, needsBraces_iff a⟩
  have hne : call ≠ [] := by
    intro h
    rw [h] at hback
    cases hback
  have hform : surfaceForm call = SurfaceForm.index := by
    unfold surfaceForm
    rw [if_pos hback]
  rw [format_call_cases host material typeNameSpace type callNameSpace call argumentData _
    level hne hlen, hform]
  simp only [formatIndexForm, List.length_cons, List.length_nil,
    formatSlot_zero host material a _ level B hB,
    formatSlot_one host material a b _ level I hI,
    Option.bind_eq_bind, Option.some_bind, DP_ASSERT, braced, pure]
  cases needsBraces a <;> simp

/-- The claim C32 at work: `a[b]`, and `(a + b)[a + b]` for operator calls in both slots. -/
theorem format_index_call_witness :
    format exampleHost exampleMaterial
        (ExpressionDataCall [] "float".toList [] "operator[]@".toList []
          [(0, ExpressionDataParameter 0), (1, ExpressionDataParameter 1)]) 0
      = some "a[b]".toList
    ∧ format exampleHost exampleMaterial
        (ExpressionDataCall [] "float".toList [] "@".toList []
          [(0, ExpressionDataCall [] "float".toList [] "operator+".toList []
                [(0, ExpressionDataParameter 0), (1, ExpressionDataParameter 1)]),
           (1, ExpressionDataCall [] "float".toList [] "operator+".toList []
                [(0, ExpressionDataParameter 0), (1, ExpressionDataParameter 1)])]) 0
      = some "(a + b)[a + b]".toList :=
  ⟨(format_index_call exampleHost exampleMaterial [] "float".toList [] "operator[]@".toList []
      0 (ExpressionDataParameter 0) (ExpressionDataParameter 1) "a".toList "b".toList
      (by decide) (by decide) rfl rfl).1,
   (format_index_call exampleHost exampleMaterial [] "float".toList [] "@".toList [] 0
      (ExpressionDataCall [] "float".toList [] "operator+".toList []
        [(0, ExpressionDataParameter 0), (1, ExpressionDataParameter 1)])
      (ExpressionDataCall [] "float".toList [] "operator+".toList []
        [(0, ExpressionDataParameter 0), (1, ExpressionDataParameter 1)])
      "a + b".toList "a + b".toList (by decide) (by decide) rfl rfl).1⟩

/-- C33: a call in the member-access form (its name holds `.`, does not end in `@` and does
not begin with `operator`) with exactly the slot 0 filled is written as the text of the
expression in that slot followed by the part of the name from its first `.` on; the base is
never put in parentheses. -/
theorem format_member_call (host : Host) (material : MaterialData)
    (typeNameSpace type callNameSpace before after : Str) (argumentData : List ArgumentData)
    (level : Nat) (e : ExpressionData) (E : Str)
    (hdot : '.' ∉ before)
    (hat : (before ++ '.' :: after).getLast? ≠ some '@')
    (hop : ¬ "operator".toList <+: before ++ '.' :: after)
    (hlen : (before ++ '.' :: after).length < 2 ^ 64 - 1)
    (hE : format host material e level = some E) :
    format host material
        (ExpressionDataCall typeNameSpace type callNameSpace (before ++ '.' :: after)
          argumentData [(0, e)]) level
      = some (E ++ '.' :: after) := by
  have hne : before ++ '.' :: after ≠ [] := by simp
  have hform : surfaceForm (before ++ '.' :: after) = SurfaceForm.member := by
    unfold surfaceForm
    rw [if_neg hat, if_neg hop, if_pos (by simp)]
  rw [format_call_cases host material typeNameSpace type callNameSpace _ argumentData _
    level hne hlen, hform]
  have hidx : (before ++ '.' :: after).indexOf '.' = before.length :=
    indexOf_append_cons '.' before after hdot
  have hsub : substr (before ++ '.' :: after) before.length npos = '.' :: after := by
    unfold substr
    rw [List.drop_left' rfl]
    exact List.take_of_length_le (by
      simp only [List.length_append, List.length_cons] at hlen ⊢
      unfold npos; omega)
  simp only [formatMemberForm, List.length_cons, List.length_nil, hidx, hsub,
    formatSlot_zero host material e _ level E hE,
    Option.bind_eq_bind, Option.some_bind, DP_ASSERT, pure]
  simp

/-- The claim C33 at work: `a.x`, and `a + b.x` for a base that is an operator call. -/
theorem format_member_call_witness :
    format exampleHost exampleMaterial
        (ExpressionDataCall [] "float".toList [] "float3.x".toList []
          [(0, ExpressionDataParameter 0)]) 0 = some "a.x".toList
    ∧ format exampleHost exampleMaterial
        (ExpressionDataCall [] "float".toList [] "float3.x".toList []
          [(0, ExpressionDataCall [] "float3".toList [] "operator+".toList []
                [(0, ExpressionDataParameter 0), (1, ExpressionDataParameter 1)])]) 0
      = some "a + b.x".toList :=
  ⟨format_member_call exampleHost exampleMaterial [] "float".toList [] "float3".toList
      "x".toList [] 0 (ExpressionDataParameter 0) "a".toList
      (by decide) (by decide) (by decide) (by decide) rfl,
   format_member_call exampleHost exampleMaterial [] "float".toList [] "float3".toList
      "x".toList [] 0
      (ExpressionDataCall [] "float3".toList [] "operator+".toList []
        [(0, ExpressionDataParameter 0), (1, ExpressionDataParameter 1)]) "a + b".toList
      (by decide) (by decide) (by decide) (by decide) rfl⟩

/-! ## C34: `extractFunctionName` -/

theorem find_last_of_take_not_mem (s : Str) (c : Char) (pos : Nat)
    (h : c ∉ s.take (pos + 1)) : find_last_of s c pos = npos := by
  unfold find_last_of
  simp only
  rw [if_neg h]

theorem sizeT_npos_succ : sizeT ((npos : Int) + 1) = 0 := by decide

theorem sizeT_sub_succ (b s : Nat) (n : Nat) (h : b = s + 1 + n) (hn : n < 2 ^ 64) :
    sizeT ((b : Int) - s - 1) = n := by
  have : (b : Int) - s - 1 = (n : Int) := by omega
  rw [this, sizeT_of_nat n hn]

theorem sizeT_sub_npos (b : Nat) (hb : b < 2 ^ 64) : sizeT ((b : Int) - npos - 1) = b := by
  unfold sizeT
  have h1 : ((b : Int) - (npos : Nat) - 1) = (b : Int) + (-1) * 2 ^ 64 := by
    unfold npos
    push_cast
    omega
  rw [h1, Int.add_mul_emod_self, Int.emod_eq_of_lt (by omega) (by omega)]
  simp

/-- C34: `extractFunctionName` on a call name `before ++ name ++ tail`, where `before` is
empty or ends with `:`, `name` holds neither `:` nor `(`, `before` holds no `(`, and `tail` is
empty or begins with `(`: the result is `name`, with its characters as they are. Every call
name splits in this way: `name` is the text after the last `:` at or before the first `(`
(from the start when there is no such `:`) and before that `(` (up to the end when there is
no `(`). -/
theorem extractFunctionName_spec :
    (∀ before name tail : Str,
      (before = [] ∨ ∃ p, before = p ++ [':']) → ':' ∉ name → '(' ∉ name → '(' ∉ before →
      (tail = [] ∨ ∃ args, tail = '(' :: args) →
      (before ++ name ++ tail).length < 2 ^ 64 - 1 →
      extractFunctionName (before ++ name ++ tail) = name)
    ∧ (∀ call : Str, ∃ before name tail : Str, call = before ++ name ++ tail
      ∧ (before = [] ∨ ∃ p, before = p ++ [':']) ∧ ':' ∉ name ∧ '(' ∉ name ∧ '(' ∉ before
      ∧ (tail = [] ∨ ∃ args, tail = '(' :: args)) := by
  constructor
  · intro before name tail hbefore hn1 hn2 hb htail hlen
    have hnot : '(' ∉ before ++ name := by
      simp only [List.mem_append, not_or]; exact ⟨hb, hn2⟩
    unfold extractFunctionName
    simp only
    rcases htail with rfl | ⟨args, rfl⟩
    · rw [List.append_nil] at hlen ⊢
      rw [find_first_of, find_zero_of_not_mem _ _ hnot]
      rcases hbefore with rfl | ⟨p, rfl⟩
      · rw [List.nil_append] at hlen ⊢
        rw [find_last_of_not_mem _ _ _ hn1, sizeT_npos_succ]
        have : sizeT ((npos : Int) - (npos : Nat) - 1) = npos := by decide
        rw [this]
        unfold substr
        rw [List.drop_zero]
        exact List.take_of_length_le (by unfold npos; omega)
      · have hs : p ++ [':'] ++ name = p ++ ':' :: name := by simp
        have hl : (p ++ [':'] ++ name).length = p.length + 1 + name.length := by
          simp only [List.length_append, List.length_singleton]
        rw [hl] at hlen
        rw [find_last_of_whole _ p name ':' npos hs hn1 (by rw [hl]; unfold npos; omega)]
        have h1 : sizeT (((p.length : Nat) : Int) + 1) = p.length + 1 := by
          have := sizeT_of_nat (p.length + 1) (by omega)
          simpa using this
        have h2 : sizeT ((npos : Int) - (p.length : Nat) - 1) = npos - p.length - 1 := by
          have := sizeT_sub_succ npos p.length (npos - p.length - 1)
            (by unfold npos; omega) (by unfold npos; omega)
          exact this
        rw [h1, h2]
        unfold substr
        rw [show p ++ [':'] ++ name = (p ++ [':']) ++ name from rfl,
          List.drop_left' (by simp)]
        exact List.take_of_length_le (by unfold npos; omega)
    · have hl : (before ++ name ++ '(' :: args).length
          = before.length + name.length + 1 + args.length := by
        simp only [List.length_append, List.length_cons]; omega
      rw [hl] at hlen
      have hbrace : find_first_of (before ++ name ++ '(' :: args) '('
          = before.length + name.length := by
        rw [find_first_of, find_first _ (before ++ name) args '(' rfl hnot]
        simp
      rw [hbrace]
      rcases hbefore with rfl | ⟨p, rfl⟩
      · simp only [List.nil_append, List.length_nil, Nat.zero_add] at hlen ⊢
        have htake : (name ++ '(' :: args).take (name.length + 1) = name ++ ['('] := by
          rw [show name ++ '(' :: args = (name ++ ['(']) ++ args by simp]
          exact List.take_left' (by simp)
        rw [find_last_of_take_not_mem _ _ _ (by
          rw [htake]
          simp only [List.mem_append, List.mem_singleton, not_or]
          exact ⟨hn1, by decide⟩), sizeT_npos_succ, sizeT_sub_npos _ (by omega)]
        unfold substr
        rw [List.drop_zero]
        exact List.take_left' rfl
      · have hs : p ++ [':'] ++ name ++ '(' :: args = p ++ ':' :: (name ++ ['(']) ++ args := by
          simp
        have hpos : (p ++ [':']).length + name.length + 1
            = p.length + 1 + (name ++ ['(']).length := by
          simp only [List.length_append, List.length_singleton]
          omega
        rw [find_last_of_part _ p (name ++ ['(']) args ':' _ hs (by
          simp only [List.mem_append, List.mem_singleton, not_or]
          exact ⟨hn1, by decide⟩) hpos]
        have h1 : sizeT (((p.length : Nat) : Int) + 1) = p.length + 1 := by
          have := sizeT_of_nat (p.length + 1) (by
            simp only [List.length_append, List.length_singleton] at hlen; omega)
          simpa using this
        have h2 : sizeT ((((p ++ [':']).length + name.length : Nat) : Int)
            - (p.length : Nat) - 1) = name.length :=
          sizeT_sub_succ _ p.length name.length
            (by simp only [List.length_append, List.length_singleton]) (by omega)
        rw [h1, h2]
        unfold substr
        rw [show p ++ [':'] ++ name ++ '(' :: args = (p ++ [':']) ++ (name ++ '(' :: args)
          by simp, List.drop_left' (by simp)]
        exact List.take_left' rfl
  · intro call
    have hsplit : ∃ head tail : Str, call = head ++ tail ∧ '(' ∉ head
        ∧ (tail = [] ∨ ∃ args, tail = '(' :: args) := by
      by_cases h : '(' ∈ call
      · obtain ⟨pre, post, hs, hp⟩ := exists_first_split '(' call h
        exact ⟨pre, '(' :: post, hs, hp, Or.inr ⟨post, rfl⟩⟩
      · exact ⟨call, [], by simp, h, Or.inl rfl⟩
    obtain ⟨head, tail, hcall, hhead, htail⟩ := hsplit
    by_cases hc : ':' ∈ head
    · obtain ⟨p, name, hs, hn⟩ := exists_last_split ':' head hc
      have hp : '(' ∉ p ++ [':'] := by
        intro hm
        apply hhead
        rw [hs]
        rcases List.mem_append.mp hm with h1 | h1
        · exact List.mem_append_left _ h1
        · rw [List.mem_singleton] at h1
          exact absurd h1 (by decide)
      have hname : '(' ∉ name := by
        intro hm
        apply hhead
        rw [hs]
        exact List.mem_append_right _ (List.mem_cons_of_mem _ hm)
      exact ⟨p ++ [':'], name, tail, by rw [hcall, hs]; simp, Or.inr ⟨p, rfl⟩, hn, hname, hp,
        htail⟩
    · exact ⟨[], head, tail, by rw [hcall]; simp, Or.inl rfl, hc, hhead, by simp, htail⟩

/-- The claim C34 at work: `mdl::df::F(float,::tex::gamma_mode)` gives `F`, and
`diffuse_reflection_bsdf` gives itself. -/
theorem extractFunctionName_spec_witness :
    extractFunctionName "mdl::df::F(float,::tex::gamma_mode)".toList = "F".toList
    ∧ extractFunctionName "diffuse_reflection_bsdf".toList = "diffuse_reflection_bsdf".toList :=
  ⟨extractFunctionName_spec.1 "mdl::df::".toList "F".toList "(float,::tex::gamma_mode)".toList
      (Or.inr ⟨"mdl::df:".toList, rfl⟩) (by decide) (by decide) (by decide)
      (Or.inr ⟨"float,::tex::gamma_mode)".toList, rfl⟩) (by decide),
   extractFunctionName_spec.1 [] "diffuse_reflection_bsdf".toList []
      (Or.inl rfl) (by decide) (by decide) (by decide) (Or.inl rfl) (by decide)⟩

/-! ## C35: type names without name space -/

theorem registerType_unqualified (s : MDLBuilder) (t : Str) (ht : t.length < 2 ^ 64 - 1)
    (hcolon : ':' ∉ t.takeWhile (fun x => x != '['))
    (hstd : t.takeWhile (fun x => x != '[') ∉ standardTypes) : registerType s t = none := by
  have hstrip := registerType_strip t ht
  unfold registerType
  simp only [hstrip, if_neg hstd]
  have hlast : find_last_of (t.takeWhile fun x => x != '[') ':' npos = npos :=
    find_last_of_not_mem _ ':' npos hcolon
  cases hns : extractNameSpace (t.takeWhile fun x => x != '[') with
  | none => rfl
  | some ns => simp [hlast, DP_ASSERT]

/-- C35 (as amended): for a type name `t` that, after removal of the array-size suffix, is
one of the eight built-in spellings, `registerType` returns that spelling and changes
nothing. When it is not one of them and holds no `:`, `registerType` fails on its assertion
about the last `:`, and `parameterBegin` rejects a parameter declared with the type `t`. -/
theorem registerType_unqualified_spec (s : MDLBuilder) (t : Str) (ht : t.length < 2 ^ 64 - 1) :
    (t.takeWhile (fun x => x != '[') ∈ standardTypes →
      registerType s t = some (t.takeWhile (fun x => x != '['), s))
    ∧ (':' ∉ t.takeWhile (fun x => x != '[') →
      t.takeWhile (fun x => x != '[') ∉ standardTypes →
      registerType s t = none
      ∧ ∀ (index : Nat) (modifier name : Str), parameterBegin s index modifier t name = none) := by
  constructor
  · intro hstd
    have hstrip := registerType_strip t ht
    unfold registerType
    simp only [hstrip, if_pos hstd]
  · intro hcolon hstd
    have hreg := registerType_unqualified s t ht hcolon hstd
    refine ⟨hreg, ?_⟩
    intro index modifier name
    cases hres : parameterBegin s index modifier t name with
    | none => rfl
    | some r =>
      exfalso
      obtain ⟨b, s'⟩ := r
      simp only [parameterBegin, Option.bind_eq_bind, Option.bind_eq_some, DP_ASSERT_eq_some,
        pure, Option.some.injEq, Prod.mk.injEq, Prod.exists] at hres
      obtain ⟨_, -, mi, -, m, -, _, -, _, -, typeName, s1, hreg1, -⟩ := hres
      rw [hreg] at hreg1
      cases hreg1

/-- Witness for C35: `float3[4]` is built in; `float4` and `float3x3` are rejected, also as
the type of a parameter of an open material that accepts a parameter of the type `float3`. -/
theorem registerType_unqualified_spec_witness :
    registerType MDLBuilder.new "float3[4]".toList = some ("float3".toList, MDLBuilder.new)
    ∧ registerType MDLBuilder.new "float4".toList = none
    ∧ parameterBegin ((run MDLBuilder.new openMaterialEvents).getD MDLBuilder.new) 0 []
        "float3x3".toList "m".toList = none
    ∧ (parameterBegin ((run MDLBuilder.new openMaterialEvents).getD MDLBuilder.new) 0 []
        "float3".toList "m".toList).isSome = true :=
  ⟨(registerType_unqualified_spec MDLBuilder.new "float3[4]".toList (by decide)).1 (by decide),
   ((registerType_unqualified_spec MDLBuilder.new "float4".toList (by decide)).2
      (by decide) (by decide)).1,
   ((registerType_unqualified_spec ((run MDLBuilder.new openMaterialEvents).getD MDLBuilder.new)
      "float3x3".toList (by decide)).2 (by decide) (by decide)).2 0 [] "m".toList,
   rfl⟩

/-- Counterexample to C35 as stated: `float3x3` holds no `:` and is not a built-in spelling,
and `registerType` does not succeed on it; a parameter of that type is rejected. -/
theorem registerType_rejects_matrix_spelling :
    ':' ∉ "float3x3".toList ∧ "float3x3".toList ∉ standardTypes
    ∧ registerType MDLBuilder.new "float3x3".toList = none
    ∧ run MDLBuilder.new (openMaterialEvents ++
        [Event.parameterBegin 0 [] "float3x3".toList "m".toList]) = none
    ∧ (run MDLBuilder.new (openMaterialEvents ++
        [Event.parameterBegin 0 [] "float3".toList "m".toList])).isSome = true :=
  ⟨by decide, by decide, rfl, rfl, rfl⟩

/-! ## C36: shapes of vectors and matrices -/

theorem decimal_of_digit (d : Char) (k : Nat) (hd : d.isDigit = true) (hk : d.toNat - 48 = k) :
    decimal k = [d] := by
  have hc : d = Char.ofNat d.toNat := (Char.ofNat_toNat d).symm
  have hb : 48 ≤ d.toNat ∧ d.toNat ≤ 57 := by
    simp only [Char.isDigit, Bool.and_eq_true, decide_eq_true_eq] at hd
    exact ⟨hd.1, hd.2⟩
  obtain ⟨h1, h2⟩ := hb
  generalize d.toNat = n at hc h1 h2 hk
  subst hc
  subst hk
  interval_cases n <;> rfl

theorem intercalate_cons_eq {α : Type} (sep x : List α) (xs : List (List α)) :
    sep.intercalate (x :: xs) = x ++ (xs.map fun y => sep ++ y).flatten := by
  induction xs generalizing x with
  | nil => simp [List.intercalate]
  | cons y ys ih =>
    have h := ih y
    simp only [List.intercalate, List.intersperse, List.flatten_cons, List.map_cons] at h ⊢
    rw [h]
    simp

theorem formatColumns_false (host : Host) (values : List (List FloatBits)) :
    formatColumns host values false
      = (values.map fun column => ", ".toList ++ formatVector host column).flatten := by
  induction values with
  | nil => rfl
  | cons column rest ih => simp [formatColumns, ih]

theorem formatColumns_true (host : Host) (values : List (List FloatBits)) :
    formatColumns host values true = ", ".toList.intercalate (values.map (formatVector host)) := by
  cases values with
  | nil => rfl
  | cons column rest =>
    rw [List.map_cons, intercalate_cons_eq, List.map_map]
    simp [formatColumns, formatColumns_false, Function.comp_def]

/-- Claim C36: for every type string `T`, a vector constant that `isCompatibleType` accepts
for `T` is written by `format` as `T`, an opening parenthesis and further text; and a matrix
constant with at least one column that `isCompatibleType` accepts for `T` is written as `T`,
an opening parenthesis, the vector literals of its columns separated by `, `, and a closing
parenthesis, where the literal of every column begins with `float` followed by the second
digit of `T` (the character at position 7) and an opening parenthesis. -/
theorem compatible_shape_is_written (host : Host) (s : MDLBuilder) (T : Str) :
    (∀ values : List FloatBits,
        isCompatibleType s T (ExpressionDataConstant (ValueDataVector values)) = some true →
        ∃ rest, formatValue host (ValueDataVector values) = some (T ++ "(".toList ++ rest))
    ∧ (∀ values : List (List FloatBits), values ≠ [] →
        isCompatibleType s T (ExpressionDataConstant (ValueDataMatrix values)) = some true →
        formatValue host (ValueDataMatrix values)
            = some (T ++ "(".toList
                ++ ", ".toList.intercalate (values.map (formatVector host)) ++ ")".toList)
          ∧ ∀ column ∈ values, ∃ tail,
              formatVector host column
                = "float".toList ++ [charAt T 7] ++ "(".toList ++ tail) := by
  constructor
  · intro values h
    rw [isCompatibleType_constant, Option.some.injEq] at h
    simp only [isCompatibleConstant] at h
    obtain ⟨d, hd, hT, hk⟩ := (vector_shape_iff T values.length).1 h
    refine ⟨formatComponents host values true ++ ")".toList, ?_⟩
    simp only [formatValue, formatVector, decimal_of_digit d _ hd hk, hT, List.append_assoc]
  · intro values hne h
    rw [isCompatibleType_constant, Option.some.injEq] at h
    simp only [isCompatibleConstant] at h
    rw [matrixColumnsLoop_eq, Bool.and_eq_true] at h
    obtain ⟨hshape, hall⟩ := h
    obtain ⟨n, m, hn, hm, hT, hk⟩ := (matrix_shape_iff T values.length).1 hshape
    have h7 : charAt T 7 = m := by rw [hT]; rfl
    rw [h7] at hall ⊢
    have hcol : ∀ column ∈ values, decimal column.length = [m] := by
      intro column hmem
      have hc := List.all_eq_true.1 hall column hmem
      simp only [beq_iff_eq] at hc
      rw [(digitValue_of_isDigit m hm).1] at hc
      exact decimal_of_digit m _ hm hc
    constructor
    · obtain ⟨first, rest, rfl⟩ := List.exists_cons_of_ne_nil hne
      have hfirst := hcol first (List.mem_cons_self _ _)
      have hv : formatValue host (ValueDataMatrix (first :: rest))
          = some ("float".toList ++ decimal (first :: rest).length ++ "x".toList
              ++ decimal first.length ++ "(".toList
              ++ formatColumns host (first :: rest) true ++ ")".toList) := by
        simp only [formatValue, List.getElem?_cons_zero, Option.bind_eq_bind, Option.some_bind,
          pure]
      rw [hv, hfirst, decimal_of_digit n _ hn hk, formatColumns_true, hT]
      simp
    · intro column hmem
      refine ⟨formatComponents host column true ++ ")".toList, ?_⟩
      simp only [formatVector, hcol column hmem, List.append_assoc]

theorem compatible_shape_is_written_witness :
    (∃ rest, formatValue exampleHost (ValueDataVector [⟨0⟩, ⟨1⟩, ⟨2⟩])
        = some ("float3".toList ++ "(".toList ++ rest))
    ∧ (formatValue exampleHost (ValueDataMatrix [[⟨0⟩, ⟨1⟩, ⟨2⟩], [⟨3⟩, ⟨4⟩, ⟨5⟩]])
          = some ("float2x3".toList ++ "(".toList
              ++ ", ".toList.intercalate
                  ([[⟨0⟩, ⟨1⟩, ⟨2⟩], [⟨3⟩, ⟨4⟩, ⟨5⟩]].map (formatVector exampleHost)) ++ ")".toList)
        ∧ ∀ column ∈ [[⟨0⟩, ⟨1⟩, ⟨2⟩], [⟨3⟩, ⟨4⟩, ⟨5⟩]], ∃ tail,
            formatVector exampleHost column
              = "float".toList ++ [charAt "float2x3".toList 7] ++ "(".toList ++ tail) :=
  ⟨(compatible_shape_is_written exampleHost MDLBuilder.new "float3".toList).1 [⟨0⟩, ⟨1⟩, ⟨2⟩] rfl,
    (compatible_shape_is_written exampleHost MDLBuilder.new "float2x3".toList).2
      [[⟨0⟩, ⟨1⟩, ⟨2⟩], [⟨3⟩, ⟨4⟩, ⟨5⟩]] (by simp) rfl⟩

/-! ## C37: the compatibility checker terminates -/

theorem isCompatibleTypeRun_not_temporary (cm : Option MaterialData) (T : Str) (depth : Nat)
    (d : ExpressionData) (hd : ∀ j, d ≠ ExpressionDataTemporary j) :
    isCompatibleTypeRun cm T depth d = isCompatibleTypeRun cm T 0 d
      ∧ isCompatibleTypeRun cm T 0 d ≠ Outcome.exhausted := by
  cases d with
  | ExpressionDataTemporary j => exact absurd rfl (hd j)
  | ExpressionDataArray ts t values =>
    refine ⟨by simp [isCompatibleTypeRun], ?_⟩
    simp only [isCompatibleTypeRun]
    split <;> simp
  | ExpressionDataCall ts t cs c ad args => simp [isCompatibleTypeRun]
  | ExpressionDataConstant v => simp [isCompatibleTypeRun]
  | ExpressionDataParameter i =>
    cases cm with
    | none => simp [isCompatibleTypeRun]
    | some m => cases hp : m.parameters[i]? <;> simp [isCompatibleTypeRun, hp]

theorem isCompatibleTypeRun_temporary (m : MaterialData) (T : Str) (depth j : Nat)
    (t : ExpressionData) (ht : m.temporaries[j]? = some t) :
    isCompatibleTypeRun (some m) T (depth + 1) (ExpressionDataTemporary j)
      = isCompatibleTypeRun (some m) T depth t := by
  simp [isCompatibleTypeRun, ht]

/-- With ordered temporaries, a budget of `depth` nested calls is enough for an expression
that is no temporary, and for a temporary of an index below `depth`. -/
theorem isCompatibleTypeRun_ordered (m : MaterialData) (T : Str) (h : OrderedTemporaries m)
    (depth : Nat) :
    ∀ d, (∀ j, d = ExpressionDataTemporary j → j < depth) →
      isCompatibleTypeRun (some m) T depth d ≠ Outcome.exhausted := by
  induction depth with
  | zero =>
    intro d hd
    exact (isCompatibleTypeRun_not_temporary (some m) T 0 d
      (fun j e => absurd (hd j e) (Nat.not_lt_zero _))).2
  | succ depth ih =>
    intro d hd
    by_cases hn : ∀ j, d ≠ ExpressionDataTemporary j
    · have := isCompatibleTypeRun_not_temporary (some m) T (depth + 1) d hn
      rw [this.1]
      exact this.2
    · push_neg at hn
      obtain ⟨j, rfl⟩ := hn
      have hj := hd j rfl
      cases ht : m.temporaries[j]? with
      | none => simp [isCompatibleTypeRun, ht]
      | some t =>
        rw [isCompatibleTypeRun_temporary m T depth j t ht]
        apply ih
        intro j' e
        subst e
        have := h j j' ht
        omega

theorem isCompatibleTypeRun_unbound (m : MaterialData) (T : Str) (depth j : Nat)
    (hj : m.temporaries.length ≤ j) :
    isCompatibleTypeRun (some m) T depth (ExpressionDataTemporary j) = Outcome.fault := by
  have : m.temporaries[j]? = none := List.getElem?_eq_none hj
  cases depth <;> simp [isCompatibleTypeRun, this]

/-- A run that is not cut off by its bound gives the result of the fuel model with one
more unit. -/
theorem isCompatibleTypeFuel_eq_run (cm : Option MaterialData) (T : Str) (depth : Nat) :
    ∀ d, isCompatibleTypeRun cm T depth d ≠ Outcome.exhausted →
      isCompatibleTypeFuel cm T (depth + 1) d = (isCompatibleTypeRun cm T depth d).toOption := by
  induction depth with
  | zero =>
    intro d hd
    cases d with
    | ExpressionDataTemporary j =>
      cases cm with
      | none => simp [isCompatibleTypeFuel, isCompatibleTypeRun, Outcome.toOption]
      | some m =>
        cases ht : m.temporaries[j]? with
        | none => simp [isCompatibleTypeFuel, isCompatibleTypeRun, Outcome.toOption, ht]
        | some t => simp [isCompatibleTypeRun, ht] at hd
    | ExpressionDataArray ts t values =>
      simp only [isCompatibleTypeFuel, isCompatibleTypeRun, DP_ASSERT]
      split <;> simp [Outcome.toOption]
    | ExpressionDataCall ts t cs c ad args =>
      simp [isCompatibleTypeFuel, isCompatibleTypeRun, Outcome.toOption]
    | ExpressionDataConstant v =>
      simp [isCompatibleTypeFuel, isCompatibleTypeRun, Outcome.toOption]
    | ExpressionDataParameter i =>
      cases cm with
      | none => simp [isCompatibleTypeFuel, isCompatibleTypeRun, Outcome.toOption]
      | some m =>
        cases hp : m.parameters[i]? <;>
          simp [isCompatibleTypeFuel, isCompatibleTypeRun, Outcome.toOption, hp]
  | succ depth ih =>
    intro d hd
    cases d with
    | ExpressionDataTemporary j =>
      cases cm with
      | none => simp [isCompatibleTypeFuel, isCompatibleTypeRun, Outcome.toOption]
      | some m =>
        cases ht : m.temporaries[j]? with
        | none => simp [isCompatibleTypeFuel, isCompatibleTypeRun, Outcome.toOption, ht]
        | some t =>
          rw [isCompatibleTypeRun_temporary m T depth j t ht] at hd ⊢
          rw [isCompatibleTypeFuel_temporary]
          simp only [Option.some_bind, ht]
          exact ih t hd
    | ExpressionDataArray ts t values =>
      simp only [isCompatibleTypeFuel, isCompatibleTypeRun, DP_ASSERT]
      split <;> simp [Outcome.toOption]
    | ExpressionDataCall ts t cs c ad args =>
      simp [isCompatibleTypeFuel, isCompatibleTypeRun, Outcome.toOption]
    | ExpressionDataConstant v =>
      simp [isCompatibleTypeFuel, isCompatibleTypeRun, Outcome.toOption]
    | ExpressionDataParameter i =>
      cases cm with
      | none => simp [isCompatibleTypeFuel, isCompatibleTypeRun, Outcome.toOption]
      | some m =>
        cases hp : m.parameters[i]? <;>
          simp [isCompatibleTypeFuel, isCompatibleTypeRun, Outcome.toOption, hp]

/-- Claim C37: when every temporary of the current material that is a reference to a
temporary refers to a strictly smaller index, `isCompatibleType` ends for every type string
and every expression within as many nested recursive calls as the material has temporaries
(the run with that bound is never cut off), and the value `isCompatibleType` gives is the
outcome of that run. The function calls itself only at a reference to a temporary: for any
other expression (an array, a call, a constant, a reference to a parameter) the run with no
recursive call allowed is not cut off, and no larger bound changes it. -/
theorem isCompatibleType_terminates (s : MDLBuilder)
    (h : ∀ m, s.currentMaterial = some m → OrderedTemporaries m) (T : Str)
    (d : ExpressionData) :
    isCompatibleTypeRun s.currentMaterial T
        ((s.currentMaterial.map fun m => m.temporaries.length).getD 0) d ≠ Outcome.exhausted
      ∧ isCompatibleType s T d
          = (isCompatibleTypeRun s.currentMaterial T
              ((s.currentMaterial.map fun m => m.temporaries.length).getD 0) d).toOption
      ∧ ((∀ j, d ≠ ExpressionDataTemporary j) →
          ∀ depth, isCompatibleTypeRun s.currentMaterial T depth d
              = isCompatibleTypeRun s.currentMaterial T 0 d
            ∧ isCompatibleTypeRun s.currentMaterial T 0 d ≠ Outcome.exhausted) := by
  have h1 : isCompatibleTypeRun s.currentMaterial T
      ((s.currentMaterial.map fun m => m.temporaries.length).getD 0) d ≠ Outcome.exhausted := by
    cases hm : s.currentMaterial with
    | none =>
      by_cases hn : ∀ j, d ≠ ExpressionDataTemporary j
      · have := isCompatibleTypeRun_not_temporary none T
          (((none : Option MaterialData).map fun m => m.temporaries.length).getD 0) d hn
        rw [this.1]
        exact this.2
      · push_neg at hn
        obtain ⟨j, rfl⟩ := hn
        simp [isCompatibleTypeRun]
    | some m =>
      simp only [Option.map_some', Option.getD_some]
      by_cases hb : ∀ j, d = ExpressionDataTemporary j → j < m.temporaries.length
      · exact isCompatibleTypeRun_ordered m T (h m hm) _ d hb
      · push_neg at hb
        obtain ⟨j, rfl, hj⟩ := hb
        rw [isCompatibleTypeRun_unbound m T _ j hj]
        simp
  refine ⟨h1, ?_, fun hn depth => isCompatibleTypeRun_not_temporary _ T depth d hn⟩
  unfold isCompatibleType
  exact isCompatibleTypeFuel_eq_run _ T _ d h1

theorem chainedState_ordered :
    ∀ m, chainedState.currentMaterial = some m → OrderedTemporaries m := by
  intro m hm i j hij
  have hc : chainedState.currentMaterial = some chainedMaterial := rfl
  rw [hc] at hm
  have hm' := (Option.some.inj hm).symm
  subst hm'
  match i, hij with
  | 0, hij => simp [chainedMaterial] at hij
  | 1, hij =>
    simp only [chainedMaterial, List.getElem?_cons_succ, List.getElem?_cons_zero,
      Option.some.injEq, ExpressionDataTemporary.injEq] at hij
    omega
  | i + 2, hij => simp [chainedMaterial] at hij

theorem isCompatibleType_terminates_witness :
    (∀ m, chainedState.currentMaterial = some m → OrderedTemporaries m)
      ∧ isCompatibleTypeRun chainedState.currentMaterial "bool".toList
          ((chainedState.currentMaterial.map fun m => m.temporaries.length).getD 0)
          (ExpressionDataTemporary 1) ≠ Outcome.exhausted
      ∧ isCompatibleType chainedState "bool".toList (ExpressionDataTemporary 1)
          = (isCompatibleTypeRun chainedState.currentMaterial "bool".toList
              ((chainedState.currentMaterial.map fun m => m.temporaries.length).getD 0)
              (ExpressionDataTemporary 1)).toOption
      ∧ isCompatibleType chainedState "bool".toList (ExpressionDataTemporary 1) = some true :=
  ⟨chainedState_ordered,
    (isCompatibleType_terminates chainedState chainedState_ordered "bool".toList
      (ExpressionDataTemporary 1)).1,
    (isCompatibleType_terminates chainedState chainedState_ordered "bool".toList
      (ExpressionDataTemporary 1)).2.1, rfl⟩

/-- The order of the temporaries matters: for a temporary that refers to itself, every
bound on the nested calls is reached. -/
theorem isCompatibleTypeRun_self_reference (m : MaterialData) (T : Str) (j : Nat)
    (h : m.temporaries[j]? = some (ExpressionDataTemporary j)) (depth : Nat) :
    isCompatibleTypeRun (some m) T depth (ExpressionDataTemporary j) = Outcome.exhausted := by
  induction depth with
  | zero => simp [isCompatibleTypeRun, h]
  | succ depth ih => rw [isCompatibleTypeRun_temporary m T depth j _ h, ih]

/-! ## C38: indices of references to parameters -/

/-- Counterexample to claim C38: the builder accepts the events of a material with one
parameter whose field `surface` is a reference to parameter 5; the completed material holds
that reference, and the serializer's lookup for it is outside the parameters, so `format`,
`type` and the writing of the material fail. -/
theorem stray_parameter_reference_accepted :
    (∃ s, run MDLBuilder.new strayReferenceEvents = some s
        ∧ s.m_materials.map (fun m => (m.parameters.length, m.fields))
            = [(1, [("surface".toList, some (ExpressionDataParameter 5))])])
      ∧ format exampleHost strayReferenceMaterial (ExpressionDataParameter 5) 0 = none
      ∧ type strayReferenceMaterial (ExpressionDataParameter 5) = none
      ∧ writeMaterial exampleHost strayReferenceMaterial = none :=
  ⟨⟨_, rfl, rfl⟩, rfl, rfl, rfl⟩

/-- Claim C38 (amended): the builder does not bound the index of a reference to a
parameter. `referenceParameter(idx)` pushes the reference for every `idx`; whether
`fieldEnd` or `temporaryEnd` accepts does not depend on the expression on the stack; and
`isCompatibleType`, where an end event calls it on a reference to a parameter, gives a value
exactly when the index is smaller than the parameter count of the current material. In the
serializer, the lookup `material.parameters[index]` of `format` and of `type` succeeds
exactly when the index is smaller than the parameter count of the material. -/
theorem parameter_reference_bounds (host : Host) (s : MDLBuilder) (material : MaterialData)
    (T : Str) (index level : Nat) (top other : ExpressionData) :
    referenceParameter s index
        = some { s with
            m_currentExpression := ExpressionDataParameter index :: s.m_currentExpression }
      ∧ (fieldEnd { s with m_currentExpression := [top] }).isSome
          = (fieldEnd { s with m_currentExpression := [other] }).isSome
      ∧ (temporaryEnd { s with m_currentExpression := [top] }).isSome
          = (temporaryEnd { s with m_currentExpression := [other] }).isSome
      ∧ ((isCompatibleType s T (ExpressionDataParameter index)).isSome = true
          ↔ ∃ m, s.currentMaterial = some m ∧ index < m.parameters.length)
      ∧ ((format host material (ExpressionDataParameter index) level).isSome = true
          ↔ index < material.parameters.length)
      ∧ ((type material (ExpressionDataParameter index)).isSome = true
          ↔ index < material.parameters.length) := by
  refine ⟨rfl, ?_, ?_, ?_, ?_, ?_⟩
  · rw [Bool.eq_iff_iff]
    simp only [Option.isSome_iff_exists, fieldEnd_eq_some_iff]
    constructor
    · rintro ⟨_, _, mi, name, m, old, -, hcm, hf, hm, hold, -⟩
      exact ⟨_, other, mi, name, m, old, rfl, hcm, hf, hm, hold, rfl⟩
    · rintro ⟨_, _, mi, name, m, old, -, hcm, hf, hm, hold, -⟩
      exact ⟨_, top, mi, name, m, old, rfl, hcm, hf, hm, hold, rfl⟩
  · rw [Bool.eq_iff_iff]
    simp only [Option.isSome_iff_exists, temporaryEnd_eq_some_iff]
    constructor
    · rintro ⟨_, _, mi, m, -, hmi, hm, -⟩
      exact ⟨_, other, mi, m, rfl, hmi, hm, rfl⟩
    · rintro ⟨_, _, mi, m, -, hmi, hm, -⟩
      exact ⟨_, top, mi, m, rfl, hmi, hm, rfl⟩
  · simp only [isCompatibleType, isCompatibleTypeFuel]
    cases s.currentMaterial with
    | none => simp
    | some m =>
      rcases Nat.lt_or_ge index m.parameters.length with h | h
      · simp [List.getElem?_eq_getElem h, h]
      · simp [List.getElem?_eq_none h, Nat.not_lt.2 h]
  · simp only [format, Option.isSome_map]
    rcases Nat.lt_or_ge index material.parameters.length with h | h
    · simp [List.getElem?_eq_getElem h, h]
    · simp [List.getElem?_eq_none h, Nat.not_lt.2 h]
  · simp only [type, Option.isSome_map]
    rcases Nat.lt_or_ge index material.parameters.length with h | h
    · simp [List.getElem?_eq_getElem h, h]
    · simp [List.getElem?_eq_none h, Nat.not_lt.2 h]

/-! ## C39: the import table is well formed -/

theorem setInsert_ne_nil (x : Str) (l : List Str) : setInsert x l ≠ [] := by
  cases l with
  | nil => simp [setInsert]
  | cons y rest =>
    unfold setInsert
    split
    · simp
    · split <;> simp

theorem importsInsert_wellFormed (imports : List (Str × List Str)) (nameSpace name : Str)
    (hns : nameSpace ≠ []) (h : ImportsWellFormed imports) :
    ImportsWellFormed (importsInsert imports nameSpace name) := by
  intro entry hentry
  rcases mem_mapSet _ _ _ _ _ hentry with h1 | h1
  · rw [h1]
    exact ⟨hns, setInsert_ne_nil _ _⟩
  · exact h entry h1

theorem registerImport_wellFormed (s : MDLBuilder) (nameSpace name : Str)
    (h : ImportsWellFormed s.m_imports) :
    ImportsWellFormed (registerImport s nameSpace name).m_imports := by
  unfold registerImport
  split
  · rename_i hc
    exact importsInsert_wellFormed _ _ _ hc.1 h
  · exact h

theorem registerType_wellFormed (s s1 : MDLBuilder) (name typeName : Str)
    (hr : registerType s name = some (typeName, s1)) (h : ImportsWellFormed s.m_imports) :
    ImportsWellFormed s1.m_imports := by
  unfold registerType at hr
  dsimp only at hr
  generalize (if find_first_of name '[' ≠ npos then substr name 0 (find_first_of name '[')
    else name) = tn at hr
  by_cases hstd : tn ∈ standardTypes
  · rw [if_pos hstd] at hr
    simp only [Option.some.injEq, Prod.mk.injEq] at hr
    exact hr.2 ▸ h
  · rw [if_neg hstd] at hr
    simp only [Option.bind_eq_bind, Option.bind_eq_some, DP_ASSERT_eq_some] at hr
    obtain ⟨nameSpace, -, _, -, hrest⟩ := hr
    split at hrest
    · rename_i hns
      simp only [pure, Option.some.injEq, Prod.mk.injEq] at hrest
      rw [← hrest.2]
      exact importsInsert_wellFormed _ _ _ hns h
    · simp only [pure, Option.some.injEq, Prod.mk.injEq] at hrest
      exact hrest.2 ▸ h

theorem registerArguments_wellFormed (arguments : List (Str × Str)) (s s1 : MDLBuilder)
    (callArguments : List ArgumentData)
    (hr : registerArguments s arguments = some (callArguments, s1))
    (h : ImportsWellFormed s.m_imports) : ImportsWellFormed s1.m_imports := by
  induction arguments generalizing s callArguments with
  | nil =>
    simp only [registerArguments, Option.some.injEq, Prod.mk.injEq] at hr
    exact hr.2 ▸ h
  | cons arg rest ih =>
    simp only [registerArguments, Option.bind_eq_bind, Option.bind_eq_some, pure,
      Option.some.injEq, Prod.mk.injEq, Prod.exists] at hr
    obtain ⟨argSpace, -, ca, s2, hrec, -, rfl⟩ := hr
    exact ih _ _ hrec (registerImport_wellFormed _ _ _ h)

theorem setCurrentMaterial_imports (s : MDLBuilder) (m : MaterialData) :
    (s.setCurrentMaterial m).m_imports = s.m_imports := by
  unfold MDLBuilder.setCurrentMaterial
  cases s.m_currentMaterial <;> rfl

theorem annotationEnd_imports (s s' : MDLBuilder) (h : annotationEnd s = some s') :
    s'.m_imports = s.m_imports := by
  unfold annotationEnd at h
  split at h
  · simp at h
  · simp only [Option.bind_eq_bind, Option.bind_eq_some, DP_ASSERT_eq_some] at h
    obtain ⟨_, -, h⟩ := h
    split at h
    · simp only [Option.bind_eq_bind, Option.bind_eq_some, pure, Option.some.injEq] at h
      obtain ⟨m, hm, p, hp, rfl⟩ := h
      rfl
    · simp only [Option.bind_eq_bind, Option.bind_eq_some, pure, Option.some.injEq] at h
      obtain ⟨m, hm, rfl⟩ := h
      exact setCurrentMaterial_imports s _

theorem temporaryEnd_imports (s s' : MDLBuilder) (h : temporaryEnd s = some s') :
    s'.m_imports = s.m_imports := by
  obtain ⟨top, mi, m, -, -, -, rfl⟩ := (temporaryEnd_eq_some_iff s s').mp h
  rfl

/-- Every accepted event keeps the import table well formed. -/
theorem step_importsWellFormed (s s' : MDLBuilder) (e : Event) (h : step s e = some s')
    (hinv : ImportsWellFormed s.m_imports) : ImportsWellFormed s'.m_imports := by
  cases e <;> simp only [step, Option.map_eq_some', Prod.exists, exists_eq_right] at h
  all_goals try (obtain ⟨b, h⟩ := h)
  case annotationEnd => rw [annotationEnd_imports _ _ h]; exact hinv
  case temporaryEnd => rw [temporaryEnd_imports _ _ h]; exact hinv
  all_goals (
    (try simp only [annotationBegin, argumentBegin, argumentEnd, arrayBegin,
      arrayEnd, fieldBegin, fieldEnd, parameterBegin, parameterEnd, materialBegin,
      arrayElementBegin, arrayElementEnd, callBegin, callEnd, defaultRef, enumTypeBegin,
      enumTypeEnd, enumTypeValue, fileEnd, materialEnd, matrixBegin, matrixElementBegin,
      matrixElementEnd, matrixEnd, referenceParameter, referenceTemporary, structureBegin,
      structureEnd, structureMemberBegin, structureMemberEnd, structureTypeBegin,
      structureTypeElement, structureTypeEnd, temporaryBegin, valueBool, valueBsdfMeasurement,
      valueColor, valueEnum, valueFloat, valueInt, valueLightProfile, valueString, valueTexture,
      vectorBegin, vectorElementBegin, vectorElementEnd, vectorEnd, fileBegin, clear,
      MDLBuilder.pushConstant] at h)
    (try split at h)
    all_goals (try simp only [Option.bind_eq_bind, Option.bind_eq_some, DP_ASSERT_eq_some, pure,
      Option.some.injEq, Prod.mk.injEq, Prod.exists, reduceCtorEq, DP_ASSERT_false,
      Option.none_bind] at h)
    all_goals (try casesm* ∃ _, _, _ ∧ _)
    all_goals (try (have hrt := registerType_wellFormed _ _ _ _ (by assumption) hinv))
    all_goals (try (
      have hra := registerArguments_wellFormed _ _ _ _ (by assumption)
        (registerImport_wellFormed _ _ _ (registerImport_wellFormed _ _ _ hinv))))
    all_goals (try (
      have hra := registerArguments_wellFormed _ _ _ _ (by assumption)
        (registerImport_wellFormed _ _ _ hinv)))
    all_goals (try subst_vars)
    all_goals (first
      | exact hinv
      | exact hrt
      | exact hra
      | exact registerImport_wellFormed _ _ _ hinv
      | (intro entry hentry; simp [MDLBuilder.clearTables] at hentry; done)
      | (split <;> first | exact hrt | exact registerImport_wellFormed _ _ _ hinv)))

theorem run_importsWellFormed (events : List Event) (s s' : MDLBuilder)
    (h : run s events = some s') (hinv : ImportsWellFormed s.m_imports) :
    ImportsWellFormed s'.m_imports := by
  induction events generalizing s with
  | nil =>
    simp only [run, Option.some.injEq] at h
    exact h ▸ hinv
  | cons e rest ih =>
    simp only [run, Option.bind_eq_some] at h
    obtain ⟨s1, h1, h2⟩ := h
    exact ih s1 h2 (step_importsWellFormed s s1 e h1 hinv)

theorem importEntryLines_wellFormed (entry : Str × List Str) (h1 : entry.1 ≠ [])
    (h2 : entry.2 ≠ []) :
    DP_ASSERT (!entry.1.isEmpty) = some ()
      ∧ ∃ lines, importEntryLines entry = some lines ∧ 0 < lines.length := by
  have ha : DP_ASSERT (!entry.1.isEmpty) = some () := by
    rw [DP_ASSERT_eq_some]
    simpa [List.isEmpty_iff] using h1
  refine ⟨ha, ?_⟩
  unfold importEntryLines
  rw [ha]
  by_cases hlen : entry.2.length < 4
  · refine ⟨entry.2.map fun i => importLine entry.1 i, by simp [hlen], ?_⟩
    rw [List.length_map]
    exact List.length_pos.2 h2
  · exact ⟨[wildcardLine entry.1], by simp [hlen], by simp⟩

theorem importLoop_wellFormed (imports : List (Str × List Str))
    (h : ImportsWellFormed imports) : (importLoop imports).isSome = true := by
  induction imports with
  | nil => rfl
  | cons entry rest ih =>
    have he := h entry (List.mem_cons_self _ _)
    obtain ⟨-, lines, hl, -⟩ := importEntryLines_wellFormed entry he.1 he.2
    have hr := ih (fun e hmem => h e (List.mem_cons_of_mem _ hmem))
    obtain ⟨more, hm⟩ := Option.isSome_iff_exists.1 hr
    simp [importLoop, hl, hm]

/-- Claim C39: in every builder state that a sequence of accepted events leads to, from a
freshly constructed builder or from a cleared one, no key of the import table is the empty
string and every key maps to a set of names that is not empty. Hence the import block of
the serializer is written for the table (no assertion fails), the assertion on the name
space holds for every entry, and every entry yields at least one line. -/
theorem reachable_imports_well_formed (s0 s : MDLBuilder) (events : List Event)
    (h : run MDLBuilder.new events = some s ∨ run s0.clearTables events = some s) :
    (∀ entry ∈ s.m_imports, entry.1 ≠ [] ∧ entry.2 ≠ [])
      ∧ (importBlock s.m_imports).isSome = true
      ∧ ∀ entry ∈ s.m_imports, DP_ASSERT (!entry.1.isEmpty) = some ()
          ∧ ∃ lines, importEntryLines entry = some lines ∧ 0 < lines.length := by
  have hinv : ImportsWellFormed s.m_imports := by
    rcases h with h | h
    · exact run_importsWellFormed events _ s h (fun e he => by simp [MDLBuilder.new] at he)
    · exact run_importsWellFormed events _ s h
        (fun e he => by simp [MDLBuilder.clearTables] at he)
  refine ⟨hinv, ?_, fun entry he => importEntryLines_wellFormed entry (hinv entry he).1
    (hinv entry he).2⟩
  unfold importBlock
  split
  · rfl
  · obtain ⟨lines, hl⟩ := Option.isSome_iff_exists.1 (importLoop_wellFormed _ hinv)
    simp [hl]

theorem reachable_imports_well_formed_witness :
    (run MDLBuilder.new fieldOnlyEvents = some fieldOnlyState
        ∨ run MDLBuilder.new.clearTables fieldOnlyEvents = some fieldOnlyState)
      ∧ fieldOnlyState.m_imports = [("df".toList, ["diffuse_reflection_bsdf".toList])]
      ∧ (∀ entry ∈ fieldOnlyState.m_imports, entry.1 ≠ [] ∧ entry.2 ≠ [])
      ∧ (importBlock fieldOnlyState.m_imports).isSome = true :=
  ⟨Or.inl rfl, rfl,
    (reachable_imports_well_formed MDLBuilder.new fieldOnlyState fieldOnlyEvents (Or.inl rfl)).1,
    (reachable_imports_well_formed MDLBuilder.new fieldOnlyState fieldOnlyEvents
      (Or.inl rfl)).2.1⟩

/-! ## C40: sizes of arrays, vectors and matrices -/

/-- Counterexample to claim C40: the builder accepts the events of an array announced with
size 1 whose first element is a vector that is never closed by `vectorEnd`; `arrayEnd` is
accepted with two collected elements, because it compares with the size 2 the open vector
left on the size stack, and the announced size 1 stays on that stack. -/
theorem arrayEnd_accepts_other_size :
    (run MDLBuilder.new unbalancedArrayEvents).map
        (fun s => (s.m_currentExpression, s.m_currentVectorSize))
      = some ([ExpressionDataArray [] "float2".toList
          [ExpressionDataConstant (ValueDataVector [FloatBits.mk 0, FloatBits.mk 1]),
           ExpressionDataConstant (ValueDataVector [FloatBits.mk 2, FloatBits.mk 3])]], [1]) :=
  rfl

theorem arrayElementBegin_isSome_iff (s : MDLBuilder) (idx : Nat) :
    (arrayElementBegin s idx).isSome = true
      ↔ ∃ ts t values rest,
          s.m_currentExpression = ExpressionDataArray ts t values :: rest
            ∧ idx = values.length := by
  constructor
  · intro h
    unfold arrayElementBegin at h
    split at h
    · rename_i ts t values rest hexp
      by_cases hidx : idx = values.length
      · exact ⟨ts, t, values, rest, hexp, hidx⟩
      · simp [DP_ASSERT, hidx] at h
    · simp at h
  · rintro ⟨ts, t, values, rest, hexp, rfl⟩
    simp [arrayElementBegin, hexp, DP_ASSERT]

theorem vectorElementBegin_isSome_iff (s : MDLBuilder) (idx : Nat) :
    (vectorElementBegin s idx).isSome = true
      ↔ ∃ values rest,
          s.m_currentExpression = ExpressionDataConstant (ValueDataVector values) :: rest
            ∧ idx = values.length := by
  constructor
  · intro h
    unfold vectorElementBegin at h
    split at h
    · rename_i values rest hexp
      by_cases hidx : idx = values.length
      · exact ⟨values, rest, hexp, hidx⟩
      · simp [DP_ASSERT, hidx] at h
    · simp at h
  · rintro ⟨values, rest, hexp, rfl⟩
    simp [vectorElementBegin, hexp, DP_ASSERT]

theorem matrixElementBegin_isSome_iff (s : MDLBuilder) (idx : Nat) :
    (matrixElementBegin s idx).isSome = true
      ↔ ∃ values rest,
          s.m_currentExpression = ExpressionDataConstant (ValueDataMatrix values) :: rest
            ∧ idx = values.length := by
  constructor
  · intro h
    unfold matrixElementBegin at h
    split at h
    · rename_i values rest hexp
      by_cases hidx : idx = values.length
      · exact ⟨values, rest, hexp, hidx⟩
      · simp [DP_ASSERT, hidx] at h
    · simp at h
  · rintro ⟨values, rest, hexp, rfl⟩
    simp [matrixElementBegin, hexp, DP_ASSERT]

theorem arrayEnd_eq_some_iff (s s' : MDLBuilder) :
    arrayEnd s = some s'
      ↔ ∃ ts t values rest size sizes,
          s.m_currentExpression = ExpressionDataArray ts t values :: rest
            ∧ s.m_currentVectorSize = size :: sizes
            ∧ values.length = size
            ∧ s' = { s with m_currentVectorSize := sizes } := by
  constructor
  · intro h
    unfold arrayEnd at h
    split at h
    · rename_i ts t values rest size sizes hexp hsizes
      by_cases hlen : values.length = size
      · simp only [DP_ASSERT, beq_iff_eq, hlen, if_true, Option.bind_eq_bind, Option.some_bind,
          pure, Option.some.injEq] at h
        exact ⟨ts, t, values, rest, size, sizes, hexp, hsizes, hlen, h.symm⟩
      · simp [DP_ASSERT, hlen] at h
    · simp at h
  · rintro ⟨ts, t, values, rest, size, sizes, hexp, hsizes, rfl, rfl⟩
    simp [arrayEnd, hexp, hsizes, DP_ASSERT]

theorem vectorEnd_eq_some_iff (s s' : MDLBuilder) :
    vectorEnd s = some s'
      ↔ ∃ values rest size sizes,
          s.m_currentExpression = ExpressionDataConstant (ValueDataVector values) :: rest
            ∧ s.m_currentVectorSize = size :: sizes
            ∧ values.length = size
            ∧ s' = { s with m_currentVectorSize := sizes } := by
  constructor
  · intro h
    unfold vectorEnd at h
    split at h
    · rename_i values rest size sizes hexp hsizes
      by_cases hlen : values.length = size
      · simp only [DP_ASSERT, beq_iff_eq, hlen, if_true, Option.bind_eq_bind, Option.some_bind,
          pure, Option.some.injEq] at h
        exact ⟨values, rest, size, sizes, hexp, hsizes, hlen, h.symm⟩
      · simp [DP_ASSERT, hlen] at h
    · simp at h
  · rintro ⟨values, rest, size, sizes, hexp, hsizes, rfl, rfl⟩
    simp [vectorEnd, hexp, hsizes, DP_ASSERT]

theorem matrixEnd_eq_some_iff (s s' : MDLBuilder) :
    matrixEnd s = some s'
      ↔ ∃ values rest size sizes,
          s.m_currentExpression = ExpressionDataConstant (ValueDataMatrix values) :: rest
            ∧ s.m_currentVectorSize = size :: sizes
            ∧ values.length = size
            ∧ s' = { s with m_currentVectorSize := sizes } := by
  constructor
  · intro h
    unfold matrixEnd at h
    split at h
    · rename_i values rest size sizes hexp hsizes
      by_cases hlen : values.length = size
      · simp only [DP_ASSERT, beq_iff_eq, hlen, if_true, Option.bind_eq_bind, Option.some_bind,
          pure, Option.some.injEq] at h
        exact ⟨values, rest, size, sizes, hexp, hsizes, hlen, h.symm⟩
      · simp [DP_ASSERT, hlen] at h
    · simp at h
  · rintro ⟨values, rest, size, sizes, hexp, hsizes, rfl, rfl⟩
    simp [matrixEnd, hexp, hsizes, DP_ASSERT]

theorem vectorElementEnd_eq_some_iff (s s' : MDLBuilder) :
    vectorElementEnd s = some s'
      ↔ ∃ value values rest idx indices,
          s.m_currentExpression = ExpressionDataConstant (ValueDataFloat value)
              :: ExpressionDataConstant (ValueDataVector values) :: rest
            ∧ s.m_currentIndex = idx :: indices
            ∧ values.length = idx
            ∧ s' = { s with
                m_currentExpression :=
                  ExpressionDataConstant (ValueDataVector (values ++ [value])) :: rest,
                m_currentIndex := indices } := by
  constructor
  · intro h
    unfold vectorElementEnd at h
    split at h
    · rename_i value values rest idx indices hexp hidx
      by_cases hlen : values.length = idx
      · simp only [DP_ASSERT, beq_iff_eq, hlen, if_true, Option.bind_eq_bind, Option.some_bind,
          pure, Option.some.injEq] at h
        exact ⟨value, values, rest, idx, indices, hexp, hidx, hlen, h.symm⟩
      · simp [DP_ASSERT, hlen] at h
    · simp at h
  · rintro ⟨value, values, rest, idx, indices, hexp, hidx, rfl, rfl⟩
    simp [vectorElementEnd, hexp, hidx, DP_ASSERT]

theorem matrixElementEnd_eq_some_iff (s s' : MDLBuilder) :
    matrixElementEnd s = some s'
      ↔ ∃ column values rest idx indices,
          s.m_currentExpression = ExpressionDataConstant (ValueDataVector column)
              :: ExpressionDataConstant (ValueDataMatrix values) :: rest
            ∧ s.m_currentIndex = idx :: indices
            ∧ values.length = idx
            ∧ s' = { s with
                m_currentExpression :=
                  ExpressionDataConstant (ValueDataMatrix (values ++ [column])) :: rest,
                m_currentIndex := indices } := by
  constructor
  · intro h
    unfold matrixElementEnd at h
    split at h
    · rename_i column values rest idx indices hexp hidx
      by_cases hlen : values.length = idx
      · simp only [DP_ASSERT, beq_iff_eq, hlen, if_true, Option.bind_eq_bind, Option.some_bind,
          pure, Option.some.injEq] at h
        exact ⟨column, values, rest, idx, indices, hexp, hidx, hlen, h.symm⟩
      · simp [DP_ASSERT, hlen] at h
    · simp at h
  · rintro ⟨column, values, rest, idx, indices, hexp, hidx, rfl, rfl⟩
    simp [matrixElementEnd, hexp, hidx, DP_ASSERT]

theorem registerImport_sizes (s : MDLBuilder) (nameSpace name : Str) :
    (registerImport s nameSpace name).m_currentVectorSize = s.m_currentVectorSize := by
  obtain ⟨imports, h⟩ := registerImport_frame s nameSpace name
  rw [h]

theorem registerType_sizes (s s1 : MDLBuilder) (name typeName : Str)
    (h : registerType s name = some (typeName, s1)) :
    s1.m_currentVectorSize = s.m_currentVectorSize := by
  obtain ⟨imports, rfl⟩ := registerType_frame _ _ _ _ h
  rfl

theorem registerArguments_sizes (arguments : List (Str × Str)) (s s1 : MDLBuilder)
    (callArguments : List ArgumentData)
    (h : registerArguments s arguments = some (callArguments, s1)) :
    s1.m_currentVectorSize = s.m_currentVectorSize := by
  obtain ⟨imports, rfl⟩ := registerArguments_frame _ _ _ _ h
  rfl

theorem annotationEnd_sizes (s s' : MDLBuilder) (h : annotationEnd s = some s') :
    s'.m_currentVectorSize = s.m_currentVectorSize := by
  unfold annotationEnd at h
  split at h
  · simp at h
  · simp only [Option.bind_eq_bind, Option.bind_eq_some, DP_ASSERT_eq_some] at h
    obtain ⟨_, -, h⟩ := h
    split at h
    · simp only [Option.bind_eq_bind, Option.bind_eq_some, pure, Option.some.injEq] at h
      obtain ⟨m, hm, p, hp, rfl⟩ := h
      rfl
    · simp only [Option.bind_eq_bind, Option.bind_eq_some, pure, Option.some.injEq] at h
      obtain ⟨m, hm, rfl⟩ := h
      unfold MDLBuilder.setCurrentMaterial
      cases s.m_currentMaterial <;> rfl

theorem temporaryEnd_sizes (s s' : MDLBuilder) (h : temporaryEnd s = some s') :
    s'.m_currentVectorSize = s.m_currentVectorSize := by
  obtain ⟨top, mi, m, -, -, -, rfl⟩ := (temporaryEnd_eq_some_iff s s').mp h
  rfl

/-- Every accepted event changes the size stack as `sizeStackAfter` says. -/
theorem step_sizeStack (s s' : MDLBuilder) (e : Event) (h : step s e = some s') :
    s'.m_currentVectorSize = sizeStackAfter s.m_currentVectorSize e := by
  cases e <;> simp only [step, Option.map_eq_some', Prod.exists, exists_eq_right] at h
    <;> simp only [sizeStackAfter]
  all_goals try (obtain ⟨b, h⟩ := h)
  case annotationEnd => exact annotationEnd_sizes _ _ h
  case temporaryEnd => exact temporaryEnd_sizes _ _ h
  all_goals (
    (try simp only [annotationBegin, argumentBegin, argumentEnd, arrayBegin,
      arrayEnd, fieldBegin, fieldEnd, parameterBegin, parameterEnd, materialBegin,
      arrayElementBegin, arrayElementEnd, callBegin, callEnd, defaultRef, enumTypeBegin,
      enumTypeEnd, enumTypeValue, fileEnd, materialEnd, matrixBegin, matrixElementBegin,
      matrixElementEnd, matrixEnd, referenceParameter, referenceTemporary, structureBegin,
      structureEnd, structureMemberBegin, structureMemberEnd, structureTypeBegin,
      structureTypeElement, structureTypeEnd, temporaryBegin, valueBool, valueBsdfMeasurement,
      valueColor, valueEnum, valueFloat, valueInt, valueLightProfile, valueString, valueTexture,
      vectorBegin, vectorElementBegin, vectorElementEnd, vectorEnd, fileBegin, clear,
      MDLBuilder.pushConstant] at h)
    (try split at h)
    all_goals (try simp only [Option.bind_eq_bind, Option.bind_eq_some, DP_ASSERT_eq_some, pure,
      Option.some.injEq, Prod.mk.injEq, Prod.exists, reduceCtorEq, DP_ASSERT_false,
      Option.none_bind] at h)
    all_goals (try casesm* ∃ _, _, _ ∧ _)
    all_goals (try (have hrt := registerType_sizes _ _ _ _ (by assumption)))
    all_goals (try (have hra := registerArguments_sizes _ _ _ _ (by assumption)))
    all_goals (try subst_vars)
    all_goals (first
      | rfl
      | (simp only [hrt] <;> done)
      | simp only [hra, registerImport_sizes]
      | (simp only [registerImport_sizes] <;> done)
      | (simp only [*, List.tail_cons] <;> done)
      | (split <;> simp only [hrt])
      | (split <;> simp only [registerImport_sizes])))

theorem run_sizeStack (events : List Event) (s s' : MDLBuilder)
    (h : run s events = some s') :
    s'.m_currentVectorSize = events.foldl sizeStackAfter s.m_currentVectorSize := by
  induction events generalizing s with
  | nil =>
    simp only [run, Option.some.injEq] at h
    rw [← h]
    rfl
  | cons e rest ih =>
    simp only [run, Option.bind_eq_some] at h
    obtain ⟨s1, h1, h2⟩ := h
    rw [List.foldl_cons, ← step_sizeStack s s1 e h1]
    exact ih s1 h2

theorem vectorBegin_shape (s : MDLBuilder) (type : Str)
    (h : (vectorBegin s type).isSome = true) :
    ∃ d : Char, d.isDigit = true ∧ type = "float".toList ++ [d]
      ∧ digitValue (charAt type 5) = d.toNat - 48 := by
  obtain ⟨r, hr⟩ := Option.isSome_iff_exists.1 h
  simp only [vectorBegin, Option.bind_eq_bind, Option.bind_eq_some, DP_ASSERT_eq_some] at hr
  obtain ⟨_, hc, -⟩ := hr
  have hk : (type.length == 6 && substr type 0 5 == "float".toList && (charAt type 5).isDigit
      && digitValue (charAt type 5) == digitValue (charAt type 5)) = true := by
    rw [Bool.and_eq_true]
    exact ⟨hc, beq_self_eq_true _⟩
  obtain ⟨d, hd, hT, hv⟩ := (vector_shape_iff type _).1 hk
  exact ⟨d, hd, hT, hv.symm⟩

theorem matrixBegin_shape (s : MDLBuilder) (type : Str)
    (h : (matrixBegin s type).isSome = true) :
    ∃ n m : Char, n.isDigit = true ∧ m.isDigit = true
      ∧ type = "float".toList ++ [n, 'x', m]
      ∧ digitValue (charAt type 5) = n.toNat - 48 := by
  obtain ⟨r, hr⟩ := Option.isSome_iff_exists.1 h
  simp only [matrixBegin, Option.bind_eq_bind, Option.bind_eq_some, DP_ASSERT_eq_some] at hr
  obtain ⟨_, hc, -⟩ := hr
  simp only [Bool.and_eq_true] at hc
  obtain ⟨⟨⟨⟨hlen, hpre⟩, hdig⟩, hx⟩, hm⟩ := hc
  have hk : (type.length == 8 && substr type 0 5 == "float".toList && (charAt type 5).isDigit
      && digitValue (charAt type 5) == digitValue (charAt type 5) && charAt type 6 == 'x'
      && (charAt type 7).isDigit) = true := by
    simp only [Bool.and_eq_true]
    exact ⟨⟨⟨⟨⟨hlen, hpre⟩, hdig⟩, beq_self_eq_true _⟩, hx⟩, hm⟩
  obtain ⟨n, m, hn, hm', hT, hv⟩ := (matrix_shape_iff type _).1 hk
  exact ⟨n, m, hn, hm', hT, hv.symm⟩

/-- Claim C40 (amended): `arrayElementBegin(idx)`, `vectorElementBegin(idx)` and
`matrixElementBegin(idx)` are accepted exactly when the node on top of the expression stack
is an array (a vector, a matrix) and `idx` equals the number of elements it has collected.
`arrayEnd`, `vectorEnd` and `matrixEnd` are accepted exactly when the node on top is an
array (a vector, a matrix) whose collected element count equals the number on top of the
size stack `m_currentVectorSize`, and they pop that number. Every accepted sequence of
events changes the size stack event by event as `sizeStackAfter` says: `arrayBegin` pushes
its size argument, `vectorBegin` and `matrixBegin` push the digit N of their type `floatN`
or `floatNxM`, the end events pop, and no other event touches the stack. The builder does
not require a begin event to be closed before the end event of the node around it, so the
number on top is the one the matching begin event pushed only when the begin events between
the two are closed. The element-end events append the element to the node below it, so
elements are collected in event order. -/
theorem sized_events_follow_size_stack (s s' : MDLBuilder) (idx : Nat) (events : List Event)
    (type : Str) :
    ((arrayElementBegin s idx).isSome = true
        ↔ ∃ ts t values rest,
            s.m_currentExpression = ExpressionDataArray ts t values :: rest
              ∧ idx = values.length)
      ∧ ((vectorElementBegin s idx).isSome = true
        ↔ ∃ values rest,
            s.m_currentExpression = ExpressionDataConstant (ValueDataVector values) :: rest
              ∧ idx = values.length)
      ∧ ((matrixElementBegin s idx).isSome = true
        ↔ ∃ values rest,
            s.m_currentExpression = ExpressionDataConstant (ValueDataMatrix values) :: rest
              ∧ idx = values.length)
      ∧ (arrayEnd s = some s'
        ↔ ∃ ts t values rest size sizes,
            s.m_currentExpression = ExpressionDataArray ts t values :: rest
              ∧ s.m_currentVectorSize = size :: sizes
              ∧ values.length = size
              ∧ s' = { s with m_currentVectorSize := sizes })
      ∧ (vectorEnd s = some s'
        ↔ ∃ values rest size sizes,
            s.m_currentExpression = ExpressionDataConstant (ValueDataVector values) :: rest
              ∧ s.m_currentVectorSize = size :: sizes
              ∧ values.length = size
              ∧ s' = { s with m_currentVectorSize := sizes })
      ∧ (matrixEnd s = some s'
        ↔ ∃ values rest size sizes,
            s.m_currentExpression = ExpressionDataConstant (ValueDataMatrix values) :: rest
              ∧ s.m_currentVectorSize = size :: sizes
              ∧ values.length = size
              ∧ s' = { s with m_currentVectorSize := sizes })
      ∧ (run s events = some s' →
          s'.m_currentVectorSize = events.foldl sizeStackAfter s.m_currentVectorSize)
      ∧ ((vectorBegin s type).isSome = true →
          ∃ d : Char, d.isDigit = true ∧ type = "float".toList ++ [d]
            ∧ digitValue (charAt type 5) = d.toNat - 48)
      ∧ ((matrixBegin s type).isSome = true →
          ∃ n m : Char, n.isDigit = true ∧ m.isDigit = true
            ∧ type = "float".toList ++ [n, 'x', m]
            ∧ digitValue (charAt type 5) = n.toNat - 48)
      ∧ (arrayElementEnd s = some s' →
          ∃ argument ts t values rest,
            s.m_currentExpression = argument :: ExpressionDataArray ts t values :: rest
              ∧ s'.m_currentExpression
                  = ExpressionDataArray ts t (values ++ [argument]) :: rest)
      ∧ (vectorElementEnd s = some s' →
          ∃ value values rest,
            s.m_currentExpression = ExpressionDataConstant (ValueDataFloat value)
                :: ExpressionDataConstant (ValueDataVector values) :: rest
              ∧ s'.m_currentExpression
                  = ExpressionDataConstant (ValueDataVector (values ++ [value])) :: rest)
      ∧ (matrixElementEnd s = some s' →
          ∃ column values rest,
            s.m_currentExpression = ExpressionDataConstant (ValueDataVector column)
                :: ExpressionDataConstant (ValueDataMatrix values) :: rest
              ∧ s'.m_currentExpression
                  = ExpressionDataConstant (ValueDataMatrix (values ++ [column])) :: rest) := by
  refine ⟨arrayElementBegin_isSome_iff s idx, vectorElementBegin_isSome_iff s idx,
    matrixElementBegin_isSome_iff s idx, arrayEnd_eq_some_iff s s', vectorEnd_eq_some_iff s s',
    matrixEnd_eq_some_iff s s', run_sizeStack events s s', vectorBegin_shape s type,
    matrixBegin_shape s type, ?_, ?_, ?_⟩
  · intro h
    obtain ⟨argument, ts, t, values, rest, idx', indices, hexp, -, -, -, rfl⟩ :=
      (arrayElementEnd_eq_some_iff s s').mp h
    exact ⟨argument, ts, t, values, rest, hexp, rfl⟩
  · intro h
    obtain ⟨value, values, rest, idx', indices, hexp, -, -, rfl⟩ :=
      (vectorElementEnd_eq_some_iff s s').mp h
    exact ⟨value, values, rest, hexp, rfl⟩
  · intro h
    obtain ⟨column, values, rest, idx', indices, hexp, -, -, rfl⟩ :=
      (matrixElementEnd_eq_some_iff s s').mp h
    exact ⟨column, values, rest, hexp, rfl⟩

theorem sized_events_follow_size_stack_witness :
    run MDLBuilder.new [Event.vectorBegin "float2".toList] = some vectorBegunState
      ∧ vectorBegunState.m_currentVectorSize
          = [Event.vectorBegin "float2".toList].foldl sizeStackAfter
              MDLBuilder.new.m_currentVectorSize
      ∧ vectorBegunState.m_currentVectorSize = [2] :=
  ⟨rfl,
    (sized_events_follow_size_stack MDLBuilder.new vectorBegunState 0
      [Event.vectorBegin "float2".toList] "float2".toList).2.2.2.2.2.2.1 rfl,
    rfl⟩

end MDL
